import Mathlib

/-!
# Praat, `dwtools/PCA.cpp` and `dwtools/CCA_and_Correlation.cpp`: a shallow embedding

The numeric code of `PCA.cpp` and of `CCA_and_Correlation.cpp` is embedded as executable
Lean functions.

* `integer` (a signed machine integer) is `Int`; the sizes and indices that occur are
  far from the 64-bit limits, so no wrap-around is modelled.
* `double` and `longdouble` are `Dbl K = Option K` over a linearly ordered field `K`
  (`ℚ` for the evaluated examples, `ℝ` with the natural logarithm where the sign of the
  sphericity statistic is at stake): `some x` is a finite number, `none` is what Praat
  calls `undefined` (a NaN or an infinity).  Arithmetic is exact on finite numbers,
  an undefined operand gives an undefined result, a division by zero is undefined, and
  a comparison with an undefined operand is false.  Rounding is not modelled.
* `log`, `sqrt` and `NUMchiSquareQ` are library functions and are parameters.
* `MATVUmul` is not in the sources: on shapes that fit it is the matrix product, and what
  it does on shapes that do not fit is a parameter.
* vectors and matrices have 1-based cells, as in the source.
* a function that can throw returns `Throws α`; an output pointer is a cell that holds the
  caller's value before the call and after it.
* a function in which a `Melder_assert` can fail returns an `Outcome α`.
* the two functions of `CCA_and_Correlation.cpp` that return a `double` computed by an
  unguarded division return a `Flt K`, in which the infinities are kept apart from NaN.
-/

namespace Praat

/-- A `double`: a finite number of `K`, or `none` for Praat's `undefined`. -/
abbrev Dbl (K : Type) := Option K

/-- A vector (`autoVEC`, `autostring32vector`): its size and its 1-based cells. -/
structure VEC (α : Type) where
  size : Int
  cells : Int → α

/-- A matrix (`autoMAT`, `constMAT`): its shape and its 1-based cells. -/
structure MAT (α : Type) where
  nrow : Int
  ncol : Int
  cells : Int → Int → α

section Arithmetic

variable {K : Type} [LinearOrderedField K]

/-- Praat's `undefined`. -/
def undefined : Dbl K := none

/-- Conversion of an `integer` to a `double`. -/
def ofInt (n : Int) : Dbl K := some (n : K)

/-- Addition of doubles. -/
def dadd : Dbl K → Dbl K → Dbl K
  | some x, some y => some (x + y)
  | _, _ => none

/-- Subtraction of doubles. -/
def dsub : Dbl K → Dbl K → Dbl K
  | some x, some y => some (x - y)
  | _, _ => none

/-- Multiplication of doubles. -/
def dmul : Dbl K → Dbl K → Dbl K
  | some x, some y => some (x * y)
  | _, _ => none

/-- Division of doubles; a division by zero is undefined (an infinity or a NaN). -/
def ddiv : Dbl K → Dbl K → Dbl K
  | some x, some y => if y = 0 then none else some (x / y)
  | _, _ => none

/-- The comparison `a <= b` of doubles. -/
def dle : Dbl K → Dbl K → Bool
  | some x, some y => decide (x ≤ y)
  | _, _ => false

/-- The comparison `a < b` of doubles. -/
def dlt : Dbl K → Dbl K → Bool
  | some x, some y => decide (x < y)
  | _, _ => false

/-- The comparison `a == b` of doubles. -/
def deq : Dbl K → Dbl K → Bool
  | some x, some y => decide (x = y)
  | _, _ => false

/-- The library `log` on doubles: finite only on positive arguments. -/
def Dlog (log : K → K) : Dbl K → Dbl K
  | some x => if 0 < x then some (log x) else none
  | none => none

/-- The library `sqrt` on doubles: finite only on non-negative arguments. -/
def Dsqrt (sqrt : K → K) : Dbl K → Dbl K
  | some x => if 0 ≤ x then some (sqrt x) else none
  | none => none

/-- The indices `lo, lo + 1, ..., hi` that a loop `for (k = lo; k <= hi; k ++)` visits. -/
def intRange (lo hi : Int) : List Int :=
  (List.range (hi + 1 - lo).toNat).map (fun (t : Nat) => lo + (t : Int))

/-- The accumulation `r = 0.0; for (k = lo; k <= hi; k ++) r += f (k);`. -/
def dsum (lo hi : Int) (f : Int → Dbl K) : Dbl K :=
  (intRange lo hi).foldl (fun r k => dadd r (f k)) (some 0)

end Arithmetic

/-- The class `Eigen` (its declaration is not in the sources; these are the fields that
`PCA.cpp` reads and writes): row `i` of `eigenvectors` belongs to `eigenvalues [i]`. -/
structure Eigen (K : Type) where
  numberOfEigenvalues : Int
  dimension : Int
  eigenvalues : VEC (Dbl K)
  eigenvectors : MAT (Dbl K)

/-- The class `PCA`, which extends `Eigen` (`Thing_implement (PCA, Eigen, 0)`), with the
fields that `PCA_create` and `PCA_setNumberOfObservations` set. -/
structure PCA (K : Type) extends Eigen K where
  numberOfObservations : Int
  labels : VEC String
  centroid : VEC (Dbl K)

/-- The class `TableOfReal` (its declaration is not in the sources; these are the fields
that `PCA.cpp` uses): a matrix with row and column labels. -/
structure TableOfReal (K : Type) where
  numberOfRows : Int
  numberOfColumns : Int
  rowLabels : VEC String
  columnLabels : VEC String
  data : MAT (Dbl K)

/-- The class `Configuration`, a `TableOfReal`; the functions here use its table only. -/
abbrev Configuration (K : Type) := TableOfReal K

/-- The outcome of a function that can throw: the messages of the `MelderError`, oldest
first, or the value returned. -/
abbrev Throws (α : Type) := Except (List String) α

/-- The three output pointers of `PCA_getEqualityOfEigenvalues`: `none` is a null
pointer, `some v` a pointer to a variable of the caller that holds `v`. -/
structure EqualityCells (K : Type) where
  p_prob : Option (Dbl K)
  p_chisq : Option (Dbl K)
  p_df : Option (Dbl K)

section Equality

variable {K : Type} [LinearOrderedField K]

/-- The statement `if (p) *p = v;`. -/
def store (p : Option (Dbl K)) (v : Dbl K) : Option (Dbl K) :=
  match p with
  | none => none
  | some _ => some v

/-- The caller's three variables after the final statements `if (p_prob) *p_prob = prob;`
... when `prob`, `chisq` and `df` still hold their initial value `undefined`. -/
def allUndefined (out : EqualityCells K) : EqualityCells K :=
  ⟨store out.p_prob undefined, store out.p_chisq undefined, store out.p_df undefined⟩

/-- The loop `for (i = from; i <= to; i ++)` of `PCA_getEqualityOfEigenvalues`, from the
state `(i, sum, sumln)`; it returns the state at the `break` or at the loop exit.  The
first argument bounds the number of iterations; the caller passes `to + 1 - from`, the
number of iterations the loop condition allows.  An undefined eigenvalue is read as a NaN,
for which the test `my eigenvalues [i] <= 0` of line 103 is false, as it is here; an
infinite eigenvalue is outside the model (the source stops at `-inf`). -/
def PCA_getEqualityOfEigenvalues_loop (log : K → K) (eigenvalues : VEC (Dbl K)) (to_ : Int) :
    Nat → Int → Dbl K → Dbl K → Int × Dbl K × Dbl K
  | 0, i, sum, sumln => (i, sum, sumln)
  | fuel + 1, i, sum, sumln =>
    if i ≤ to_ then
      if dle (eigenvalues.cells i) (some 0) then (i, sum, sumln)
      else PCA_getEqualityOfEigenvalues_loop log eigenvalues to_ fuel (i + 1)
        (dadd sum (eigenvalues.cells i)) (dadd sumln (Dlog log (eigenvalues.cells i)))
    else (i, sum, sumln)

/-- The default of `PCA_getEqualityOfEigenvalues` (PCA.cpp, lines 96-99):
`if (from == 0 && to == 0) { to = 1; from = my numberOfEigenvalues; }`; the pair is
`(from, to)` after it. -/
def PCA_getEqualityOfEigenvalues_range (me : PCA K) (from_ to_ : Int) : Int × Int :=
  if from_ = 0 ∧ to_ = 0 then (me.numberOfEigenvalues, 1) else (from_, to_)

/-- The function `PCA_getEqualityOfEigenvalues` (PCA.cpp, lines 91-131).  The result is the
state of the caller's three variables after the call. -/
def PCA_getEqualityOfEigenvalues (log : K → K) (NUMchiSquareQ : Dbl K → Dbl K → Dbl K)
    (me : PCA K) (from_ to_ : Int) (conservative : Int) (out : EqualityCells K) :
    EqualityCells K :=
  let to1 : Int := (PCA_getEqualityOfEigenvalues_range me from_ to_).2
  let from1 : Int := (PCA_getEqualityOfEigenvalues_range me from_ to_).1
  if from1 < to1 ∧ from1 > 0 ∧ to1 ≤ me.numberOfEigenvalues then
    let s := PCA_getEqualityOfEigenvalues_loop log me.eigenvalues to1
      (to1 + 1 - from1).toNat from1 (some 0) (some 0)
    let sum : Dbl K := s.2.1
    let sumln : Dbl K := s.2.2
    if deq sum (some 0) then out
    else
      let r : Int := s.1 - from1
      let n0 : Dbl K := ofInt (me.numberOfObservations - 1)
      let n : Dbl K :=
        if conservative ≠ 0 then
          dsub n0 (dadd (ofInt from1) (ddiv (ofInt (r * (2 * r + 1) + 2)) (dmul (some 6) (ofInt r))))
        else n0
      let df : Dbl K := ofInt (Int.tdiv (r * (r + 1)) 2 - 1)
      let chisq : Dbl K := dmul n (dsub (dmul (ofInt r) (Dlog log (ddiv sum (ofInt r)))) sumln)
      let prob : Dbl K := NUMchiSquareQ chisq df
      ⟨store out.p_prob prob, store out.p_chisq chisq, store out.p_df df⟩
  else
    ⟨store out.p_prob undefined, store out.p_chisq undefined, store out.p_df undefined⟩

/-- The eigenvalues that the test includes, in the words of the specification: those of
the range `from .. to`, up to the first one that is not positive. -/
def includedEigenvalues (ev : Int → K) (from_ to_ : Int) : List K :=
  ((intRange from_ to_).map ev).takeWhile (fun x => decide (0 < x))

end Equality

section Fit

variable {K : Type} [LinearOrderedField K]

/-- Modelled from the spec: `NUMdefined` is not in the sources; it holds when "every cell
of `data` is a defined (non-missing) number". -/
def NUMdefined (m : MAT (Dbl K)) : Bool :=
  (intRange 1 m.nrow).all (fun i => (intRange 1 m.ncol).all (fun j => (m.cells i j).isSome))

/-- Modelled from the spec: `NUMfrobeniusnorm` is not in the sources; "the Frobenius norm
of `data`" is the square root of the sum of the squares of all cells. -/
def NUMfrobeniusnorm (sqrt : K → K) (m : MAT (Dbl K)) : Dbl K :=
  Dsqrt sqrt (dsum 1 m.nrow (fun i => dsum 1 m.ncol (fun j => dmul (m.cells i j) (m.cells i j))))

/-- Modelled from the spec: `MATtranspose` is not in the sources; "the transpose of `data`". -/
def MATtranspose {α : Type} (m : MAT α) : MAT α :=
  ⟨m.ncol, m.nrow, fun i j => m.cells j i⟩

/-- Modelled from the spec: `MATcopy` is not in the sources; "a working copy". -/
def MATcopy {α : Type} (m : MAT α) : MAT α := m

/-- Modelled from the spec: `VECcolumnMeans` is not in the sources; "compute column means". -/
def VECcolumnMeans (m : MAT (Dbl K)) : VEC (Dbl K) :=
  ⟨m.ncol, fun j => ddiv (dsum 1 m.nrow (fun i => m.cells i j)) (ofInt m.nrow)⟩

/-- Modelled from the spec: `MATsubtract_inplace` is not in the sources; "subtract centroid
from every row". -/
def MATsubtract_inplace (m : MAT (Dbl K)) (v : VEC (Dbl K)) : MAT (Dbl K) :=
  ⟨m.nrow, m.ncol, fun i j => dsub (m.cells i j) (v.cells j)⟩

/-- Modelled from the spec: `VECmultiply_inplace` is not in the sources; the eigenvalues are
"scaled by" the factor, cell by cell. -/
def VECmultiply_inplace (v : VEC (Dbl K)) (factor : Dbl K) : VEC (Dbl K) :=
  ⟨v.size, fun i => dmul (v.cells i) factor⟩

/-- Modelled from the spec: `autostring32vector` is not in the sources; "`labels` sized to
the variable dimension", a vector of `n` strings, all empty. -/
def autostring32vector (n : Int) : VEC String := ⟨n, fun _ => ""⟩

/-- What `MAT_to_PCA` produces: the warnings it emitted, and the model or the error. -/
structure FitOutcome (K : Type) where
  warnings : List String
  result : Throws (PCA K)

/-- The two `Melder_require` checks that open `MAT_to_PCA` (PCA.cpp, lines 153-156). -/
def MAT_to_PCA_require (sqrt : K → K) (m : MAT (Dbl K)) : Throws Unit :=
  if NUMdefined m = false then .error ["All matrix elements should be defined."]
  else if dlt (some 0) (NUMfrobeniusnorm sqrt m) = false then
    .error ["Not all values in your table should be zero."]
  else .ok ()

/-- The message of the `catch` clause of `MAT_to_PCA`. -/
def MAT_to_PCA_message (byColumns : Bool) : String :=
  "No PCA created from " ++ (if byColumns then "columns." else "rows.")

/-- The working matrix `mcopy` of `MAT_to_PCA` before it is centred (PCA.cpp, lines 157-166):
the transpose of `m` when `byColumns` is set, a copy of `m` otherwise. -/
def MAT_to_PCA_mcopy (m : MAT (Dbl K)) (byColumns : Bool) : MAT (Dbl K) :=
  if byColumns then MATtranspose m else MATcopy m

/-- The warning that `MAT_to_PCA` emits before it makes the working matrix (PCA.cpp, lines
158-166). -/
def MAT_to_PCA_warnings (m : MAT (Dbl K)) (byColumns : Bool) : List String :=
  if byColumns then
    if m.ncol < m.nrow then
      ["The number of columns in your table is less than the number of rows."]
    else []
  else
    if m.nrow < m.ncol then
      ["The number of rows in your table is less than the number of columns."]
    else []

/-- The function `MAT_to_PCA` (PCA.cpp, lines 151-185).  `Eigen_initFromSquareRoot`, the
square-root kernel, is not in the sources and is a parameter: from the centred matrix it
gives the eigenstructure, or throws. -/
def MAT_to_PCA (sqrt : K → K) (Eigen_initFromSquareRoot : MAT (Dbl K) → Throws (Eigen K))
    (m : MAT (Dbl K)) (byColumns : Bool) : FitOutcome K :=
  match MAT_to_PCA_require sqrt m with
  | .error e => ⟨[], .error (e ++ [MAT_to_PCA_message byColumns])⟩
  | .ok _ =>
    let warnings : List String := MAT_to_PCA_warnings m byColumns
    let mcopy0 : MAT (Dbl K) := MAT_to_PCA_mcopy m byColumns
    let centroid : VEC (Dbl K) := VECcolumnMeans mcopy0
    let mcopy : MAT (Dbl K) := MATsubtract_inplace mcopy0 centroid
    match Eigen_initFromSquareRoot mcopy with
    | .error e => ⟨warnings, .error (e ++ [MAT_to_PCA_message byColumns])⟩
    | .ok eigen =>
      ⟨warnings, .ok
        { numberOfEigenvalues := eigen.numberOfEigenvalues
          dimension := eigen.dimension
          eigenvalues :=
            VECmultiply_inplace eigen.eigenvalues (ddiv (some 1) (ofInt (mcopy.nrow - 1)))
          eigenvectors := eigen.eigenvectors
          numberOfObservations := mcopy.nrow
          labels := autostring32vector mcopy.ncol
          centroid := centroid }⟩

end Fit

section Projection

variable {K : Type} [LinearOrderedField K]

/-- Modelled from the spec: `TableOfReal_create` is not in the sources; "creation with a
given row/column count", with empty labels and cells zero. -/
def TableOfReal_create (numberOfRows numberOfColumns : Int) : TableOfReal K :=
  { numberOfRows := numberOfRows
    numberOfColumns := numberOfColumns
    rowLabels := autostring32vector numberOfRows
    columnLabels := autostring32vector numberOfColumns
    data := ⟨numberOfRows, numberOfColumns, fun _ _ => some 0⟩ }

/-- Modelled from the spec: `Configuration_create` is not in the sources; a configuration
is created as a table with the given row/column count. -/
def Configuration_create (numberOfRows numberOfColumns : Int) : Configuration K :=
  TableOfReal_create numberOfRows numberOfColumns

/-- Modelled from the spec: `TableOfReal_setSequentialColumnLabels` is not in the sources;
called with the range `0, 0` (all columns) it labels column `j` with the stem followed by
the number `start + (j - 1) * increment`. -/
def TableOfReal_setSequentialColumnLabels (me : TableOfReal K) (stem : String)
    (start increment : Int) : TableOfReal K :=
  { me with
    columnLabels :=
      ⟨me.columnLabels.size, fun j => stem ++ toString (start + (j - 1) * increment)⟩ }

/-- Modelled from the spec: `Eigen_TableOfReal_into_TableOfReal_projectRows` is not in the
sources; "row i, component j = Σ over original dimensions k of
eigenvector[j][k] · (dataTable[i][k])", read from column `data_startColumn` on and written
from column `to_startColumn` on. -/
def Eigen_TableOfReal_into_TableOfReal_projectRows (me : Eigen K) (data : TableOfReal K)
    (data_startColumn : Int) (to_ : TableOfReal K) (to_startColumn : Int)
    (numberOfComponentsToKeep : Int) : TableOfReal K :=
  { to_ with
    data :=
      ⟨to_.data.nrow, to_.data.ncol, fun i c =>
        let j : Int := c - to_startColumn + 1
        if 1 ≤ i ∧ i ≤ data.numberOfRows ∧ 1 ≤ j ∧ j ≤ numberOfComponentsToKeep then
          dsum 1 me.dimension
            (fun k => dmul (me.eigenvectors.cells j k) (data.data.cells i (data_startColumn + k - 1)))
        else to_.data.cells i c⟩ }

/-- The clamp that opens the three projections:
`if (n == 0 || n > my numberOfEigenvalues) n = my numberOfEigenvalues;`. -/
def clampDimensions (me : PCA K) (numberOfDimensions : Int) : Int :=
  if numberOfDimensions = 0 ∨ numberOfDimensions > me.numberOfEigenvalues then
    me.numberOfEigenvalues
  else numberOfDimensions

/-- The function `PCA_TableOfReal_to_TableOfReal_zscores` (PCA.cpp, lines 216-237). -/
def PCA_TableOfReal_to_TableOfReal_zscores (sqrt : K → K) (me : PCA K) (thee : TableOfReal K)
    (numberOfDimensions : Int) : Throws (TableOfReal K) :=
  let numberOfDimensions : Int := clampDimensions me numberOfDimensions
  let him : TableOfReal K := TableOfReal_create thee.numberOfRows numberOfDimensions
  let him : TableOfReal K :=
    { him with
      data :=
        ⟨him.data.nrow, him.data.ncol, fun i j =>
          if 1 ≤ i ∧ i ≤ thee.numberOfRows ∧ 1 ≤ j ∧ j ≤ numberOfDimensions then
            let sigma : Dbl K := Dsqrt sqrt (me.eigenvalues.cells j)
            dsum 1 me.dimension
              (fun k =>
                ddiv (dmul (me.eigenvectors.cells j k)
                  (dsub (thee.data.cells i k) (me.centroid.cells k))) sigma)
          else him.data.cells i j⟩ }
  let him : TableOfReal K := { him with rowLabels := thee.rowLabels }
  .ok (TableOfReal_setSequentialColumnLabels him "pc" 1 1)

/-- The function `PCA_TableOfReal_to_TableOfReal_projectRows` (PCA.cpp, lines 239-253). -/
def PCA_TableOfReal_to_TableOfReal_projectRows (me : PCA K) (thee : TableOfReal K)
    (numberOfDimensionsToKeep : Int) : Throws (TableOfReal K) :=
  let numberOfDimensionsToKeep : Int := clampDimensions me numberOfDimensionsToKeep
  let him : TableOfReal K := TableOfReal_create thee.numberOfRows numberOfDimensionsToKeep
  let him : TableOfReal K :=
    Eigen_TableOfReal_into_TableOfReal_projectRows me.toEigen thee 1 him 1 numberOfDimensionsToKeep
  let him : TableOfReal K := { him with rowLabels := thee.rowLabels }
  .ok (TableOfReal_setSequentialColumnLabels him "pc" 1 1)

/-- The function `PCA_TableOfReal_to_Configuration` (PCA.cpp, lines 255-268). -/
def PCA_TableOfReal_to_Configuration (me : PCA K) (thee : TableOfReal K)
    (numberOfDimensionsToKeep : Int) : Throws (Configuration K) :=
  let numberOfDimensionsToKeep : Int := clampDimensions me numberOfDimensionsToKeep
  let him : Configuration K := Configuration_create thee.numberOfRows numberOfDimensionsToKeep
  let him : Configuration K :=
    Eigen_TableOfReal_into_TableOfReal_projectRows me.toEigen thee 1 him 1 numberOfDimensionsToKeep
  let him : Configuration K := { him with rowLabels := thee.rowLabels }
  .ok (TableOfReal_setSequentialColumnLabels him "pc" 1 1)

end Projection

/-- The outcome of a call that can also fail an assertion: it returns a value, throws a
`MelderError` (with its messages, oldest first), or fails a `Melder_assert`, which ends in
`Melder_fatal` and `abort ()` (melder.c, lines 479-496). -/
inductive Outcome (α : Type) where
  | returned (value : α)
  | thrown (messages : List String)
  | aborted

section Reconstruction

variable {K : Type} [LinearOrderedField K]

/-- Modelled from the spec: the shape of a table, "rectangular numeric storage with
row/column string labels": the data matrix has the table's row and column count. -/
def TableOfReal_invariant (me : TableOfReal K) : Prop :=
  me.data.nrow = me.numberOfRows ∧ me.data.ncol = me.numberOfColumns

/-- Modelled from the spec: the invariants of the data model, "eigenvectors: componentCount ×
dimension matrix", "`eigenvalues.length == eigenvectors.rowCount`". -/
def Eigen_invariant (me : Eigen K) : Prop :=
  me.eigenvectors.nrow = me.numberOfEigenvalues ∧ me.eigenvectors.ncol = me.dimension ∧
    me.eigenvalues.size = me.numberOfEigenvalues

/-- Modelled from the spec: the invariants of a `PCA`, those of its `Eigen` part with
"`labels.length == dimension`" and "centroid: ... length = dimension". -/
def PCA_invariant (me : PCA K) : Prop :=
  Eigen_invariant me.toEigen ∧ me.labels.size = me.dimension ∧ me.centroid.size = me.dimension

/-- Modelled from the spec: `MATVUmul (target, x, y)` is not in the sources; "scores row
multiplied by the (component×dimension) eigenvector matrix", the matrix product of `x` and
`y` written into `target`.  The product exists when the shapes fit: `target` has the rows
of `x` and the columns of `y`, and `x` has as many columns as `y` has rows.  What the call
does when the shapes do not fit is said neither in the sources nor in the spec: it is the
parameter `mismatch`, which may return, throw or fail an assertion. -/
def MATVUmul (mismatch : MAT (Dbl K) → MAT (Dbl K) → MAT (Dbl K) → Outcome (MAT (Dbl K)))
    (target x y : MAT (Dbl K)) : Outcome (MAT (Dbl K)) :=
  if target.nrow = x.nrow ∧ target.ncol = y.ncol ∧ x.ncol = y.nrow then
    .returned
      ⟨target.nrow, target.ncol, fun i k =>
        if 1 ≤ i ∧ i ≤ target.nrow ∧ 1 ≤ k ∧ k ≤ target.ncol then
          dsum 1 x.ncol (fun j => dmul (x.cells i j) (y.cells j k))
        else target.cells i k⟩
  else mismatch target x y

/-- The local variable `npc` of `PCA_Configuration_to_TableOfReal_reconstruct` (PCA.cpp,
lines 272-277): the number of columns of the configuration, clamped to the number of
eigenvalues.  The function does not use it after line 277. -/
def PCA_Configuration_to_TableOfReal_reconstruct_npc (me : PCA K) (thee : Configuration K) :
    Int :=
  if thee.numberOfColumns > me.numberOfEigenvalues then me.numberOfEigenvalues
  else thee.numberOfColumns

/-- The function `PCA_Configuration_to_TableOfReal_reconstruct` (PCA.cpp, lines 270-290).
The call of `MATVUmul` on line 284 is inside the `try`, so that an error thrown by it is
caught on line 287; `mismatch` is what `MATVUmul` does on shapes that do not fit. -/
def PCA_Configuration_to_TableOfReal_reconstruct
    (mismatch : MAT (Dbl K) → MAT (Dbl K) → MAT (Dbl K) → Outcome (MAT (Dbl K)))
    (me : PCA K) (thee : Configuration K) : Outcome (TableOfReal K) :=
  if ¬ thee.numberOfColumns ≤ me.dimension then
    .thrown ["The dimension of the Configuration should be less than or equal to the dimension of the PCA.",
      "TableOfReal not reconstructed."]
  else
    let _npc : Int := PCA_Configuration_to_TableOfReal_reconstruct_npc me thee
    let him : TableOfReal K := TableOfReal_create thee.numberOfRows me.dimension
    if ¬ me.labels.size = me.dimension then .aborted
    else
      let him : TableOfReal K := { him with columnLabels := me.labels }
      let him : TableOfReal K := { him with rowLabels := thee.rowLabels }
      match MATVUmul mismatch him.data thee.data me.eigenvectors with
      | .returned data => .returned { him with data := data }
      | .thrown messages => .thrown (messages ++ ["TableOfReal not reconstructed."])
      | .aborted => .aborted

/-- The function `PCA_TableOfReal_getFractionVariance` (PCA.cpp, lines 292-304).  The three
steps `TableOfReal_to_SSCP`, `Eigen_SSCP_project` and `SSCP_getFractionVariation` are not in
the sources and are parameters, over a type `S` of `SSCP` objects; each returns or throws.
The result type leaves room for an error that leaves the function. -/
def PCA_TableOfReal_getFractionVariance {S : Type}
    (TableOfReal_to_SSCP : TableOfReal K → Int → Int → Int → Int → Throws S)
    (Eigen_SSCP_project : Eigen K → S → Throws S)
    (SSCP_getFractionVariation : S → Int → Int → Throws (Dbl K))
    (me : PCA K) (thee : TableOfReal K) (from_ to_ : Int) : Throws (Dbl K) :=
  if from_ < 1 ∨ from_ > to_ ∨ to_ > thee.numberOfColumns then .ok undefined
  else
    match TableOfReal_to_SSCP thee 0 0 0 0 with
    | .error _ => .ok undefined
    | .ok s =>
      match Eigen_SSCP_project me.toEigen s with
      | .error _ => .ok undefined
      | .ok sp =>
        match SSCP_getFractionVariation sp from_ to_ with
        | .error _ => .ok undefined
        | .ok fraction => .ok fraction

end Reconstruction

/-- A `double` or `longdouble` with the infinities kept apart from NaN, for the results of
`CCA_Correlation_getVarianceFraction` and `CCA_Correlation_getRedundancy_sl`, which divide
without a guard.  Arithmetic is exact on finite numbers and follows IEEE 754 on the others;
a zero is `+0`.  Praat's `undefined` is `nan`, and `isundef` holds of `nan` and of both
infinities. -/
inductive Flt (K : Type) where
  | finite (x : K)
  | posInf
  | negInf
  | nan

/-- The class `CCA` (its declaration is not in the sources; these are the fields that
`CCA_and_Correlation.cpp` reads): the eigenstructures of the dependent set `y` and of the
independent set `x`. -/
structure CCA (K : Type) where
  numberOfCoefficients : Int
  y : Eigen K
  x : Eigen K

/-- The class `Correlation`, a `TableOfReal`; the functions here use its table only. -/
abbrev Correlation (K : Type) := TableOfReal K

section Canonical

variable {K : Type} [LinearOrderedField K]

/-- A stored cell read as a number: an undefined cell is read as NaN. -/
def Flt.ofDbl : Dbl K → Flt K
  | some x => .finite x
  | none => .nan

/-- Conversion of an `integer`. -/
def Flt.ofInt (n : Int) : Flt K := .finite (n : K)

/-- Praat's `isundef`: the number is a NaN or an infinity. -/
def Flt.isundef : Flt K → Bool
  | .finite _ => false
  | _ => true

/-- IEEE addition. -/
def Flt.add : Flt K → Flt K → Flt K
  | .finite x, .finite y => .finite (x + y)
  | .finite _, .posInf => .posInf
  | .finite _, .negInf => .negInf
  | .posInf, .finite _ => .posInf
  | .posInf, .posInf => .posInf
  | .negInf, .finite _ => .negInf
  | .negInf, .negInf => .negInf
  | .posInf, .negInf => .nan
  | .negInf, .posInf => .nan
  | .nan, _ => .nan
  | _, .nan => .nan

/-- The product of an infinity of sign `positive` and the finite number `y`. -/
def Flt.scaleInf (positive : Bool) (y : K) : Flt K :=
  if y = 0 then .nan
  else if (0 < y) = positive then .posInf
  else .negInf

/-- IEEE multiplication. -/
def Flt.mul : Flt K → Flt K → Flt K
  | .finite x, .finite y => .finite (x * y)
  | .finite x, .posInf => Flt.scaleInf true x
  | .finite x, .negInf => Flt.scaleInf false x
  | .posInf, .finite y => Flt.scaleInf true y
  | .negInf, .finite y => Flt.scaleInf false y
  | .posInf, .posInf => .posInf
  | .negInf, .negInf => .posInf
  | .posInf, .negInf => .negInf
  | .negInf, .posInf => .negInf
  | .nan, _ => .nan
  | _, .nan => .nan

/-- IEEE division: a finite non-zero number divided by zero is an infinity, `0 / 0` and
`inf / inf` are NaN. -/
def Flt.div : Flt K → Flt K → Flt K
  | .finite x, .finite y =>
    if y = 0 then (if x = 0 then .nan else if 0 < x then .posInf else .negInf)
    else .finite (x / y)
  | .finite _, .posInf => .finite 0
  | .finite _, .negInf => .finite 0
  | .posInf, .finite y => if 0 ≤ y then .posInf else .negInf
  | .negInf, .finite y => if 0 ≤ y then .negInf else .posInf
  | .posInf, .posInf => .nan
  | .posInf, .negInf => .nan
  | .negInf, .posInf => .nan
  | .negInf, .negInf => .nan
  | .nan, _ => .nan
  | _, .nan => .nan

/-- The accumulation `r = 0.0; for (k = lo; k <= hi; k ++) r += f (k);` on these numbers. -/
def Flt.sum (lo hi : Int) (f : Int → Flt K) : Flt K :=
  (intRange lo hi).foldl (fun r k => Flt.add r (f k)) (.finite 0)

/-- Modelled from the spec: `TableOfReal_setSequentialRowLabels` is not in the sources;
rows `from .. to` are "labeled sequentially", row `i` with the stem followed by the number
`start + (i - from) * increment`. -/
def TableOfReal_setSequentialRowLabels (me : TableOfReal K) (from_ to_ : Int) (stem : String)
    (start increment : Int) : TableOfReal K :=
  { me with
    rowLabels :=
      ⟨me.rowLabels.size, fun i =>
        if from_ ≤ i ∧ i ≤ to_ then stem ++ toString (start + (i - from_) * increment)
        else me.rowLabels.cells i⟩ }

/-- The assignment `m [w.1] [w.2.1] = w.2.2` to one cell of a matrix. -/
def MAT_assign {α : Type} (m : MAT α) (w : Int × Int × α) : MAT α :=
  ⟨m.nrow, m.ncol, fun r c => if r = w.1 ∧ c = w.2.1 then w.2.2 else m.cells r c⟩

/-- The assignments to `his data` that the loops of `CCA_Correlation_factorLoadings` make
(CCA_and_Correlation.cpp, lines 41-56), in the order of execution: each is the row, the
column and the value written. -/
def CCA_Correlation_factorLoadings_assignments (me : CCA K) (thee : Correlation K) :
    List (Int × Int × Dbl K) :=
  let ny : Int := me.y.dimension
  let nx : Int := me.x.dimension
  (intRange 1 thee.numberOfRows).flatMap (fun i =>
    (intRange 1 me.numberOfCoefficients).map (fun j =>
        (j, i, dsum 1 ny (fun k => dmul (thee.data.cells i k) (me.y.eigenvectors.cells j k)))) ++
      (intRange 1 me.numberOfCoefficients).map (fun j =>
        (me.numberOfCoefficients + j, i,
          dsum 1 nx (fun k => dmul (thee.data.cells i (ny + k)) (me.x.eigenvectors.cells j k)))))

/-- The function `CCA_Correlation_factorLoadings` (CCA_and_Correlation.cpp, lines 29-61). -/
def CCA_Correlation_factorLoadings (me : CCA K) (thee : Correlation K) :
    Throws (TableOfReal K) :=
  let ny : Int := me.y.dimension
  let nx : Int := me.x.dimension
  if ¬ ny + nx = thee.numberOfColumns then
    .error ["The number of columns in the Correlation must equal the sum of the dimensions in the CCA object",
      "TableOfReal not created from CCA & Correlation."]
  else
    let him : TableOfReal K :=
      TableOfReal_create (2 * me.numberOfCoefficients) thee.numberOfColumns
    let him : TableOfReal K := { him with columnLabels := thee.columnLabels }
    let him : TableOfReal K :=
      TableOfReal_setSequentialRowLabels him 1 me.numberOfCoefficients "dv" 1 1
    let him : TableOfReal K :=
      TableOfReal_setSequentialRowLabels him (me.numberOfCoefficients + 1)
        (2 * me.numberOfCoefficients) "iv" 1 1
    .ok { him with
      data := (CCA_Correlation_factorLoadings_assignments me thee).foldl MAT_assign him.data }

/-- The function `_CCA_Correlation_check` (CCA_and_Correlation.cpp, lines 63-70). -/
def _CCA_Correlation_check (me : CCA K) (thee : Correlation K)
    (canonicalVariate_from canonicalVariate_to : Int) : Throws Unit :=
  if ¬ me.y.dimension + me.x.dimension = thee.numberOfColumns then
    .error ["The number of columns in the Correlation object should equal the sum of the dimensions in the CCA object"]
  else if ¬ canonicalVariate_to ≥ canonicalVariate_from then
    .error ["The second value in the \"Canonical variate range\" should be equal or larger than the first."]
  else if ¬ (canonicalVariate_from > 0 ∧ canonicalVariate_to ≤ me.numberOfCoefficients) then
    .error ["The \"Canonical variate range\" should be within the interval [1, " ++
      toString me.numberOfCoefficients ++ "]."]
  else .ok ()

/-- The contribution of the canonical variate `icv` in `CCA_Correlation_getVarianceFraction`
(CCA_and_Correlation.cpp, lines 101-111), `(variance / varianceScaling) / n`, for the set
with dimension `n`, eigenvectors `evec` and offset `ioffset` in the correlation matrix. -/
def CCA_Correlation_getVarianceFraction_term (thee : Correlation K) (n : Int)
    (evec : MAT (Dbl K)) (ioffset icv : Int) : Flt K :=
  let si : Int → Flt K := fun i =>
    Flt.sum 1 n (fun j =>
      Flt.mul (Flt.ofDbl (thee.data.cells (ioffset + i) (ioffset + j)))
        (Flt.ofDbl (evec.cells icv j)))
  let variance : Flt K := Flt.sum 1 n (fun i => Flt.mul (si i) (si i))
  let varianceScaling : Flt K := Flt.sum 1 n (fun i => Flt.mul (Flt.ofDbl (evec.cells icv i)) (si i))
  Flt.div (Flt.div variance varianceScaling) (Flt.ofInt n)

/-- The function `CCA_Correlation_getVarianceFraction` (CCA_and_Correlation.cpp, lines
72-115).  The check is called outside any `try`, so its error leaves the function. -/
def CCA_Correlation_getVarianceFraction (me : CCA K) (thee : Correlation K) (x_or_y : Int)
    (canonicalVariate_from canonicalVariate_to : Int) : Throws (Flt K) :=
  match _CCA_Correlation_check me thee canonicalVariate_from canonicalVariate_to with
  | .error e => .error e
  | .ok _ =>
    let n : Int := if x_or_y = 1 then me.y.dimension else me.x.dimension
    let evec : MAT (Dbl K) := if x_or_y = 1 then me.y.eigenvectors else me.x.eigenvectors
    let ioffset : Int := if x_or_y = 1 then 0 else me.y.dimension
    .ok (Flt.sum canonicalVariate_from canonicalVariate_to
      (fun icv => CCA_Correlation_getVarianceFraction_term thee n evec ioffset icv))

/-- The loop of `CCA_Correlation_getRedundancy_sl` (CCA_and_Correlation.cpp, lines 121-127)
over the canonical variates that remain, from the accumulated `redundancy`. -/
def CCA_Correlation_getRedundancy_sl_loop (me : CCA K) (thee : Correlation K) (x_or_y : Int) :
    List Int → Flt K → Throws (Flt K)
  | [], redundancy => .ok redundancy
  | icv :: rest, redundancy =>
    match CCA_Correlation_getVarianceFraction me thee x_or_y icv icv with
    | .error e => .error e
    | .ok varianceFraction =>
      if Flt.isundef varianceFraction then .ok .nan
      else
        CCA_Correlation_getRedundancy_sl_loop me thee x_or_y rest
          (Flt.add redundancy
            (Flt.mul varianceFraction (Flt.ofDbl (me.y.eigenvalues.cells icv))))

/-- The function `CCA_Correlation_getRedundancy_sl` (CCA_and_Correlation.cpp, lines
117-130). -/
def CCA_Correlation_getRedundancy_sl (me : CCA K) (thee : Correlation K) (x_or_y : Int)
    (canonicalVariate_from canonicalVariate_to : Int) : Throws (Flt K) :=
  match _CCA_Correlation_check me thee canonicalVariate_from canonicalVariate_to with
  | .error e => .error e
  | .ok _ =>
    CCA_Correlation_getRedundancy_sl_loop me thee x_or_y
      (intRange canonicalVariate_from canonicalVariate_to) (.finite 0)

end Canonical

section Examples

/-- A stand-in for the library `log` in the evaluated examples. -/
def exampleLog : ℚ → ℚ := fun x => 2 * (x - 1) / (x + 1)

/-- A stand-in for `NUMchiSquareQ` in the evaluated examples: undefined for a negative
statistic or without degrees of freedom, as in Praat, and otherwise a value in `(0, 1]`. -/
def exampleChiSquareQ : Dbl ℚ → Dbl ℚ → Dbl ℚ
  | some chisq, some df => if chisq < 0 ∨ df ≤ 0 then none else some (1 / (1 + chisq))
  | _, _ => none

/-- Three variables of a caller that hold 7, 8 and 9 before the call. -/
def exampleCells : EqualityCells ℚ := ⟨some (some 7), some (some 8), some (some 9)⟩

/-- A model with the three eigenvalues 4, 2, 1, fitted on ten observations. -/
def examplePCA3 : PCA ℚ :=
  { numberOfEigenvalues := 3
    dimension := 3
    eigenvalues := ⟨3, fun i => if i = 1 then some 4 else if i = 2 then some 2 else some 1⟩
    eigenvectors := ⟨3, 3, fun i j => if i = j then some 1 else some 0⟩
    numberOfObservations := 10
    labels := autostring32vector 3
    centroid := ⟨3, fun _ => some 0⟩ }

/-- A model with the two eigenvalues 0, 0. -/
def examplePCA0 : PCA ℚ :=
  { numberOfEigenvalues := 2
    dimension := 2
    eigenvalues := ⟨2, fun _ => some 0⟩
    eigenvectors := ⟨2, 2, fun i j => if i = j then some 1 else some 0⟩
    numberOfObservations := 10
    labels := autostring32vector 2
    centroid := ⟨2, fun _ => some 0⟩ }

/-- The square root of the evaluated examples: exact on squares of rationals. -/
def exampleSqrt : ℚ → ℚ := Rat.sqrt

/-- A stand-in for the square-root kernel in the evaluated examples: one component, whose
eigenvalue is the sum of the squares of the cells of `a` (the trace of `a'a`, which is its
only non-zero eigenvalue when `a` has rank 1 and is 0 when `a` is zero), with the first
unit vector in the place of the eigenvector. -/
def exampleKernel (a : MAT (Dbl ℚ)) : Throws (Eigen ℚ) :=
  .ok
    { numberOfEigenvalues := 1
      dimension := a.ncol
      eigenvalues :=
        ⟨1, fun _ => dsum 1 a.nrow (fun i => dsum 1 a.ncol (fun j => dmul (a.cells i j) (a.cells i j)))⟩
      eigenvectors := ⟨1, a.ncol, fun _ k => if k = 1 then some 1 else some 0⟩ }

/-- The table with the two rows (1, 2) and (3, 4). -/
def exampleMAT : MAT (Dbl ℚ) :=
  ⟨2, 2, fun i j => if i = 1 then (if j = 1 then some 1 else some 2)
    else (if j = 1 then some 3 else some 4)⟩

/-- The table with the single row (1). -/
def exampleMAT1 : MAT (Dbl ℚ) := ⟨1, 1, fun _ _ => some 1⟩

/-- The table with the single row (1, undefined). -/
def exampleMATundefined : MAT (Dbl ℚ) := ⟨1, 2, fun _ j => if j = 1 then some 1 else undefined⟩

/-- The table with two rows and two columns of zeros. -/
def exampleMATzero : MAT (Dbl ℚ) := ⟨2, 2, fun _ _ => some 0⟩

/-- A model of dimension 1 with one component: eigenvalue 4, eigenvector (1), centroid (1). -/
def examplePCA1 : PCA ℚ :=
  { numberOfEigenvalues := 1
    dimension := 1
    eigenvalues := ⟨1, fun _ => some 4⟩
    eigenvectors := ⟨1, 1, fun _ _ => some 1⟩
    numberOfObservations := 5
    labels := autostring32vector 1
    centroid := ⟨1, fun _ => some 1⟩ }

/-- A data table with the single row (3). -/
def exampleTable : TableOfReal ℚ :=
  { numberOfRows := 1
    numberOfColumns := 1
    rowLabels := autostring32vector 1
    columnLabels := autostring32vector 1
    data := ⟨1, 1, fun _ _ => some 3⟩ }

/-- A data table with the two rows (1, 2, 3) and (4, 5, 6). -/
def exampleTable3 : TableOfReal ℚ :=
  { numberOfRows := 2
    numberOfColumns := 3
    rowLabels := autostring32vector 2
    columnLabels := autostring32vector 3
    data := ⟨2, 3, fun i j => some (3 * ((i : ℚ) - 1) + (j : ℚ))⟩ }

/-- A data table with the single row (1, 2). -/
def exampleTable2 : TableOfReal ℚ :=
  { numberOfRows := 1
    numberOfColumns := 2
    rowLabels := autostring32vector 1
    columnLabels := autostring32vector 2
    data := ⟨1, 2, fun _ j => some (j : ℚ)⟩ }

/-- A model of dimension 2 with one component: eigenvalue 1, eigenvector (1, 0). -/
def examplePCA21 : PCA ℚ :=
  { numberOfEigenvalues := 1
    dimension := 2
    eigenvalues := ⟨1, fun _ => some 1⟩
    eigenvectors := ⟨1, 2, fun _ k => if k = 1 then some 1 else some 0⟩
    numberOfObservations := 5
    labels := autostring32vector 2
    centroid := ⟨2, fun _ => some 0⟩ }

/-- A stand-in for `TableOfReal_to_SSCP` in the evaluated examples: it returns the data
matrix in the place of the SSCP. -/
def exampleToSSCP : TableOfReal ℚ → Int → Int → Int → Int → Throws (MAT (Dbl ℚ)) :=
  fun thee _ _ _ _ => .ok thee.data

/-- A stand-in for a `TableOfReal_to_SSCP` that throws. -/
def exampleToSSCPThrows : TableOfReal ℚ → Int → Int → Int → Int → Throws (MAT (Dbl ℚ)) :=
  fun _ _ _ _ _ => .error ["SSCP not created."]

/-- A stand-in for `Eigen_SSCP_project` in the evaluated examples: it returns its argument. -/
def exampleProject : Eigen ℚ → MAT (Dbl ℚ) → Throws (MAT (Dbl ℚ)) :=
  fun _ s => .ok s

/-- A stand-in for `SSCP_getFractionVariation` in the evaluated examples: a constant. -/
def exampleFraction : MAT (Dbl ℚ) → Int → Int → Throws (Dbl ℚ) :=
  fun _ _ _ => .ok (some (1 / 2))

/-- A stand-in, in the evaluated examples, for what `MATVUmul` does on shapes that do not
fit; the examples call it on shapes that fit only. -/
def exampleMismatch : MAT (Dbl ℚ) → MAT (Dbl ℚ) → MAT (Dbl ℚ) → Outcome (MAT (Dbl ℚ)) :=
  fun _ _ _ => .thrown ["The shapes do not fit."]

/-- A canonical correlation model with `ny = 3`, `nx = 2` and two coefficients: the
eigenvectors of the dependent set are (1, 0, 0) and (1, -1, 0), those of the independent
set are (1, 0) and (0, 1), and the canonical eigenvalues are 1/2 and 1/4. -/
def exampleCCA : CCA ℚ :=
  { numberOfCoefficients := 2
    y :=
      { numberOfEigenvalues := 2
        dimension := 3
        eigenvalues := ⟨2, fun i => if i = 1 then some (1 / 2) else some (1 / 4)⟩
        eigenvectors :=
          ⟨2, 3, fun j k =>
            if j = 1 then (if k = 1 then some 1 else some 0)
            else (if k = 1 then some 1 else if k = 2 then some (-1) else some 0)⟩ }
    x :=
      { numberOfEigenvalues := 2
        dimension := 2
        eigenvalues := ⟨2, fun i => if i = 1 then some (1 / 2) else some (1 / 4)⟩
        eigenvectors := ⟨2, 2, fun j k => if j = k then some 1 else some 0⟩ } }

/-- The cells of `exampleCorrelation`: symmetric with unit diagonal and all cells in
`[-1, 1]`; the block of the dependent set is (1, 1, -1), (1, 1, 1), (-1, 1, 1), that of the
independent set is the unit matrix, and the two sets are uncorrelated. -/
def exampleCorrelationCells (i j : Int) : ℚ :=
  if i = j then 1
  else if i ≤ 3 ∧ j ≤ 3 then (if (i = 1 ∧ j = 3) ∨ (i = 3 ∧ j = 1) then -1 else 1)
  else 0

/-- A table of 5 rows and 5 columns in the place of a correlation matrix. -/
def exampleCorrelation : Correlation ℚ :=
  { numberOfRows := 5
    numberOfColumns := 5
    rowLabels := autostring32vector 5
    columnLabels := autostring32vector 5
    data := ⟨5, 5, fun i j => some (exampleCorrelationCells i j)⟩ }

/-- The model with the three eigenvalues 4, 2, 1 and ten observations, over the reals. -/
def examplePCAreal : PCA ℝ :=
  { numberOfEigenvalues := 3
    dimension := 3
    eigenvalues := ⟨3, fun i => if i = 1 then some 4 else if i = 2 then some 2 else some 1⟩
    eigenvectors := ⟨3, 3, fun i j => if i = j then some 1 else some 0⟩
    numberOfObservations := 10
    labels := autostring32vector 3
    centroid := ⟨3, fun _ => some 0⟩ }

end Examples

/-! ## Lemmas on the index ranges and on the accumulation loops -/

section Lemmas

variable {K : Type} [LinearOrderedField K]

theorem intRange_nil {lo hi : Int} (h : hi < lo) : intRange lo hi = [] := by
  have : (hi + 1 - lo).toNat = 0 := by omega
  simp [intRange, this]

theorem intRange_cons {lo hi : Int} (h : lo ≤ hi) :
    intRange lo hi = lo :: intRange (lo + 1) hi := by
  obtain ⟨n, hn⟩ : ∃ n : Nat, (hi + 1 - lo).toNat = n + 1 := ⟨(hi - lo).toNat, by omega⟩
  have hn2 : (hi + 1 - (lo + 1)).toNat = n := by omega
  simp only [intRange, hn, hn2, List.range_succ_eq_map, List.map_cons, List.map_map]
  congr 1
  · simp
  · apply List.map_congr_left
    intro t _
    simp only [Function.comp, Nat.succ_eq_add_one]
    push_cast
    ring

theorem mem_intRange {lo hi k : Int} : k ∈ intRange lo hi ↔ lo ≤ k ∧ k ≤ hi := by
  simp only [intRange, List.mem_map, List.mem_range]
  constructor
  · rintro ⟨t, ht, rfl⟩
    omega
  · rintro ⟨h1, h2⟩
    exact ⟨(k - lo).toNat, by omega, by omega⟩

theorem loop_spec (log : K → K) (eigenvalues : VEC (Dbl K)) (ev : Int → K) (to_ : Int) :
    ∀ (fuel : Nat) (i : Int) (s sl : K),
      fuel = (to_ + 1 - i).toNat →
      (∀ k, i ≤ k → k ≤ to_ → eigenvalues.cells k = some (ev k)) →
      PCA_getEqualityOfEigenvalues_loop log eigenvalues to_ fuel i (some s) (some sl) =
        (i + ((includedEigenvalues ev i to_).length : Int),
          some (s + (includedEigenvalues ev i to_).sum),
          some (sl + ((includedEigenvalues ev i to_).map log).sum)) := by
  intro fuel
  induction fuel with
  | zero =>
    intro i s sl hf _
    have hlt : to_ < i := by omega
    simp [PCA_getEqualityOfEigenvalues_loop, includedEigenvalues, intRange_nil hlt]
  | succ n ih =>
    intro i s sl hf hev
    have hle : i ≤ to_ := by omega
    have hcell := hev i le_rfl hle
    rw [PCA_getEqualityOfEigenvalues_loop, if_pos hle, hcell]
    by_cases hp : 0 < ev i
    · have hnle : ¬ ev i ≤ 0 := not_le.mpr hp
      have hrec := ih (i + 1) (s + ev i) (sl + log (ev i)) (by omega)
        (fun k hk1 hk2 => hev k (by omega) hk2)
      simp only [dle, hnle, decide_False, Bool.false_eq_true, if_false, dadd, Dlog, hp, if_true]
      rw [hrec]
      simp only [includedEigenvalues, intRange_cons hle, List.map_cons, List.takeWhile_cons, hp,
        decide_True, if_true, List.length_cons, List.sum_cons]
      refine Prod.ext ?_ (Prod.ext ?_ ?_)
      · simp only; push_cast; ring
      · simp only [add_assoc]
      · simp only [add_assoc]
    · have hle0 : ev i ≤ 0 := not_lt.mp hp
      simp [dle, hle0, includedEigenvalues, intRange_cons hle, hp]

theorem dadd_some (x y : K) : dadd (some x) (some y) = some (x + y) := rfl

theorem dsub_some (x y : K) : dsub (some x) (some y) = some (x - y) := rfl

theorem dmul_some (x y : K) : dmul (some x) (some y) = some (x * y) := rfl

theorem ddiv_some (x y : K) (hy : y ≠ 0) : ddiv (some x) (some y) = some (x / y) := by
  simp [ddiv, hy]

theorem nodup_intRange (lo hi : Int) : (intRange lo hi).Nodup := by
  unfold intRange
  refine List.Nodup.map ?_ (List.nodup_range _)
  intro a b hab
  simpa using hab

theorem toFinset_intRange (lo hi : Int) : (intRange lo hi).toFinset = Finset.Icc lo hi := by
  ext k
  simp [mem_intRange]

theorem sum_map_intRange (lo hi : Int) (g : Int → K) :
    ((intRange lo hi).map g).sum = ∑ k ∈ Finset.Icc lo hi, g k := by
  rw [← List.sum_toFinset g (nodup_intRange lo hi), toFinset_intRange]

theorem foldl_dadd_some (f : Int → Dbl K) (g : Int → K) :
    ∀ (l : List Int) (acc : K), (∀ k ∈ l, f k = some (g k)) →
      l.foldl (fun r k => dadd r (f k)) (some acc) = some (acc + (l.map g).sum) := by
  intro l
  induction l with
  | nil => intro acc _; simp
  | cons a t ih =>
    intro acc h
    have ha := h a (List.mem_cons_self a t)
    simp only [List.foldl_cons, ha, dadd_some, List.map_cons, List.sum_cons]
    rw [ih (acc + g a) (fun k hk => h k (List.mem_cons_of_mem a hk)), add_assoc]

/-- An accumulation over defined terms is the finite sum of the terms. -/
theorem dsum_some (lo hi : Int) (f : Int → Dbl K) (g : Int → K)
    (h : ∀ k, lo ≤ k → k ≤ hi → f k = some (g k)) :
    dsum lo hi f = some (∑ k ∈ Finset.Icc lo hi, g k) := by
  unfold dsum
  rw [foldl_dadd_some f g _ 0 (fun k hk => h k (mem_intRange.mp hk).1 (mem_intRange.mp hk).2),
    zero_add, sum_map_intRange]

/-- The sum of squares under the Frobenius norm, when all cells are defined. -/
theorem sumsq_some (m : MAT (Dbl K)) (x : Int → Int → K)
    (h : ∀ i j, 1 ≤ i → i ≤ m.nrow → 1 ≤ j → j ≤ m.ncol → m.cells i j = some (x i j)) :
    dsum 1 m.nrow (fun i => dsum 1 m.ncol (fun j => dmul (m.cells i j) (m.cells i j))) =
      some (∑ i ∈ Finset.Icc 1 m.nrow, ∑ j ∈ Finset.Icc 1 m.ncol, x i j * x i j) := by
  apply dsum_some
  intro i h1 h2
  apply dsum_some
  intro j h3 h4
  rw [h i j h1 h2 h3 h4]
  rfl

theorem exampleSqrt_pos (x : ℚ) (hx : 0 < x) : 0 < exampleSqrt x := by
  unfold exampleSqrt Rat.sqrt
  rw [Rat.mkRat_eq_div]
  have h1 : 0 < x.num := Rat.num_pos.mpr hx
  have h2 : 0 < Int.sqrt x.num := by
    unfold Int.sqrt
    have : 0 < x.num.toNat := by omega
    exact_mod_cast Nat.sqrt_pos.mpr this
  have h3 : 0 < Nat.sqrt x.den := Nat.sqrt_pos.mpr x.den_pos
  apply div_pos
  · exact_mod_cast h2
  · exact_mod_cast h3

theorem exampleSqrt_zero : exampleSqrt 0 = 0 := by
  simp [exampleSqrt, Rat.sqrt]

end Lemmas

section CellLemmas

variable {K : Type}

theorem NUMdefined_iff (m : MAT (Dbl K)) :
    NUMdefined m = true ↔
      ∀ i j, 1 ≤ i → i ≤ m.nrow → 1 ≤ j → j ≤ m.ncol → (m.cells i j).isSome = true := by
  simp only [NUMdefined, List.all_eq_true, mem_intRange]
  constructor
  · intro h i j h1 h2 h3 h4
    exact h i ⟨h1, h2⟩ j ⟨h3, h4⟩
  · intro h i hi j hj
    exact h i j hi.1 hi.2 hj.1 hj.2

theorem NUMdefined_transpose (m : MAT (Dbl K)) : NUMdefined (MATtranspose m) = NUMdefined m := by
  rw [Bool.eq_iff_iff, NUMdefined_iff, NUMdefined_iff]
  constructor
  · intro h i j h1 h2 h3 h4
    exact h j i h3 h4 h1 h2
  · intro h i j h1 h2 h3 h4
    exact h j i h3 h4 h1 h2

theorem NUMdefined_false_of_undefined (m : MAT (Dbl K))
    (h : ∃ i j, 1 ≤ i ∧ i ≤ m.nrow ∧ 1 ≤ j ∧ j ≤ m.ncol ∧ m.cells i j = undefined) :
    NUMdefined m = false := by
  obtain ⟨i, j, h1, h2, h3, h4, hc⟩ := h
  by_contra hne
  have ht : NUMdefined m = true := by simpa using hne
  have := (NUMdefined_iff m).mp ht i j h1 h2 h3 h4
  rw [hc] at this
  simp [undefined] at this

end CellLemmas

section FitLemmas

variable {K : Type} [LinearOrderedField K]

theorem NUMdefined_cells (m : MAT (Dbl K)) (h : NUMdefined m = true) :
    ∀ i j, 1 ≤ i → i ≤ m.nrow → 1 ≤ j → j ≤ m.ncol →
      m.cells i j = some ((m.cells i j).getD 0) := by
  intro i j h1 h2 h3 h4
  have := (NUMdefined_iff m).mp h i j h1 h2 h3 h4
  obtain ⟨v, hv⟩ := Option.isSome_iff_exists.mp this
  simp [hv]

theorem NUMfrobeniusnorm_transpose (sqrt : K → K) (m : MAT (Dbl K)) (h : NUMdefined m = true) :
    NUMfrobeniusnorm sqrt (MATtranspose m) = NUMfrobeniusnorm sqrt m := by
  have hc := NUMdefined_cells m h
  unfold NUMfrobeniusnorm
  rw [sumsq_some m _ hc,
    sumsq_some (MATtranspose m) (fun i j => (m.cells j i).getD 0)
      (fun i j h1 h2 h3 h4 => hc j i h3 h4 h1 h2)]
  simp only [MATtranspose]
  rw [Finset.sum_comm]

theorem MAT_to_PCA_require_transpose (sqrt : K → K) (m : MAT (Dbl K)) :
    MAT_to_PCA_require sqrt (MATtranspose m) = MAT_to_PCA_require sqrt m := by
  unfold MAT_to_PCA_require
  rw [NUMdefined_transpose]
  by_cases h : NUMdefined m = true
  · rw [NUMfrobeniusnorm_transpose sqrt m h]
  · simp [h]

end FitLemmas

/-! ## The sphericity test `PCA_getEqualityOfEigenvalues` -/

section EqualityTheorems

variable {K : Type} [LinearOrderedField K]

/-- C1, as the code has it: on a model with exactly 3 components the call with `from = 0`
and `to = 0` takes the default range `from = 3`, `to = 1`, which the guard `from < to`
rejects; no eigenvalue is included and `prob`, `chisq` and `df` are all delivered
undefined. -/
theorem PCA_getEqualityOfEigenvalues_default_three (log : K → K)
    (NUMchiSquareQ : Dbl K → Dbl K → Dbl K) (me : PCA K) (conservative : Int)
    (out : EqualityCells K) (h3 : me.numberOfEigenvalues = 3) :
    PCA_getEqualityOfEigenvalues_range me 0 0 = (3, 1) ∧
      PCA_getEqualityOfEigenvalues log NUMchiSquareQ me 0 0 conservative out =
        allUndefined out := by
  simp [PCA_getEqualityOfEigenvalues, PCA_getEqualityOfEigenvalues_range, h3, allUndefined]

/-- C1, witness: the model with eigenvalues 4, 2, 1. -/
theorem PCA_getEqualityOfEigenvalues_default_three_witness :
    examplePCA3.numberOfEigenvalues = 3 ∧
      (PCA_getEqualityOfEigenvalues_range examplePCA3 0 0 = (3, 1) ∧
        PCA_getEqualityOfEigenvalues exampleLog exampleChiSquareQ examplePCA3 0 0 0
          exampleCells = allUndefined exampleCells) :=
  ⟨rfl, PCA_getEqualityOfEigenvalues_default_three exampleLog exampleChiSquareQ examplePCA3 0
    exampleCells rfl⟩

/-- C1, counterexample: the model `examplePCA3` has exactly 3 components, all with a
positive eigenvalue, and the call with `from = 0`, `to = 0` reports `undefined` as the
degrees of freedom, not the defined value 0. -/
theorem PCA_getEqualityOfEigenvalues_default_three_counterexample :
    examplePCA3.numberOfEigenvalues = 3 ∧
      (∀ i ∈ [(1 : Int), 2, 3], ∃ v : ℚ, 0 < v ∧ examplePCA3.eigenvalues.cells i = some v) ∧
      (PCA_getEqualityOfEigenvalues exampleLog exampleChiSquareQ examplePCA3 0 0 0
          exampleCells).p_df = some undefined ∧
      (PCA_getEqualityOfEigenvalues exampleLog exampleChiSquareQ examplePCA3 0 0 0
          exampleCells).p_df ≠ some (some 0) := by
  refine ⟨rfl, ?_, ?_, ?_⟩
  · simp [examplePCA3]
  · simp [PCA_getEqualityOfEigenvalues, PCA_getEqualityOfEigenvalues_range, examplePCA3,
      exampleCells, store]
  · simp [PCA_getEqualityOfEigenvalues, PCA_getEqualityOfEigenvalues_range, examplePCA3,
      exampleCells, store, undefined]

/-- C2: with the `(0, 0)` default applied first, the three results are delivered undefined
unless `from < to`, `from > 0` and `to <= numberOfEigenvalues` all hold; in particular for
every range with `from = to` and for every range with `to > numberOfEigenvalues`. -/
theorem PCA_getEqualityOfEigenvalues_undefined_outside (log : K → K)
    (NUMchiSquareQ : Dbl K → Dbl K → Dbl K) (me : PCA K) (from_ to_ conservative : Int)
    (out : EqualityCells K) :
    (¬ ((PCA_getEqualityOfEigenvalues_range me from_ to_).1 <
            (PCA_getEqualityOfEigenvalues_range me from_ to_).2 ∧
          (PCA_getEqualityOfEigenvalues_range me from_ to_).1 > 0 ∧
          (PCA_getEqualityOfEigenvalues_range me from_ to_).2 ≤ me.numberOfEigenvalues) →
        PCA_getEqualityOfEigenvalues log NUMchiSquareQ me from_ to_ conservative out =
          allUndefined out) ∧
      (from_ = to_ →
        PCA_getEqualityOfEigenvalues log NUMchiSquareQ me from_ to_ conservative out =
          allUndefined out) ∧
      (me.numberOfEigenvalues < to_ →
        PCA_getEqualityOfEigenvalues log NUMchiSquareQ me from_ to_ conservative out =
          allUndefined out) := by
  have key : ¬ ((PCA_getEqualityOfEigenvalues_range me from_ to_).1 <
            (PCA_getEqualityOfEigenvalues_range me from_ to_).2 ∧
          (PCA_getEqualityOfEigenvalues_range me from_ to_).1 > 0 ∧
          (PCA_getEqualityOfEigenvalues_range me from_ to_).2 ≤ me.numberOfEigenvalues) →
        PCA_getEqualityOfEigenvalues log NUMchiSquareQ me from_ to_ conservative out =
          allUndefined out := by
    intro h
    simp only [PCA_getEqualityOfEigenvalues, if_neg h, allUndefined]
  refine ⟨key, fun h => key ?_, fun h => key ?_⟩
  · unfold PCA_getEqualityOfEigenvalues_range
    split_ifs <;> simp <;> omega
  · unfold PCA_getEqualityOfEigenvalues_range
    split_ifs <;> simp <;> omega

/-- C2, witness: on the model with eigenvalues 4, 2, 1 the ranges `(0, 0)` (default range
`(3, 1)`), `(2, 2)` and `(1, 5)` all deliver three undefined results. -/
theorem PCA_getEqualityOfEigenvalues_undefined_outside_witness :
    PCA_getEqualityOfEigenvalues exampleLog exampleChiSquareQ examplePCA3 0 0 0 exampleCells =
        allUndefined exampleCells ∧
      PCA_getEqualityOfEigenvalues exampleLog exampleChiSquareQ examplePCA3 2 2 0 exampleCells =
        allUndefined exampleCells ∧
      PCA_getEqualityOfEigenvalues exampleLog exampleChiSquareQ examplePCA3 1 5 0 exampleCells =
        allUndefined exampleCells :=
  ⟨(PCA_getEqualityOfEigenvalues_undefined_outside exampleLog exampleChiSquareQ examplePCA3
      0 0 0 exampleCells).1 (by simp [PCA_getEqualityOfEigenvalues_range, examplePCA3]),
    (PCA_getEqualityOfEigenvalues_undefined_outside exampleLog exampleChiSquareQ examplePCA3
      2 2 0 exampleCells).2.1 rfl,
    (PCA_getEqualityOfEigenvalues_undefined_outside exampleLog exampleChiSquareQ examplePCA3
      1 5 0 exampleCells).2.2 (by simp [examplePCA3])⟩

theorem includedEigenvalues_pos (ev : Int → K) (from_ to_ : Int) :
    ∀ x ∈ includedEigenvalues ev from_ to_, 0 < x := by
  intro x hx
  have := List.mem_takeWhile_imp hx
  simpa using this

theorem includedEigenvalues_ne_nil (ev : Int → K) (from_ to_ : Int) (h : from_ ≤ to_)
    (hpos : 0 < ev from_) : includedEigenvalues ev from_ to_ ≠ [] := by
  simp [includedEigenvalues, intRange_cons h, List.takeWhile_cons, hpos]

theorem cast_tdiv_two (r : Int) (hr : 0 ≤ r) :
    ((Int.tdiv (r * (r + 1)) 2 : Int) : K) = (r : K) * ((r : K) + 1) / 2 := by
  have h2 : (2 : Int) ∣ r * (r + 1) := by
    have := Int.even_mul_succ_self r
    exact even_iff_two_dvd.mp this
  have hnn : 0 ≤ r * (r + 1) := by positivity
  rw [Int.tdiv_eq_ediv hnn (by norm_num)]
  rw [Int.cast_div h2 (by norm_num)]
  push_cast
  ring

/-- C3: on a range with `0 < from < to <= numberOfEigenvalues` whose eigenvalues are
defined numbers `ev i` and whose first eigenvalue is positive, with `r`, `sum` and
`sumOfLogs` the number, the sum and the sum of the logarithms of the included eigenvalues
(those up to the first non-positive one), the call delivers
`df = r (r + 1) / 2 - 1` (an exact value: the integer division loses nothing),
`chisq = n * (r * log (sum / r) - sumOfLogs)` with `n = numberOfObservations - 1`, less
`from + (r (2 r + 1) + 2) / (6 r)` when `conservative` is set, and
`prob = NUMchiSquareQ (chisq, df)`. -/
theorem PCA_getEqualityOfEigenvalues_formula (log : K → K)
    (NUMchiSquareQ : Dbl K → Dbl K → Dbl K) (me : PCA K) (ev : Int → K)
    (from_ to_ conservative : Int) (out : EqualityCells K)
    (h1 : 0 < from_) (h2 : from_ < to_) (h3 : to_ ≤ me.numberOfEigenvalues)
    (hev : ∀ i, from_ ≤ i → i ≤ to_ → me.eigenvalues.cells i = some (ev i))
    (hpos : 0 < ev from_) :
    let r : K := ((includedEigenvalues ev from_ to_).length : K)
    let sum : K := (includedEigenvalues ev from_ to_).sum
    let sumOfLogs : K := ((includedEigenvalues ev from_ to_).map log).sum
    let n : K := ((me.numberOfObservations : K) - 1) -
      (if conservative ≠ 0 then (from_ : K) + (r * (2 * r + 1) + 2) / (6 * r) else 0)
    let degreesOfFreedom : K := r * (r + 1) / 2 - 1
    let chiSquare : K := n * (r * log (sum / r) - sumOfLogs)
    PCA_getEqualityOfEigenvalues log NUMchiSquareQ me from_ to_ conservative out =
      ⟨store out.p_prob (NUMchiSquareQ (some chiSquare) (some degreesOfFreedom)),
        store out.p_chisq (some chiSquare), store out.p_df (some degreesOfFreedom)⟩ := by
  intro r sum sumOfLogs n degreesOfFreedom chiSquare
  have hrange : PCA_getEqualityOfEigenvalues_range me from_ to_ = (from_, to_) := by
    have : ¬ (from_ = 0 ∧ to_ = 0) := by omega
    simp [PCA_getEqualityOfEigenvalues_range, this]
  have hguard : from_ < to_ ∧ from_ > 0 ∧ to_ ≤ me.numberOfEigenvalues := ⟨h2, h1, h3⟩
  have hloop := loop_spec log me.eigenvalues ev to_ (to_ + 1 - from_).toNat from_ 0 0 rfl hev
  have hne := includedEigenvalues_ne_nil ev from_ to_ h2.le hpos
  have hsum : 0 < sum := List.sum_pos _ (includedEigenvalues_pos ev from_ to_) hne
  have hlen : 0 < (includedEigenvalues ev from_ to_).length := List.length_pos.mpr hne
  have hr : 0 < r := by
    show (0 : K) < ((includedEigenvalues ev from_ to_).length : K)
    exact_mod_cast hlen
  have hr0 : r ≠ 0 := ne_of_gt hr
  have hdiv : 0 < sum / r := div_pos hsum hr
  have h6 : (6 : K) * r ≠ 0 := by positivity
  have hs0 : ¬ (includedEigenvalues ev from_ to_).sum = 0 := ne_of_gt hsum
  have hrK : ((((includedEigenvalues ev from_ to_).length : Int) : Int) : K) = r := by
    simp [r]
  have e1 : ddiv (some (includedEigenvalues ev from_ to_).sum)
      (ofInt ((includedEigenvalues ev from_ to_).length : Int)) = some (sum / r) := by
    simp only [ddiv, ofInt, hrK, hr0, if_false]
  have e2 : Dlog log (some (sum / r)) = some (log (sum / r)) := by
    simp only [Dlog, hdiv, if_true]
  have e3 : (ofInt (Int.tdiv (((includedEigenvalues ev from_ to_).length : Int) *
      (((includedEigenvalues ev from_ to_).length : Int) + 1)) 2 - 1) : Dbl K) =
      some degreesOfFreedom := by
    simp only [ofInt, Int.cast_sub, Int.cast_one,
      cast_tdiv_two ((includedEigenvalues ev from_ to_).length : Int) (by positivity), hrK,
      degreesOfFreedom]
  have e4 : (if conservative ≠ 0 then
        dsub (ofInt (me.numberOfObservations - 1))
          (dadd (ofInt from_)
            (ddiv (ofInt (((includedEigenvalues ev from_ to_).length : Int) *
              (2 * ((includedEigenvalues ev from_ to_).length : Int) + 1) + 2))
              (dmul (some 6) (ofInt ((includedEigenvalues ev from_ to_).length : Int)))))
      else ofInt (me.numberOfObservations - 1) : Dbl K) = some n := by
    by_cases hc : conservative ≠ 0
    · simp only [if_pos hc, ofInt, dmul, ddiv, hrK, h6, if_false, dadd, dsub, n]
      push_cast
      simp only [hrK]
    · simp only [if_neg hc, ofInt, n]
      push_cast
      simp
  simp only [PCA_getEqualityOfEigenvalues, hrange, if_pos hguard, hloop, zero_add, deq, hs0,
    decide_False, Bool.false_eq_true, if_false, add_sub_cancel_left, e1, e2, e3, e4]
  simp only [ofInt, hrK, dmul, dsub]

/-- C3, witness: eigenvalues 4, 2, 1, ten observations, range 1 .. 3, conservative. -/
theorem PCA_getEqualityOfEigenvalues_formula_witness :
    PCA_getEqualityOfEigenvalues exampleLog exampleChiSquareQ examplePCA3 1 3 1 exampleCells =
      ⟨some (some (135 / 619)), some (some (484 / 135)), some (some 5)⟩ := by
  have h := PCA_getEqualityOfEigenvalues_formula exampleLog exampleChiSquareQ examplePCA3
    (fun i => if i = 1 then 4 else if i = 2 then 2 else 1) 1 3 1 exampleCells
    (by decide) (by decide) (by simp [examplePCA3]) (by intro i _ _; simp only [examplePCA3]; split_ifs <;> rfl)
    (by norm_num)
  have hr : intRange 1 3 = [1, 2, 3] := by decide
  have hn : examplePCA3.numberOfObservations = 10 := rfl
  rw [h]
  simp only [includedEigenvalues, hr, hn]
  norm_num [exampleLog, exampleChiSquareQ, exampleCells, store, List.takeWhile]

/-- C4, the code at the failing input: the eigenvalues are 0, 0 and the range is 1 .. 2, so
the loop stops at once with `sum == 0.0` and the function returns before the three final
assignments: the caller's variables still hold 7, 8 and 9, none of them `undefined`. -/
theorem PCA_getEqualityOfEigenvalues_zero_sum_returns_early :
    PCA_getEqualityOfEigenvalues exampleLog exampleChiSquareQ examplePCA0 1 2 0 exampleCells =
        exampleCells ∧
      exampleCells.p_prob = some (some 7) ∧ exampleCells.p_chisq = some (some 8) ∧
      exampleCells.p_df = some (some 9) ∧ exampleCells ≠ allUndefined exampleCells := by
  refine ⟨?_, rfl, rfl, rfl, ?_⟩
  · simp [PCA_getEqualityOfEigenvalues, PCA_getEqualityOfEigenvalues_range, examplePCA0,
      PCA_getEqualityOfEigenvalues_loop, dle, deq]
  · simp [exampleCells, allUndefined, store, undefined]

end EqualityTheorems

/-! ## The fit `MAT_to_PCA` -/

section FitTheorems

variable {K : Type} [LinearOrderedField K]

theorem sumsq_pos (m : MAT (Dbl K)) (x : Int → Int → K)
    (hnz : ∃ i j, 1 ≤ i ∧ i ≤ m.nrow ∧ 1 ≤ j ∧ j ≤ m.ncol ∧ x i j ≠ 0) :
    0 < ∑ i ∈ Finset.Icc 1 m.nrow, ∑ j ∈ Finset.Icc 1 m.ncol, x i j * x i j := by
  obtain ⟨i, j, h1, h2, h3, h4, hx⟩ := hnz
  have hin : ∀ i' ∈ Finset.Icc 1 m.nrow,
      0 ≤ ∑ j' ∈ Finset.Icc 1 m.ncol, x i' j' * x i' j' :=
    fun i' _ => Finset.sum_nonneg (fun j' _ => mul_self_nonneg _)
  have h5 : 0 < x i j * x i j := mul_self_pos.mpr hx
  have h6 : x i j * x i j ≤ ∑ j' ∈ Finset.Icc 1 m.ncol, x i j' * x i j' :=
    Finset.single_le_sum (f := fun j' => x i j' * x i j') (fun j' _ => mul_self_nonneg _)
      (Finset.mem_Icc.mpr ⟨h3, h4⟩)
  have h7 : (∑ j' ∈ Finset.Icc 1 m.ncol, x i j' * x i j') ≤
      ∑ i' ∈ Finset.Icc 1 m.nrow, ∑ j' ∈ Finset.Icc 1 m.ncol, x i' j' * x i' j' :=
    Finset.single_le_sum (f := fun i' => ∑ j' ∈ Finset.Icc 1 m.ncol, x i' j' * x i' j') hin
      (Finset.mem_Icc.mpr ⟨h1, h2⟩)
  exact lt_of_lt_of_le h5 (le_trans h6 h7)

theorem MAT_to_PCA_require_ok (sqrt : K → K) (m : MAT (Dbl K))
    (hsqrtpos : ∀ x, 0 < x → 0 < sqrt x)
    (hdef : ∀ i j, 1 ≤ i → i ≤ m.nrow → 1 ≤ j → j ≤ m.ncol → (m.cells i j).isSome = true)
    (hnz : ∃ i j, 1 ≤ i ∧ i ≤ m.nrow ∧ 1 ≤ j ∧ j ≤ m.ncol ∧ m.cells i j ≠ some 0) :
    MAT_to_PCA_require sqrt m = .ok () := by
  have hd : NUMdefined m = true := (NUMdefined_iff m).mpr hdef
  have hc := NUMdefined_cells m hd
  have hpos : 0 < ∑ i ∈ Finset.Icc 1 m.nrow, ∑ j ∈ Finset.Icc 1 m.ncol,
      (m.cells i j).getD 0 * (m.cells i j).getD 0 := by
    apply sumsq_pos m
    obtain ⟨i, j, h1, h2, h3, h4, hx⟩ := hnz
    refine ⟨i, j, h1, h2, h3, h4, ?_⟩
    intro h0
    apply hx
    rw [hc i j h1 h2 h3 h4, h0]
  simp only [MAT_to_PCA_require, hd, NUMfrobeniusnorm, sumsq_some m _ hc, Dsqrt, hpos.le,
    if_true, dlt, hsqrtpos _ hpos, decide_True]
  simp

/-- C5: for a matrix of any shape and either value of `byColumns`, `MAT_to_PCA` throws and
returns no model when some cell is undefined, and also when every cell is zero; when all
cells are defined and at least one is not zero, both checks pass.  (`sqrt` is the library
square root: zero at zero and positive on positive numbers.) -/
theorem MAT_to_PCA_precondition_checks (sqrt : K → K)
    (Eigen_initFromSquareRoot : MAT (Dbl K) → Throws (Eigen K)) (m : MAT (Dbl K))
    (byColumns : Bool) (hsqrt0 : sqrt 0 = 0) (hsqrtpos : ∀ x, 0 < x → 0 < sqrt x) :
    ((∃ i j, 1 ≤ i ∧ i ≤ m.nrow ∧ 1 ≤ j ∧ j ≤ m.ncol ∧ m.cells i j = undefined) →
        (MAT_to_PCA sqrt Eigen_initFromSquareRoot m byColumns).result =
          .error ["All matrix elements should be defined.", MAT_to_PCA_message byColumns]) ∧
      ((∀ i j, 1 ≤ i → i ≤ m.nrow → 1 ≤ j → j ≤ m.ncol → m.cells i j = some 0) →
        (MAT_to_PCA sqrt Eigen_initFromSquareRoot m byColumns).result =
          .error ["Not all values in your table should be zero.",
            MAT_to_PCA_message byColumns]) ∧
      ((∀ i j, 1 ≤ i → i ≤ m.nrow → 1 ≤ j → j ≤ m.ncol → (m.cells i j).isSome = true) →
        (∃ i j, 1 ≤ i ∧ i ≤ m.nrow ∧ 1 ≤ j ∧ j ≤ m.ncol ∧ m.cells i j ≠ some 0) →
        MAT_to_PCA_require sqrt m = .ok ()) := by
  refine ⟨?_, ?_, ?_⟩
  · intro h
    have hd := NUMdefined_false_of_undefined m h
    simp [MAT_to_PCA, MAT_to_PCA_require, hd]
  · intro h
    have hd : NUMdefined m = true :=
      (NUMdefined_iff m).mpr (fun i j h1 h2 h3 h4 => by rw [h i j h1 h2 h3 h4]; rfl)
    have hs := sumsq_some m (fun _ _ => (0 : K)) h
    simp [MAT_to_PCA, MAT_to_PCA_require, hd, NUMfrobeniusnorm, hs, Dsqrt, hsqrt0, dlt]
  · exact MAT_to_PCA_require_ok sqrt m hsqrtpos

/-- C5, witness: the row (1, undefined) and the table of zeros are refused, by rows and
by columns, and the table (1, 2), (3, 4) passes both checks. -/
theorem MAT_to_PCA_precondition_checks_witness :
    (MAT_to_PCA exampleSqrt exampleKernel exampleMATundefined false).result =
        .error ["All matrix elements should be defined.", "No PCA created from rows."] ∧
      (MAT_to_PCA exampleSqrt exampleKernel exampleMATzero true).result =
        .error ["Not all values in your table should be zero.",
          "No PCA created from columns."] ∧
      MAT_to_PCA_require exampleSqrt exampleMAT = .ok () :=
  ⟨(MAT_to_PCA_precondition_checks exampleSqrt exampleKernel exampleMATundefined false
      exampleSqrt_zero exampleSqrt_pos).1 ⟨1, 2, by decide, by decide, by decide, by decide, rfl⟩,
    (MAT_to_PCA_precondition_checks exampleSqrt exampleKernel exampleMATzero true
      exampleSqrt_zero exampleSqrt_pos).2.1 (fun _ _ _ _ _ _ => rfl),
    (MAT_to_PCA_precondition_checks exampleSqrt exampleKernel exampleMAT false
      exampleSqrt_zero exampleSqrt_pos).2.2
      (fun i j _ _ _ _ => by simp only [exampleMAT]; split_ifs <;> rfl)
      ⟨1, 1, by decide, by decide, by decide, by decide, by simp [exampleMAT]⟩⟩

/-- C7: `MAT_to_PCA (m, byColumns = true)` and `MAT_to_PCA (transpose (m), byColumns =
false)` both throw or both return the same model, and one warns exactly when the other
does. -/
theorem MAT_to_PCA_byColumns_eq_transpose_byRows (sqrt : K → K)
    (Eigen_initFromSquareRoot : MAT (Dbl K) → Throws (Eigen K)) (m : MAT (Dbl K)) :
    (MAT_to_PCA sqrt Eigen_initFromSquareRoot m true).result.toOption =
        (MAT_to_PCA sqrt Eigen_initFromSquareRoot (MATtranspose m) false).result.toOption ∧
      (MAT_to_PCA sqrt Eigen_initFromSquareRoot m true).warnings.length =
        (MAT_to_PCA sqrt Eigen_initFromSquareRoot (MATtranspose m) false).warnings.length := by
  have hreq := MAT_to_PCA_require_transpose sqrt m
  have hcopy : MAT_to_PCA_mcopy (MATtranspose m) false = MAT_to_PCA_mcopy m true := rfl
  have hwarn : (MAT_to_PCA_warnings m true).length =
      (MAT_to_PCA_warnings (MATtranspose m) false).length := by
    simp only [MAT_to_PCA_warnings, MATtranspose, if_true, Bool.false_eq_true, if_false]
    split_ifs <;> rfl
  unfold MAT_to_PCA
  rw [hreq, hcopy]
  cases MAT_to_PCA_require sqrt m with
  | error e => exact ⟨rfl, rfl⟩
  | ok u =>
    simp only
    cases Eigen_initFromSquareRoot
        (MATsubtract_inplace (MAT_to_PCA_mcopy m true) (VECcolumnMeans (MAT_to_PCA_mcopy m true))) with
    | error e => exact ⟨rfl, hwarn⟩
    | ok eigen => exact ⟨rfl, hwarn⟩

theorem MAT_to_PCA_require_nonempty (sqrt : K → K) (m : MAT (Dbl K)) (hsqrt0 : sqrt 0 = 0)
    (hreq : MAT_to_PCA_require sqrt m = .ok ()) : 1 ≤ m.nrow ∧ 1 ≤ m.ncol := by
  have hd : NUMdefined m = true := by
    by_contra hne
    have hf : NUMdefined m = false := by simpa using hne
    simp [MAT_to_PCA_require, hf] at hreq
  have hc := NUMdefined_cells m hd
  by_contra hcon
  have hzero : ∑ i ∈ Finset.Icc 1 m.nrow, ∑ j ∈ Finset.Icc 1 m.ncol,
      (m.cells i j).getD 0 * (m.cells i j).getD 0 = 0 := by
    by_cases hr : 1 ≤ m.nrow
    · have hcol : ¬ 1 ≤ m.ncol := fun h => hcon ⟨hr, h⟩
      have he : Finset.Icc 1 m.ncol = ∅ := Finset.Icc_eq_empty hcol
      simp [he]
    · have he : Finset.Icc 1 m.nrow = ∅ := Finset.Icc_eq_empty hr
      simp [he]
  simp [MAT_to_PCA_require, hd, NUMfrobeniusnorm, sumsq_some m _ hc, hzero, Dsqrt, hsqrt0,
    dlt] at hreq

/-- The model that `MAT_to_PCA` returns when the checks pass and the kernel succeeds. -/
theorem MAT_to_PCA_result (sqrt : K → K)
    (Eigen_initFromSquareRoot : MAT (Dbl K) → Throws (Eigen K)) (m : MAT (Dbl K))
    (byColumns : Bool) (eigen : Eigen K) (hreq : MAT_to_PCA_require sqrt m = .ok ())
    (hkernel : Eigen_initFromSquareRoot
      (MATsubtract_inplace (MAT_to_PCA_mcopy m byColumns)
        (VECcolumnMeans (MAT_to_PCA_mcopy m byColumns))) = .ok eigen) :
    (MAT_to_PCA sqrt Eigen_initFromSquareRoot m byColumns).result =
      .ok { numberOfEigenvalues := eigen.numberOfEigenvalues
            dimension := eigen.dimension
            eigenvalues := VECmultiply_inplace eigen.eigenvalues
              (ddiv (some 1) (ofInt ((MAT_to_PCA_mcopy m byColumns).nrow - 1)))
            eigenvectors := eigen.eigenvectors
            numberOfObservations := (MAT_to_PCA_mcopy m byColumns).nrow
            labels := autostring32vector (MAT_to_PCA_mcopy m byColumns).ncol
            centroid := VECcolumnMeans (MAT_to_PCA_mcopy m byColumns) } := by
  simp only [MAT_to_PCA, hreq, hkernel]
  rfl

/-- C6: for a matrix that passes the two checks, with `W` the working matrix (`m`, or its
transpose when `byColumns` is set), `w` its cells and `N` its number of rows, the model that
`MAT_to_PCA` returns has as centroid the column means of `W`, `numberOfObservations = N`,
one label per column of `W`, and as eigenvalues those that the square-root kernel returns
for `W` with the centroid subtracted from every row, each multiplied by `1 / (N - 1)`
after the decomposition. -/
theorem MAT_to_PCA_model (sqrt : K → K)
    (Eigen_initFromSquareRoot : MAT (Dbl K) → Throws (Eigen K)) (m : MAT (Dbl K))
    (byColumns : Bool) (w : Int → Int → K) (eigen : Eigen K) (hsqrt0 : sqrt 0 = 0)
    (hreq : MAT_to_PCA_require sqrt m = .ok ())
    (hw : ∀ i j, 1 ≤ i → i ≤ (MAT_to_PCA_mcopy m byColumns).nrow → 1 ≤ j →
      j ≤ (MAT_to_PCA_mcopy m byColumns).ncol →
      (MAT_to_PCA_mcopy m byColumns).cells i j = some (w i j))
    (hkernel : Eigen_initFromSquareRoot
      (MATsubtract_inplace (MAT_to_PCA_mcopy m byColumns)
        (VECcolumnMeans (MAT_to_PCA_mcopy m byColumns))) = .ok eigen) :
    ∃ thee : PCA K,
      (MAT_to_PCA sqrt Eigen_initFromSquareRoot m byColumns).result = .ok thee ∧
      (MAT_to_PCA_mcopy m byColumns).nrow = (if byColumns then m.ncol else m.nrow) ∧
      (MAT_to_PCA_mcopy m byColumns).ncol = (if byColumns then m.nrow else m.ncol) ∧
      (∀ i j, (MAT_to_PCA_mcopy m byColumns).cells i j =
        (if byColumns then m.cells j i else m.cells i j)) ∧
      thee.centroid.size = (MAT_to_PCA_mcopy m byColumns).ncol ∧
      (∀ j, 1 ≤ j → j ≤ (MAT_to_PCA_mcopy m byColumns).ncol →
        thee.centroid.cells j =
          some ((∑ i ∈ Finset.Icc 1 (MAT_to_PCA_mcopy m byColumns).nrow, w i j) /
            ((MAT_to_PCA_mcopy m byColumns).nrow : K))) ∧
      thee.numberOfObservations = (MAT_to_PCA_mcopy m byColumns).nrow ∧
      thee.labels.size = (MAT_to_PCA_mcopy m byColumns).ncol ∧
      Eigen_initFromSquareRoot
        (MATsubtract_inplace (MAT_to_PCA_mcopy m byColumns) thee.centroid) = .ok eigen ∧
      (∀ i j, 1 ≤ i → i ≤ (MAT_to_PCA_mcopy m byColumns).nrow → 1 ≤ j →
        j ≤ (MAT_to_PCA_mcopy m byColumns).ncol →
        (MATsubtract_inplace (MAT_to_PCA_mcopy m byColumns) thee.centroid).cells i j =
          some (w i j - (∑ i' ∈ Finset.Icc 1 (MAT_to_PCA_mcopy m byColumns).nrow, w i' j) /
            ((MAT_to_PCA_mcopy m byColumns).nrow : K))) ∧
      thee.numberOfEigenvalues = eigen.numberOfEigenvalues ∧
      thee.dimension = eigen.dimension ∧
      thee.eigenvectors = eigen.eigenvectors ∧
      thee.eigenvalues.size = eigen.eigenvalues.size ∧
      (∀ i, thee.eigenvalues.cells i =
        dmul (eigen.eigenvalues.cells i)
          (ddiv (some 1) (ofInt ((MAT_to_PCA_mcopy m byColumns).nrow - 1)))) := by
  have hne := MAT_to_PCA_require_nonempty sqrt m hsqrt0 hreq
  have hN : 1 ≤ (MAT_to_PCA_mcopy m byColumns).nrow := by
    cases byColumns
    · exact hne.1
    · exact hne.2
  have hNK : ((MAT_to_PCA_mcopy m byColumns).nrow : K) ≠ 0 := by
    have : (0 : K) < ((MAT_to_PCA_mcopy m byColumns).nrow : K) := by exact_mod_cast hN
    exact ne_of_gt this
  have hmean : ∀ j, 1 ≤ j → j ≤ (MAT_to_PCA_mcopy m byColumns).ncol →
      (VECcolumnMeans (MAT_to_PCA_mcopy m byColumns)).cells j =
        some ((∑ i ∈ Finset.Icc 1 (MAT_to_PCA_mcopy m byColumns).nrow, w i j) /
          ((MAT_to_PCA_mcopy m byColumns).nrow : K)) := by
    intro j h1 h2
    simp only [VECcolumnMeans]
    rw [dsum_some 1 _ _ (fun i => w i j) (fun i hi1 hi2 => hw i j hi1 hi2 h1 h2)]
    exact ddiv_some _ _ hNK
  refine ⟨{ numberOfEigenvalues := eigen.numberOfEigenvalues
            dimension := eigen.dimension
            eigenvalues := VECmultiply_inplace eigen.eigenvalues
              (ddiv (some 1) (ofInt ((MAT_to_PCA_mcopy m byColumns).nrow - 1)))
            eigenvectors := eigen.eigenvectors
            numberOfObservations := (MAT_to_PCA_mcopy m byColumns).nrow
            labels := autostring32vector (MAT_to_PCA_mcopy m byColumns).ncol
            centroid := VECcolumnMeans (MAT_to_PCA_mcopy m byColumns) },
    ?_, ?_, ?_, ?_, rfl, hmean, rfl, rfl, hkernel, ?_, rfl, rfl, rfl, rfl, fun _ => rfl⟩
  · exact MAT_to_PCA_result sqrt Eigen_initFromSquareRoot m byColumns eigen hreq hkernel
  · cases byColumns <;> rfl
  · cases byColumns <;> rfl
  · intro i j
    cases byColumns <;> rfl
  · intro i j h1 h2 h3 h4
    simp only [MATsubtract_inplace, hw i j h1 h2 h3 h4, hmean j h3 h4, dsub_some]

theorem exampleMAT_sum (g : Int → ℚ) : ∑ i ∈ Finset.Icc (1 : Int) 2, g i = g 1 + g 2 := by
  have h : Finset.Icc (1 : Int) 2 = {1, 2} := by decide
  rw [h, Finset.sum_pair (by decide)]

theorem exampleKernel_eigenvalue :
    dsum 1 2 (fun i => dsum 1 2 (fun j =>
        dmul ((MATsubtract_inplace (MAT_to_PCA_mcopy exampleMAT false)
            (VECcolumnMeans (MAT_to_PCA_mcopy exampleMAT false))).cells i j)
          ((MATsubtract_inplace (MAT_to_PCA_mcopy exampleMAT false)
            (VECcolumnMeans (MAT_to_PCA_mcopy exampleMAT false))).cells i j))) =
      some (4 : ℚ) := by
  have hr : intRange 1 2 = [1, 2] := by decide
  simp only [dsum, hr, List.foldl, MATsubtract_inplace, VECcolumnMeans, MAT_to_PCA_mcopy,
    MATcopy, exampleMAT, Bool.false_eq_true, if_false]
  norm_num [dadd, dsub, dmul, ddiv, ofInt]

theorem exampleMAT_require : MAT_to_PCA_require exampleSqrt exampleMAT = .ok () :=
  MAT_to_PCA_require_ok exampleSqrt exampleMAT exampleSqrt_pos
    (fun i j _ _ _ _ => by simp only [exampleMAT]; split_ifs <;> rfl)
    ⟨1, 1, by decide, by decide, by decide, by decide, by simp [exampleMAT]⟩

/-- C6, witness: the table (1, 2), (3, 4) by rows, with the stand-in kernel: the centroid
is (2, 3), there are 2 observations and 2 labels, and the eigenvalue 4 of the kernel
becomes 4 * (1 / (2 - 1)) = 4. -/
theorem MAT_to_PCA_model_witness :
    ∃ thee : PCA ℚ,
      (MAT_to_PCA exampleSqrt exampleKernel exampleMAT false).result = .ok thee ∧
      thee.centroid.cells 1 = some 2 ∧ thee.centroid.cells 2 = some 3 ∧
      thee.numberOfObservations = 2 ∧ thee.labels.size = 2 ∧
      thee.eigenvalues.cells 1 = some 4 := by
  obtain ⟨thee, h1, _, _, _, _, hcen, hobs, hlab, _, hsub, _, _, _, _, hev⟩ :=
    MAT_to_PCA_model exampleSqrt exampleKernel exampleMAT false
      (fun i j => if i = 1 then (if j = 1 then 1 else 2) else (if j = 1 then 3 else 4))
      _ exampleSqrt_zero exampleMAT_require
      (fun i j _ _ _ _ => by
        simp only [MAT_to_PCA_mcopy, MATcopy, exampleMAT, Bool.false_eq_true, if_false]
        split_ifs <;> rfl)
      rfl
  have hnrow : (MAT_to_PCA_mcopy exampleMAT false).nrow = 2 := rfl
  have hncol : (MAT_to_PCA_mcopy exampleMAT false).ncol = 2 := rfl
  rw [hnrow, hncol] at hcen hsub
  rw [hnrow] at hev
  refine ⟨thee, h1, ?_, ?_, hobs, hlab, ?_⟩
  · rw [hcen 1 (by decide) (by decide), exampleMAT_sum]
    norm_num
  · rw [hcen 2 (by decide) (by decide), exampleMAT_sum]
    norm_num
  · rw [hev 1]
    refine (congrArg (fun z => dmul z (ddiv (some 1) (ofInt (2 - 1)))) exampleKernel_eigenvalue).trans ?_
    norm_num [ddiv, ofInt, dmul]

/-- C8, as the code has it: for a matrix that passes the two checks and has at least two
observations (`N >= 2` rows of the working matrix), if the eigenvalues that the
square-root kernel returns are non-negative and sorted in descending order, then the
eigenvalues of the returned model are defined (finite), non-negative and sorted in
descending order. -/
theorem MAT_to_PCA_eigenvalues_sorted (sqrt : K → K)
    (Eigen_initFromSquareRoot : MAT (Dbl K) → Throws (Eigen K)) (m : MAT (Dbl K))
    (byColumns : Bool) (eigen : Eigen K)
    (hreq : MAT_to_PCA_require sqrt m = .ok ())
    (hN : 2 ≤ (MAT_to_PCA_mcopy m byColumns).nrow)
    (hkernel : Eigen_initFromSquareRoot
      (MATsubtract_inplace (MAT_to_PCA_mcopy m byColumns)
        (VECcolumnMeans (MAT_to_PCA_mcopy m byColumns))) = .ok eigen)
    (hnonneg : ∀ i, 1 ≤ i → i ≤ eigen.numberOfEigenvalues →
      ∃ v : K, 0 ≤ v ∧ eigen.eigenvalues.cells i = some v)
    (hsorted : ∀ i j, 1 ≤ i → i ≤ j → j ≤ eigen.numberOfEigenvalues →
      dle (eigen.eigenvalues.cells j) (eigen.eigenvalues.cells i) = true) :
    ∃ thee : PCA K,
      (MAT_to_PCA sqrt Eigen_initFromSquareRoot m byColumns).result = .ok thee ∧
      thee.numberOfEigenvalues = eigen.numberOfEigenvalues ∧
      (∀ i, 1 ≤ i → i ≤ thee.numberOfEigenvalues →
        ∃ v : K, 0 ≤ v ∧ thee.eigenvalues.cells i = some v) ∧
      (∀ i j, 1 ≤ i → i ≤ j → j ≤ thee.numberOfEigenvalues →
        dle (thee.eigenvalues.cells j) (thee.eigenvalues.cells i) = true) := by
  have hpos : (0 : K) < (((MAT_to_PCA_mcopy m byColumns).nrow - 1 : Int) : K) := by
    exact_mod_cast (by omega : (0 : Int) < (MAT_to_PCA_mcopy m byColumns).nrow - 1)
  have hfac : (ddiv (some 1) (ofInt ((MAT_to_PCA_mcopy m byColumns).nrow - 1)) : Dbl K) =
      some (1 / (((MAT_to_PCA_mcopy m byColumns).nrow - 1 : Int) : K)) :=
    ddiv_some _ _ (ne_of_gt hpos)
  have hfpos : (0 : K) < 1 / (((MAT_to_PCA_mcopy m byColumns).nrow - 1 : Int) : K) :=
    one_div_pos.mpr hpos
  refine ⟨{ numberOfEigenvalues := eigen.numberOfEigenvalues
            dimension := eigen.dimension
            eigenvalues := VECmultiply_inplace eigen.eigenvalues
              (ddiv (some 1) (ofInt ((MAT_to_PCA_mcopy m byColumns).nrow - 1)))
            eigenvectors := eigen.eigenvectors
            numberOfObservations := (MAT_to_PCA_mcopy m byColumns).nrow
            labels := autostring32vector (MAT_to_PCA_mcopy m byColumns).ncol
            centroid := VECcolumnMeans (MAT_to_PCA_mcopy m byColumns) }, ?_, rfl, ?_, ?_⟩
  · exact MAT_to_PCA_result sqrt Eigen_initFromSquareRoot m byColumns eigen hreq hkernel
  · intro i h1 h2
    obtain ⟨v, hv, hc⟩ := hnonneg i h1 h2
    refine ⟨v * (1 / (((MAT_to_PCA_mcopy m byColumns).nrow - 1 : Int) : K)),
      mul_nonneg hv hfpos.le, ?_⟩
    simp only [VECmultiply_inplace, hc, hfac, dmul_some]
  · intro i j h1 h2 h3
    obtain ⟨vi, _, hci⟩ := hnonneg i h1 (le_trans h2 h3)
    obtain ⟨vj, _, hcj⟩ := hnonneg j (le_trans h1 h2) h3
    have hs := hsorted i j h1 h2 h3
    rw [hci, hcj] at hs
    have hle : vj ≤ vi := by simpa [dle] using hs
    simp only [VECmultiply_inplace, hci, hcj, hfac, dmul_some, dle, decide_eq_true_eq]
    exact mul_le_mul_of_nonneg_right hle hfpos.le

/-- C8, witness: the table (1, 2), (3, 4) by rows, with the stand-in kernel. -/
theorem MAT_to_PCA_eigenvalues_sorted_witness :
    ∃ thee : PCA ℚ,
      (MAT_to_PCA exampleSqrt exampleKernel exampleMAT false).result = .ok thee ∧
      thee.numberOfEigenvalues = 1 ∧
      (∀ i, 1 ≤ i → i ≤ thee.numberOfEigenvalues →
        ∃ v : ℚ, 0 ≤ v ∧ thee.eigenvalues.cells i = some v) ∧
      (∀ i j, 1 ≤ i → i ≤ j → j ≤ thee.numberOfEigenvalues →
        dle (thee.eigenvalues.cells j) (thee.eigenvalues.cells i) = true) :=
  MAT_to_PCA_eigenvalues_sorted exampleSqrt exampleKernel exampleMAT false _
    exampleMAT_require (by decide) rfl
    (fun _ _ _ => ⟨4, by norm_num, exampleKernel_eigenvalue⟩)
    (fun _ _ _ _ _ =>
      (congrArg₂ dle exampleKernel_eigenvalue exampleKernel_eigenvalue).trans (by simp [dle]))

/-- C8, counterexample: the table with the single row (1) passes the two checks; the kernel
returns the eigenvalue 0 for the centred matrix (0), which is non-negative and sorted; the
model has one observation and its eigenvalue is 0 * (1 / (1 - 1)), which is undefined. -/
theorem MAT_to_PCA_eigenvalues_sorted_counterexample :
    MAT_to_PCA_require exampleSqrt exampleMAT1 = .ok () ∧
      ∃ (eigen : Eigen ℚ) (thee : PCA ℚ),
        exampleKernel (MATsubtract_inplace (MAT_to_PCA_mcopy exampleMAT1 false)
          (VECcolumnMeans (MAT_to_PCA_mcopy exampleMAT1 false))) = .ok eigen ∧
        eigen.numberOfEigenvalues = 1 ∧ eigen.eigenvalues.cells 1 = some 0 ∧
        (MAT_to_PCA exampleSqrt exampleKernel exampleMAT1 false).result = .ok thee ∧
        thee.numberOfObservations = 1 ∧ thee.numberOfEigenvalues = 1 ∧
        thee.eigenvalues.cells 1 = undefined ∧
        ¬ (∃ v : ℚ, 0 ≤ v ∧ thee.eigenvalues.cells 1 = some v) := by
  have hreq : MAT_to_PCA_require exampleSqrt exampleMAT1 = .ok () :=
    MAT_to_PCA_require_ok exampleSqrt exampleMAT1 exampleSqrt_pos
      (fun _ _ _ _ _ _ => rfl)
      ⟨1, 1, by decide, by decide, by decide, by decide, by simp [exampleMAT1]⟩
  have hr : intRange 1 1 = [1] := by decide
  have h0 : dsum 1 1 (fun i => dsum 1 1 (fun j =>
        dmul ((MATsubtract_inplace (MAT_to_PCA_mcopy exampleMAT1 false)
            (VECcolumnMeans (MAT_to_PCA_mcopy exampleMAT1 false))).cells i j)
          ((MATsubtract_inplace (MAT_to_PCA_mcopy exampleMAT1 false)
            (VECcolumnMeans (MAT_to_PCA_mcopy exampleMAT1 false))).cells i j))) =
      some (0 : ℚ) := by
    simp only [dsum, hr, List.foldl, MATsubtract_inplace, VECcolumnMeans, MAT_to_PCA_mcopy,
      MATcopy, exampleMAT1, Bool.false_eq_true, if_false]
    norm_num [dadd, dsub, dmul, ddiv, ofInt]
  have hu : dmul (dsum 1 1 (fun i => dsum 1 1 (fun j =>
        dmul ((MATsubtract_inplace (MAT_to_PCA_mcopy exampleMAT1 false)
            (VECcolumnMeans (MAT_to_PCA_mcopy exampleMAT1 false))).cells i j)
          ((MATsubtract_inplace (MAT_to_PCA_mcopy exampleMAT1 false)
            (VECcolumnMeans (MAT_to_PCA_mcopy exampleMAT1 false))).cells i j))))
      (ddiv (some 1) (ofInt (1 - 1))) = (undefined : Dbl ℚ) := by
    rw [h0]
    simp [ddiv, ofInt, dmul, undefined]
  refine ⟨hreq, _, _, rfl, rfl, h0,
    MAT_to_PCA_result exampleSqrt exampleKernel exampleMAT1 false _ hreq rfl, rfl, rfl, hu, ?_⟩
  rintro ⟨v, _, hv⟩
  have hu2 : (undefined : Dbl ℚ) = some v := hu.symm.trans hv
  simp [undefined] at hu2

end FitTheorems

/-! ## The projections -/

section ProjectionTheorems

variable {K : Type} [LinearOrderedField K]

/-- C9: for every requested number of dimensions `dims` (so for every `dims >= 0`), each of
`PCA_TableOfReal_to_TableOfReal_zscores`, `PCA_TableOfReal_to_TableOfReal_projectRows` and
`PCA_TableOfReal_to_Configuration` returns a table with as many rows as the data table and
`d` columns, where `d = numberOfEigenvalues` if `dims` is 0 or exceeds
`numberOfEigenvalues`, and `d = dims` otherwise. -/
theorem PCA_TableOfReal_projections_shape (sqrt : K → K) (me : PCA K) (thee : TableOfReal K)
    (dims : Int) :
    (∃ him : TableOfReal K,
        PCA_TableOfReal_to_TableOfReal_zscores sqrt me thee dims = .ok him ∧
        him.numberOfRows = thee.numberOfRows ∧ him.data.nrow = thee.numberOfRows ∧
        him.numberOfColumns =
          (if dims = 0 ∨ me.numberOfEigenvalues < dims then me.numberOfEigenvalues else dims) ∧
        him.data.ncol =
          (if dims = 0 ∨ me.numberOfEigenvalues < dims then me.numberOfEigenvalues else dims)) ∧
      (∃ him : TableOfReal K,
        PCA_TableOfReal_to_TableOfReal_projectRows me thee dims = .ok him ∧
        him.numberOfRows = thee.numberOfRows ∧ him.data.nrow = thee.numberOfRows ∧
        him.numberOfColumns =
          (if dims = 0 ∨ me.numberOfEigenvalues < dims then me.numberOfEigenvalues else dims) ∧
        him.data.ncol =
          (if dims = 0 ∨ me.numberOfEigenvalues < dims then me.numberOfEigenvalues else dims)) ∧
      (∃ him : Configuration K,
        PCA_TableOfReal_to_Configuration me thee dims = .ok him ∧
        him.numberOfRows = thee.numberOfRows ∧ him.data.nrow = thee.numberOfRows ∧
        him.numberOfColumns =
          (if dims = 0 ∨ me.numberOfEigenvalues < dims then me.numberOfEigenvalues else dims) ∧
        him.data.ncol =
          (if dims = 0 ∨ me.numberOfEigenvalues < dims then me.numberOfEigenvalues else dims)) :=
  ⟨⟨_, rfl, rfl, rfl, rfl, rfl⟩, ⟨_, rfl, rfl, rfl, rfl, rfl⟩, ⟨_, rfl, rfl, rfl, rfl, rfl⟩⟩

/-- C9, witness: the model with 3 components and the table with 2 rows; 2 dimensions are
requested and each of the three tables has 2 rows and 2 columns. -/
theorem PCA_TableOfReal_projections_shape_witness :
    (∃ him : TableOfReal ℚ,
        PCA_TableOfReal_to_TableOfReal_zscores exampleSqrt examplePCA3 exampleTable3 2 =
          .ok him ∧
        him.numberOfRows = 2 ∧ him.data.nrow = 2 ∧ him.numberOfColumns = 2 ∧
        him.data.ncol = 2) ∧
      (∃ him : TableOfReal ℚ,
        PCA_TableOfReal_to_TableOfReal_projectRows examplePCA3 exampleTable3 2 = .ok him ∧
        him.numberOfRows = 2 ∧ him.data.nrow = 2 ∧ him.numberOfColumns = 2 ∧
        him.data.ncol = 2) ∧
      (∃ him : Configuration ℚ,
        PCA_TableOfReal_to_Configuration examplePCA3 exampleTable3 2 = .ok him ∧
        him.numberOfRows = 2 ∧ him.data.nrow = 2 ∧ him.numberOfColumns = 2 ∧
        him.data.ncol = 2) :=
  PCA_TableOfReal_projections_shape exampleSqrt examplePCA3 exampleTable3 2

/-- C10, as the code has it: in the z-score table, cell `(i, j)` is the sum over `k` of
`eigenvector [j] [k] * (data [i] [k] - centroid [k])`, divided by `sqrt (eigenvalue [j])`:
the raw component score of the same cell (the cell of the table of
`PCA_TableOfReal_to_TableOfReal_projectRows`) less the component score of the centroid,
divided by `sqrt (eigenvalue [j])`.  Here `e`, `x`, `c` and `v` are the (defined) values of
row `j` of the eigenvectors, of row `i` of the data, of the centroid and of eigenvalue `j`,
and `sqrt` does not vanish at `v`. -/
theorem PCA_TableOfReal_to_TableOfReal_zscores_cell (sqrt : K → K) (me : PCA K)
    (thee : TableOfReal K) (dims i j : Int) (e x c : Int → K) (v : K)
    (hi1 : 1 ≤ i) (hi2 : i ≤ thee.numberOfRows) (hj1 : 1 ≤ j)
    (hj2 : j ≤ clampDimensions me dims)
    (hv : me.eigenvalues.cells j = some v) (hvpos : 0 < v) (hsqrt : sqrt v ≠ 0)
    (he : ∀ k, 1 ≤ k → k ≤ me.dimension → me.eigenvectors.cells j k = some (e k))
    (hx : ∀ k, 1 ≤ k → k ≤ me.dimension → thee.data.cells i k = some (x k))
    (hc : ∀ k, 1 ≤ k → k ≤ me.dimension → me.centroid.cells k = some (c k)) :
    ∃ zscores scores : TableOfReal K,
      PCA_TableOfReal_to_TableOfReal_zscores sqrt me thee dims = .ok zscores ∧
      PCA_TableOfReal_to_TableOfReal_projectRows me thee dims = .ok scores ∧
      scores.data.cells i j = some (∑ k ∈ Finset.Icc 1 me.dimension, e k * x k) ∧
      zscores.data.cells i j =
        some ((∑ k ∈ Finset.Icc 1 me.dimension, e k * (x k - c k)) / sqrt v) ∧
      zscores.data.cells i j =
        some (((∑ k ∈ Finset.Icc 1 me.dimension, e k * x k) -
          (∑ k ∈ Finset.Icc 1 me.dimension, e k * c k)) / sqrt v) := by
  have hrange : 1 ≤ i ∧ i ≤ thee.numberOfRows ∧ 1 ≤ j ∧ j ≤ clampDimensions me dims :=
    ⟨hi1, hi2, hj1, hj2⟩
  have hsigma : Dsqrt sqrt (me.eigenvalues.cells j) = some (sqrt v) := by
    simp only [hv, Dsqrt, hvpos.le, if_true]
  have hz : dsum 1 me.dimension (fun k =>
      ddiv (dmul (me.eigenvectors.cells j k)
        (dsub (thee.data.cells i k) (me.centroid.cells k))) (Dsqrt sqrt (me.eigenvalues.cells j)))
      = some ((∑ k ∈ Finset.Icc 1 me.dimension, e k * (x k - c k)) / sqrt v) := by
    rw [Finset.sum_div]
    apply dsum_some
    intro k hk1 hk2
    rw [he k hk1 hk2, hx k hk1 hk2, hc k hk1 hk2, hsigma, dsub_some, dmul_some,
      ddiv_some _ _ hsqrt]
  have hs : dsum 1 me.dimension (fun k =>
      dmul (me.eigenvectors.cells j k) (thee.data.cells i (1 + k - 1)))
      = some (∑ k ∈ Finset.Icc 1 me.dimension, e k * x k) := by
    apply dsum_some
    intro k hk1 hk2
    have hk : 1 + k - 1 = k := by ring
    rw [hk, he k hk1 hk2, hx k hk1 hk2, dmul_some]
  refine ⟨_, _, rfl, rfl, ?_, ?_, ?_⟩
  · have hj : j - 1 + 1 = j := by ring
    simp only [TableOfReal_setSequentialColumnLabels,
      Eigen_TableOfReal_into_TableOfReal_projectRows, hj]
    exact (if_pos hrange).trans hs
  · simp only [TableOfReal_setSequentialColumnLabels]
    exact (if_pos hrange).trans hz
  · simp only [TableOfReal_setSequentialColumnLabels]
    rw [(if_pos hrange).trans hz, ← Finset.sum_sub_distrib]
    congr 2
    apply Finset.sum_congr rfl
    intro k _
    ring

theorem exampleSqrt_four : exampleSqrt 4 = 2 := by
  norm_num [exampleSqrt, Rat.sqrt]

theorem exampleTable_sum (g : Int → ℚ) : ∑ k ∈ Finset.Icc (1 : Int) 1, g k = g 1 := by
  simp

/-- C10, witness: eigenvalue 4, eigenvector (1), centroid (1) and the data row (3): the raw
score is 3 and the z-score is (3 - 1) / 2 = 1. -/
theorem PCA_TableOfReal_to_TableOfReal_zscores_cell_witness :
    ∃ zscores scores : TableOfReal ℚ,
      PCA_TableOfReal_to_TableOfReal_zscores exampleSqrt examplePCA1 exampleTable 0 =
        .ok zscores ∧
      PCA_TableOfReal_to_TableOfReal_projectRows examplePCA1 exampleTable 0 = .ok scores ∧
      scores.data.cells 1 1 = some 3 ∧ zscores.data.cells 1 1 = some 1 := by
  obtain ⟨zscores, scores, h1, h2, h3, h4, _⟩ :=
    PCA_TableOfReal_to_TableOfReal_zscores_cell exampleSqrt examplePCA1 exampleTable 0 1 1
      (fun _ => 1) (fun _ => 3) (fun _ => 1) 4 (by decide) (by decide) (by decide)
      (by decide) rfl (by norm_num) (by rw [exampleSqrt_four]; norm_num)
      (fun _ _ _ => rfl) (fun _ _ _ => rfl) (fun _ _ _ => rfl)
  have hd : examplePCA1.dimension = 1 := rfl
  rw [hd, exampleTable_sum] at h3 h4
  refine ⟨zscores, scores, h1, h2, ?_, ?_⟩
  · rw [h3]
    norm_num
  · rw [h4, exampleSqrt_four]
    norm_num

/-- C10, counterexample: with eigenvalue 4, eigenvector (1), centroid (1) and the data row
(3), the raw component score is 3 and `sqrt (eigenvalue)` is 2, so the claim gives the
z-score 3 / 2; the code gives (3 - 1) / 2 = 1. -/
theorem PCA_TableOfReal_to_TableOfReal_zscores_cell_counterexample :
    ∃ zscores scores : TableOfReal ℚ,
      PCA_TableOfReal_to_TableOfReal_zscores exampleSqrt examplePCA1 exampleTable 0 =
        .ok zscores ∧
      PCA_TableOfReal_to_TableOfReal_projectRows examplePCA1 exampleTable 0 = .ok scores ∧
      examplePCA1.eigenvalues.cells 1 = some 4 ∧
      scores.data.cells 1 1 = some 3 ∧
      ddiv (scores.data.cells 1 1) (Dsqrt exampleSqrt (examplePCA1.eigenvalues.cells 1)) =
        some (3 / 2) ∧
      zscores.data.cells 1 1 = some 1 ∧
      zscores.data.cells 1 1 ≠
        ddiv (scores.data.cells 1 1) (Dsqrt exampleSqrt (examplePCA1.eigenvalues.cells 1)) := by
  have hr : intRange 1 1 = [1] := by decide
  have hclamp : clampDimensions examplePCA1 0 = 1 := by decide
  have hs : (dsum 1 examplePCA1.dimension (fun k =>
      dmul (examplePCA1.eigenvectors.cells 1 k) (exampleTable.data.cells 1 (1 + k - 1))) :
      Dbl ℚ) = some 3 := by
    have hd : examplePCA1.dimension = 1 := rfl
    simp only [hd, dsum, hr, List.foldl, examplePCA1, exampleTable, dmul_some, dadd_some]
    norm_num
  have hz : (dsum 1 examplePCA1.dimension (fun k =>
      ddiv (dmul (examplePCA1.eigenvectors.cells 1 k)
        (dsub (exampleTable.data.cells 1 k) (examplePCA1.centroid.cells k)))
        (Dsqrt exampleSqrt (examplePCA1.eigenvalues.cells 1))) : Dbl ℚ) = some 1 := by
    have hd : examplePCA1.dimension = 1 := rfl
    simp only [hd, dsum, hr, List.foldl, examplePCA1, exampleTable, dmul_some, dsub_some, Dsqrt,
      exampleSqrt_four]
    norm_num [ddiv, dadd]
  have hdiv : ddiv (some (3 : ℚ)) (Dsqrt exampleSqrt (examplePCA1.eigenvalues.cells 1)) =
      some (3 / 2) := by
    simp only [examplePCA1, Dsqrt, exampleSqrt_four]
    norm_num [ddiv]
  have hcell_s : ∀ scores : TableOfReal ℚ,
      PCA_TableOfReal_to_TableOfReal_projectRows examplePCA1 exampleTable 0 = .ok scores →
      scores.data.cells 1 1 = some 3 := by
    intro scores h
    have h' : scores = _ := (Except.ok.inj h).symm
    rw [h']
    simp only [TableOfReal_setSequentialColumnLabels,
      Eigen_TableOfReal_into_TableOfReal_projectRows, hclamp]
    exact (if_pos (by decide)).trans hs
  have hcell_z : ∀ zscores : TableOfReal ℚ,
      PCA_TableOfReal_to_TableOfReal_zscores exampleSqrt examplePCA1 exampleTable 0 =
        .ok zscores → zscores.data.cells 1 1 = some 1 := by
    intro zscores h
    have h' : zscores = _ := (Except.ok.inj h).symm
    rw [h']
    simp only [TableOfReal_setSequentialColumnLabels, hclamp]
    exact (if_pos (by decide)).trans hz
  refine ⟨_, _, rfl, rfl, rfl, hcell_s _ rfl, ?_, hcell_z _ rfl, ?_⟩
  · rw [hcell_s _ rfl, hdiv]
  · rw [hcell_s _ rfl, hcell_z _ rfl, hdiv]
    norm_num

end ProjectionTheorems

/-! ## Z-scores on an eigenvalue that is not positive -/

section ZscoreTheorems

variable {K : Type} [LinearOrderedField K]

theorem dadd_none_right (r : Dbl K) : dadd r none = none := by
  cases r <;> rfl

theorem foldl_dadd_none (f : Int → Dbl K) :
    ∀ l : List Int, l.foldl (fun r k => dadd r (f k)) none = none := by
  intro l
  induction l with
  | nil => rfl
  | cons a t ih => simpa [List.foldl_cons, dadd] using ih

theorem foldl_dadd_mem_none (f : Int → Dbl K) :
    ∀ (l : List Int) (acc : Dbl K), (∃ k ∈ l, f k = none) →
      l.foldl (fun r k => dadd r (f k)) acc = none := by
  intro l
  induction l with
  | nil => intro acc h; obtain ⟨k, hk, _⟩ := h; cases hk
  | cons a t ih =>
    intro acc h
    obtain ⟨k, hk, hf⟩ := h
    rw [List.foldl_cons]
    rcases List.mem_cons.mp hk with rfl | hk'
    · rw [hf, dadd_none_right]
      exact foldl_dadd_none f t
    · exact ih _ ⟨k, hk', hf⟩

/-- An accumulation with an undefined term is undefined. -/
theorem dsum_none (lo hi : Int) (f : Int → Dbl K)
    (h : ∃ k, lo ≤ k ∧ k ≤ hi ∧ f k = none) : dsum lo hi f = none := by
  obtain ⟨k, h1, h2, hf⟩ := h
  exact foldl_dadd_mem_none f _ _ ⟨k, mem_intRange.mpr ⟨h1, h2⟩, hf⟩

theorem ddiv_nonpositive_sqrt (sqrt : K → K) (hsqrt0 : sqrt 0 = 0) (a : Dbl K) (v : K)
    (hv : v ≤ 0) : ddiv a (Dsqrt sqrt (some v)) = none := by
  rcases lt_or_eq_of_le hv with hlt | heq
  · have : ¬ 0 ≤ v := not_le.mpr hlt
    cases a <;> simp [Dsqrt, this, ddiv]
  · subst heq
    cases a <;> simp [Dsqrt, hsqrt0, ddiv]

/-- The z-score of a component whose eigenvalue is not positive: the table is returned and
the cell is undefined. -/
theorem zscores_cell_undefined (sqrt : K → K) (me : PCA K) (thee : TableOfReal K)
    (dims i j : Int) (v : K) (hsqrt0 : sqrt 0 = 0)
    (hi1 : 1 ≤ i) (hi2 : i ≤ thee.numberOfRows) (hj1 : 1 ≤ j)
    (hj2 : j ≤ clampDimensions me dims) (hv : me.eigenvalues.cells j = some v) (hv0 : v ≤ 0)
    (hdim : 1 ≤ me.dimension) :
    ∃ him : TableOfReal K,
      PCA_TableOfReal_to_TableOfReal_zscores sqrt me thee dims = .ok him ∧
      him.numberOfRows = thee.numberOfRows ∧
      him.numberOfColumns = clampDimensions me dims ∧
      him.data.cells i j = undefined := by
  have hrange : 1 ≤ i ∧ i ≤ thee.numberOfRows ∧ 1 ≤ j ∧ j ≤ clampDimensions me dims :=
    ⟨hi1, hi2, hj1, hj2⟩
  refine ⟨_, rfl, rfl, rfl, ?_⟩
  simp only [TableOfReal_setSequentialColumnLabels]
  refine (if_pos hrange).trans ?_
  apply dsum_none
  refine ⟨1, le_rfl, hdim, ?_⟩
  rw [hv]
  exact ddiv_nonpositive_sqrt sqrt hsqrt0 _ v hv0

/-- C11, as the code has it: when `eigenvalue [j] <= 0` for a component `j` among those
kept, `PCA_TableOfReal_to_TableOfReal_zscores` does not fail: it returns the table, with
the shape of every other call, and (for a model of dimension at least 1) every cell of
column `j` holds the undefined result of the division by `sqrt (eigenvalue [j])`. -/
theorem PCA_TableOfReal_to_TableOfReal_zscores_nonpositive (sqrt : K → K) (me : PCA K)
    (thee : TableOfReal K) (dims i j : Int) (v : K) (hsqrt0 : sqrt 0 = 0)
    (hi1 : 1 ≤ i) (hi2 : i ≤ thee.numberOfRows) (hj1 : 1 ≤ j)
    (hj2 : j ≤ clampDimensions me dims) (hv : me.eigenvalues.cells j = some v) (hv0 : v ≤ 0)
    (hdim : 1 ≤ me.dimension) :
    ∃ him : TableOfReal K,
      PCA_TableOfReal_to_TableOfReal_zscores sqrt me thee dims = .ok him ∧
      him.numberOfRows = thee.numberOfRows ∧
      him.numberOfColumns = clampDimensions me dims ∧
      him.data.cells i j = undefined :=
  zscores_cell_undefined sqrt me thee dims i j v hsqrt0 hi1 hi2 hj1 hj2 hv hv0 hdim

/-- C11, witness: the model with eigenvalues 0, 0 and the data row (1, 2). -/
theorem PCA_TableOfReal_to_TableOfReal_zscores_nonpositive_witness :
    ∃ him : TableOfReal ℚ,
      PCA_TableOfReal_to_TableOfReal_zscores exampleSqrt examplePCA0 exampleTable2 0 =
        .ok him ∧
      him.numberOfRows = 1 ∧ him.numberOfColumns = 2 ∧ him.data.cells 1 2 = undefined :=
  PCA_TableOfReal_to_TableOfReal_zscores_nonpositive exampleSqrt examplePCA0 exampleTable2 0
    1 2 0 exampleSqrt_zero (by decide) (by decide) (by decide) (by decide) rfl le_rfl
    (by decide)

/-- C11, counterexample: the model has the eigenvalues 0, 0 and the data table has one row;
the call is not an error: it returns a table with one row and two columns, whose cell
(1, 1) is undefined. -/
theorem PCA_TableOfReal_to_TableOfReal_zscores_nonpositive_counterexample :
    examplePCA0.eigenvalues.cells 1 = some 0 ∧ exampleTable2.numberOfRows = 1 ∧
      (∀ messages : List String,
        PCA_TableOfReal_to_TableOfReal_zscores exampleSqrt examplePCA0 exampleTable2 0 ≠
          .error messages) ∧
      ∃ him : TableOfReal ℚ,
        PCA_TableOfReal_to_TableOfReal_zscores exampleSqrt examplePCA0 exampleTable2 0 =
          .ok him ∧
        him.numberOfRows = 1 ∧ him.numberOfColumns = 2 ∧ him.data.cells 1 1 = undefined := by
  have h := zscores_cell_undefined exampleSqrt examplePCA0 exampleTable2 0 1 1 0
    exampleSqrt_zero (by decide) (by decide) (by decide) (by decide) rfl le_rfl (by decide)
  refine ⟨rfl, rfl, ?_, h⟩
  obtain ⟨him, hok, _⟩ := h
  intro messages hne
  rw [hok] at hne
  cases hne

end ZscoreTheorems

/-! ## The reconstruction `PCA_Configuration_to_TableOfReal_reconstruct` -/

section ReconstructionTheorems

variable {K : Type} [LinearOrderedField K]

/-- The table that the reconstruction returns when the configuration has exactly
`numberOfEigenvalues` columns. -/
theorem reconstruct_returned
    (mismatch : MAT (Dbl K) → MAT (Dbl K) → MAT (Dbl K) → Outcome (MAT (Dbl K)))
    (me : PCA K) (thee : Configuration K)
    (hinv : PCA_invariant me) (htab : TableOfReal_invariant thee)
    (hcols : thee.numberOfColumns = me.numberOfEigenvalues)
    (hle : me.numberOfEigenvalues ≤ me.dimension) :
    PCA_Configuration_to_TableOfReal_reconstruct mismatch me thee =
      .returned
        { numberOfRows := thee.numberOfRows
          numberOfColumns := me.dimension
          rowLabels := thee.rowLabels
          columnLabels := me.labels
          data :=
            ⟨thee.numberOfRows, me.dimension, fun i k =>
              if 1 ≤ i ∧ i ≤ thee.numberOfRows ∧ 1 ≤ k ∧ k ≤ me.dimension then
                dsum 1 me.numberOfEigenvalues
                  (fun j => dmul (thee.data.cells i j) (me.eigenvectors.cells j k))
              else some 0⟩ } := by
  obtain ⟨⟨hrow, hcol, _⟩, hlab, _⟩ := hinv
  obtain ⟨htr, htc⟩ := htab
  have h1 : ¬ ¬ thee.numberOfColumns ≤ me.dimension := by
    rw [hcols]
    exact not_not.mpr hle
  have h2 : ¬ ¬ me.labels.size = me.dimension := not_not.mpr hlab
  have hshape : (TableOfReal_create thee.numberOfRows me.dimension : TableOfReal K).data.nrow
        = thee.data.nrow ∧
      (TableOfReal_create thee.numberOfRows me.dimension : TableOfReal K).data.ncol
        = me.eigenvectors.ncol ∧ thee.data.ncol = me.eigenvectors.nrow := by
    refine ⟨?_, ?_, ?_⟩
    · simp only [TableOfReal_create, htr]
    · simp only [TableOfReal_create, hcol]
    · rw [htc, hcols, hrow]
  have hncol : thee.data.ncol = me.numberOfEigenvalues := by rw [htc, hcols]
  have hmul : MATVUmul mismatch
      (TableOfReal_create thee.numberOfRows me.dimension : TableOfReal K).data
      thee.data me.eigenvectors =
      .returned ⟨thee.numberOfRows, me.dimension, fun i k =>
        if 1 ≤ i ∧ i ≤ thee.numberOfRows ∧ 1 ≤ k ∧ k ≤ me.dimension then
          dsum 1 me.numberOfEigenvalues
            (fun j => dmul (thee.data.cells i j) (me.eigenvectors.cells j k))
        else some 0⟩ := by
    simp only [MATVUmul, if_pos hshape]
    rw [hncol]
    rfl
  simp only [PCA_Configuration_to_TableOfReal_reconstruct, if_neg h1, if_neg h2, hmul]
  rfl

/-- The check of line 273: a configuration with more columns than the dimension of the
model is refused with an error, whatever `MATVUmul` does. -/
theorem reconstruct_thrown
    (mismatch : MAT (Dbl K) → MAT (Dbl K) → MAT (Dbl K) → Outcome (MAT (Dbl K)))
    (me : PCA K) (thee : Configuration K) (h : me.dimension < thee.numberOfColumns) :
    PCA_Configuration_to_TableOfReal_reconstruct mismatch me thee =
      .thrown ["The dimension of the Configuration should be less than or equal to the dimension of the PCA.",
        "TableOfReal not reconstructed."] := by
  have h1 : ¬ thee.numberOfColumns ≤ me.dimension := not_le.mpr h
  simp only [PCA_Configuration_to_TableOfReal_reconstruct, h1, not_false_eq_true, if_true]

/-- Past the check of line 273 the function has no other check on the number of columns:
`npc` is clamped on lines 276-277 and not used, and when the shapes do not fit on line 284
(with the table and the model keeping their invariants: at every number of columns other
than `numberOfEigenvalues`) the outcome is that of `MATVUmul` on shapes that do not fit,
which the sources do not contain. -/
theorem reconstruct_mismatch
    (mismatch : MAT (Dbl K) → MAT (Dbl K) → MAT (Dbl K) → Outcome (MAT (Dbl K)))
    (me : PCA K) (thee : Configuration K)
    (hinv : PCA_invariant me) (htab : TableOfReal_invariant thee)
    (hle : thee.numberOfColumns ≤ me.dimension)
    (hcols : thee.numberOfColumns ≠ me.numberOfEigenvalues) :
    PCA_Configuration_to_TableOfReal_reconstruct mismatch me thee =
      match mismatch (TableOfReal_create thee.numberOfRows me.dimension : TableOfReal K).data
        thee.data me.eigenvectors with
      | .returned data =>
        .returned
          { numberOfRows := thee.numberOfRows
            numberOfColumns := me.dimension
            rowLabels := thee.rowLabels
            columnLabels := me.labels
            data := data }
      | .thrown messages => .thrown (messages ++ ["TableOfReal not reconstructed."])
      | .aborted => .aborted := by
  obtain ⟨⟨hrow, _, _⟩, hlab, _⟩ := hinv
  obtain ⟨_, htc⟩ := htab
  have h1 : ¬ ¬ thee.numberOfColumns ≤ me.dimension := not_not.mpr hle
  have h2 : ¬ ¬ me.labels.size = me.dimension := not_not.mpr hlab
  have hshape : ¬ ((TableOfReal_create thee.numberOfRows me.dimension : TableOfReal K).data.nrow
        = thee.data.nrow ∧
      (TableOfReal_create thee.numberOfRows me.dimension : TableOfReal K).data.ncol
        = me.eigenvectors.ncol ∧ thee.data.ncol = me.eigenvectors.nrow) := by
    rintro ⟨_, _, h⟩
    rw [htc, hrow] at h
    exact hcols h
  have hmul : MATVUmul mismatch
      (TableOfReal_create thee.numberOfRows me.dimension : TableOfReal K).data
      thee.data me.eigenvectors =
      mismatch (TableOfReal_create thee.numberOfRows me.dimension : TableOfReal K).data
        thee.data me.eigenvectors := by
    simp only [MATVUmul, if_neg hshape]
  simp only [PCA_Configuration_to_TableOfReal_reconstruct, if_neg h1, if_neg h2, hmul]
  cases mismatch (TableOfReal_create thee.numberOfRows me.dimension : TableOfReal K).data
    thee.data me.eigenvectors <;> rfl

theorem examplePCA21_invariant : PCA_invariant examplePCA21 :=
  ⟨⟨rfl, rfl, rfl⟩, rfl, rfl⟩

theorem examplePCA0_invariant : PCA_invariant examplePCA0 :=
  ⟨⟨rfl, rfl, rfl⟩, rfl, rfl⟩

theorem examplePCA1_invariant : PCA_invariant examplePCA1 :=
  ⟨⟨rfl, rfl, rfl⟩, rfl, rfl⟩

/-- A square matrix with orthonormal rows has orthonormal columns. -/
theorem orthonormal_rows_columns (n : Int) (e : Int → Int → K)
    (h : ∀ j j', 1 ≤ j → j ≤ n → 1 ≤ j' → j' ≤ n →
      ∑ k ∈ Finset.Icc 1 n, e j k * e j' k = if j = j' then 1 else 0) :
    ∀ k k', 1 ≤ k → k ≤ n → 1 ≤ k' → k' ≤ n →
      ∑ j ∈ Finset.Icc 1 n, e j k * e j k' = if k = k' then 1 else 0 := by
  intro k k' hk1 hk2 hk1' hk2'
  let M : Matrix (Finset.Icc (1 : Int) n) (Finset.Icc (1 : Int) n) K := fun a b => e a b
  have hM : M * M.transpose = 1 := by
    ext a b
    rw [Matrix.mul_apply, Matrix.one_apply]
    have := h a b (Finset.mem_Icc.mp a.2).1 (Finset.mem_Icc.mp a.2).2
      (Finset.mem_Icc.mp b.2).1 (Finset.mem_Icc.mp b.2).2
    simp only [M, Matrix.transpose_apply]
    rw [Finset.sum_coe_sort (Finset.Icc 1 n) (fun k => e a k * e b k), this]
    simp only [Subtype.ext_iff]
  have hM2 : M.transpose * M = 1 := Matrix.mul_eq_one_comm.mp hM
  have := congrFun (congrFun hM2 ⟨k, Finset.mem_Icc.mpr ⟨hk1, hk2⟩⟩)
    ⟨k', Finset.mem_Icc.mpr ⟨hk1', hk2'⟩⟩
  rw [Matrix.mul_apply, Matrix.one_apply] at this
  simp only [M, Matrix.transpose_apply] at this
  rw [Finset.sum_coe_sort (Finset.Icc 1 n) (fun j => e j k * e j k')] at this
  rw [this]
  simp only [Subtype.mk.injEq]

/-- The cells of the table that the reconstruction returns. -/
theorem reconstruct_cells
    (mismatch : MAT (Dbl K) → MAT (Dbl K) → MAT (Dbl K) → Outcome (MAT (Dbl K)))
    (me : PCA K) (thee : Configuration K) (s e : Int → Int → K)
    (hinv : PCA_invariant me) (htab : TableOfReal_invariant thee)
    (hcols : thee.numberOfColumns = me.numberOfEigenvalues)
    (hle : me.numberOfEigenvalues ≤ me.dimension)
    (hs : ∀ i j, 1 ≤ i → i ≤ thee.numberOfRows → 1 ≤ j → j ≤ me.numberOfEigenvalues →
      thee.data.cells i j = some (s i j))
    (he : ∀ j k, 1 ≤ j → j ≤ me.numberOfEigenvalues → 1 ≤ k → k ≤ me.dimension →
      me.eigenvectors.cells j k = some (e j k)) :
    ∃ him : TableOfReal K,
      PCA_Configuration_to_TableOfReal_reconstruct mismatch me thee = .returned him ∧
      him.numberOfRows = thee.numberOfRows ∧ him.numberOfColumns = me.dimension ∧
      him.data.nrow = thee.numberOfRows ∧ him.data.ncol = me.dimension ∧
      ∀ i k, 1 ≤ i → i ≤ thee.numberOfRows → 1 ≤ k → k ≤ me.dimension →
        him.data.cells i k = some (∑ j ∈ Finset.Icc 1 me.numberOfEigenvalues, s i j * e j k) := by
  refine ⟨_, reconstruct_returned mismatch me thee hinv htab hcols hle, rfl, rfl, rfl, rfl, ?_⟩
  intro i k h1 h2 h3 h4
  refine (if_pos ⟨h1, h2, h3, h4⟩).trans ?_
  apply dsum_some
  intro j hj1 hj2
  rw [hs i j h1 h2 hj1 hj2, he j k hj1 hj2 h3 h4, dmul_some]

/-- C13: for a configuration with `R` rows and exactly `numberOfEigenvalues` columns (on a
model and a table that keep their invariants, with cells `s` and eigenvectors `e`), the
reconstruction returns a table with `R` rows and `dimension` columns whose cell `(i, k)` is
the sum over `j` of `s [i] [j] * e [j] [k]`; the centroid is not added, and the same table
is returned whatever the centroid of the model is.  This holds whatever `MATVUmul` does on
shapes that do not fit. -/
theorem PCA_Configuration_to_TableOfReal_reconstruct_product
    (mismatch : MAT (Dbl K) → MAT (Dbl K) → MAT (Dbl K) → Outcome (MAT (Dbl K)))
    (me : PCA K) (thee : Configuration K) (s e : Int → Int → K)
    (hinv : PCA_invariant me) (htab : TableOfReal_invariant thee)
    (hcols : thee.numberOfColumns = me.numberOfEigenvalues)
    (hle : me.numberOfEigenvalues ≤ me.dimension)
    (hs : ∀ i j, 1 ≤ i → i ≤ thee.numberOfRows → 1 ≤ j → j ≤ me.numberOfEigenvalues →
      thee.data.cells i j = some (s i j))
    (he : ∀ j k, 1 ≤ j → j ≤ me.numberOfEigenvalues → 1 ≤ k → k ≤ me.dimension →
      me.eigenvectors.cells j k = some (e j k)) :
    ∃ him : TableOfReal K,
      PCA_Configuration_to_TableOfReal_reconstruct mismatch me thee = .returned him ∧
      him.numberOfRows = thee.numberOfRows ∧ him.numberOfColumns = me.dimension ∧
      him.data.nrow = thee.numberOfRows ∧ him.data.ncol = me.dimension ∧
      (∀ i k, 1 ≤ i → i ≤ thee.numberOfRows → 1 ≤ k → k ≤ me.dimension →
        him.data.cells i k =
          some (∑ j ∈ Finset.Icc 1 me.numberOfEigenvalues, s i j * e j k)) ∧
      (∀ centroid : VEC (Dbl K),
        PCA_Configuration_to_TableOfReal_reconstruct mismatch { me with centroid := centroid }
          thee = .returned him) := by
  obtain ⟨him, h1, h2, h3, h4, h5, h6⟩ :=
    reconstruct_cells mismatch me thee s e hinv htab hcols hle hs he
  exact ⟨him, h1, h2, h3, h4, h5, h6, fun _ => h1⟩

/-- C13, witness: the model of dimension 2 with the eigenvector (1, 0) and centroid (0, 0),
and the scores row (3): the reconstructed row is (3, 0), also when the centroid is
(5, 5). -/
theorem PCA_Configuration_to_TableOfReal_reconstruct_product_witness :
    ∃ him : TableOfReal ℚ,
      PCA_Configuration_to_TableOfReal_reconstruct exampleMismatch examplePCA21 exampleTable =
        .returned him ∧
      him.numberOfRows = 1 ∧ him.numberOfColumns = 2 ∧
      him.data.cells 1 1 = some 3 ∧ him.data.cells 1 2 = some 0 ∧
      PCA_Configuration_to_TableOfReal_reconstruct exampleMismatch
        { examplePCA21 with centroid := ⟨2, fun _ => some 5⟩ } exampleTable = .returned him := by
  obtain ⟨him, h1, h2, h3, _, _, h6, h7⟩ :=
    PCA_Configuration_to_TableOfReal_reconstruct_product exampleMismatch examplePCA21 exampleTable
      (fun _ _ => 3) (fun _ k => if k = 1 then 1 else 0) examplePCA21_invariant ⟨rfl, rfl⟩ rfl
      (by decide) (fun _ _ _ _ _ _ => rfl)
      (fun j k _ _ _ _ => by simp only [examplePCA21]; split_ifs <;> rfl)
  have hn : examplePCA21.numberOfEigenvalues = 1 := rfl
  refine ⟨him, h1, h2, h3, ?_, ?_, h7 _⟩
  · rw [h6 1 1 (by decide) (by decide) (by decide) (by decide), hn, exampleTable_sum]
    norm_num
  · rw [h6 1 2 (by decide) (by decide) (by decide) (by decide), hn, exampleTable_sum]
    norm_num

/-- The table of raw component scores. -/
theorem projectRows_cells (me : PCA K) (thee : TableOfReal K) (dims : Int) :
    ∃ scores : TableOfReal K,
      PCA_TableOfReal_to_TableOfReal_projectRows me thee dims = .ok scores ∧
      scores.numberOfRows = thee.numberOfRows ∧
      scores.numberOfColumns = clampDimensions me dims ∧
      TableOfReal_invariant scores ∧
      ∀ i j, 1 ≤ i → i ≤ thee.numberOfRows → 1 ≤ j → j ≤ clampDimensions me dims →
        scores.data.cells i j =
          dsum 1 me.dimension
            (fun k => dmul (me.eigenvectors.cells j k) (thee.data.cells i k)) := by
  refine ⟨_, rfl, rfl, rfl, ⟨rfl, rfl⟩, ?_⟩
  intro i j h1 h2 h3 h4
  have hj : j - 1 + 1 = j := by ring
  simp only [TableOfReal_setSequentialColumnLabels,
    Eigen_TableOfReal_into_TableOfReal_projectRows, hj]
  refine (if_pos ⟨h1, h2, h3, h4⟩).trans ?_
  congr 1
  funext k
  have hk : 1 + k - 1 = k := by ring
  rw [hk]

/-- C14: for a model whose number of components equals its dimension and whose eigenvector
rows `e` are orthonormal, and a data table with `dimension` columns and cells `x`, the
reconstruction from the raw component scores of the table, all components kept, returns
the data: a table of the same shape with cell `(i, k)` equal to `x [i] [k]`, with no
centroid term.  This holds whatever `MATVUmul` does on shapes that do not fit. -/
theorem PCA_reconstruct_projectRows_roundtrip
    (mismatch : MAT (Dbl K) → MAT (Dbl K) → MAT (Dbl K) → Outcome (MAT (Dbl K)))
    (me : PCA K) (thee : TableOfReal K)
    (e x : Int → Int → K) (hinv : PCA_invariant me)
    (hsquare : me.numberOfEigenvalues = me.dimension)
    (hcolumns : thee.numberOfColumns = me.dimension)
    (he : ∀ j k, 1 ≤ j → j ≤ me.numberOfEigenvalues → 1 ≤ k → k ≤ me.dimension →
      me.eigenvectors.cells j k = some (e j k))
    (hortho : ∀ j j', 1 ≤ j → j ≤ me.dimension → 1 ≤ j' → j' ≤ me.dimension →
      ∑ k ∈ Finset.Icc 1 me.dimension, e j k * e j' k = if j = j' then 1 else 0)
    (hx : ∀ i k, 1 ≤ i → i ≤ thee.numberOfRows → 1 ≤ k → k ≤ me.dimension →
      thee.data.cells i k = some (x i k)) :
    ∃ scores him : TableOfReal K,
      PCA_TableOfReal_to_TableOfReal_projectRows me thee me.dimension = .ok scores ∧
      PCA_Configuration_to_TableOfReal_reconstruct mismatch me scores = .returned him ∧
      him.numberOfRows = thee.numberOfRows ∧ him.numberOfColumns = thee.numberOfColumns ∧
      ∀ i k, 1 ≤ i → i ≤ thee.numberOfRows → 1 ≤ k → k ≤ thee.numberOfColumns →
        him.data.cells i k = some (x i k) ∧ him.data.cells i k = thee.data.cells i k := by
  obtain ⟨scores, hsc, hsr, hscol, hsinv, hscell⟩ := projectRows_cells me thee me.dimension
  have hclamp : clampDimensions me me.dimension = me.numberOfEigenvalues := by
    unfold clampDimensions
    split_ifs
    · rfl
    · exact hsquare.symm
  rw [hclamp] at hscol hscell
  have hsval : ∀ i j, 1 ≤ i → i ≤ scores.numberOfRows → 1 ≤ j → j ≤ me.numberOfEigenvalues →
      scores.data.cells i j = some (∑ k ∈ Finset.Icc 1 me.dimension, e j k * x i k) := by
    intro i j h1 h2 h3 h4
    rw [hsr] at h2
    rw [hscell i j h1 h2 h3 h4]
    apply dsum_some
    intro k hk1 hk2
    rw [he j k h3 h4 hk1 hk2, hx i k h1 h2 hk1 hk2, dmul_some]
  obtain ⟨him, hrec, hr, hc, _, _, hcell⟩ :=
    reconstruct_cells mismatch me scores (fun i j => ∑ k ∈ Finset.Icc 1 me.dimension, e j k * x i k) e
      hinv hsinv hscol (le_of_eq hsquare) hsval he
  refine ⟨scores, him, hsc, hrec, hr.trans hsr, hc.trans hcolumns.symm, ?_⟩
  intro i k h1 h2 h3 h4
  rw [hcolumns] at h4
  have hcols := orthonormal_rows_columns me.dimension e hortho
  have hval : him.data.cells i k = some (x i k) := by
    rw [hcell i k h1 (by rw [hsr]; exact h2) h3 h4, hsquare]
    congr 1
    calc ∑ j ∈ Finset.Icc 1 me.dimension,
          (∑ k' ∈ Finset.Icc 1 me.dimension, e j k' * x i k') * e j k
        = ∑ j ∈ Finset.Icc 1 me.dimension, ∑ k' ∈ Finset.Icc 1 me.dimension,
            x i k' * (e j k' * e j k) := by
          apply Finset.sum_congr rfl
          intro j _
          rw [Finset.sum_mul]
          apply Finset.sum_congr rfl
          intro k' _
          ring
      _ = ∑ k' ∈ Finset.Icc 1 me.dimension, ∑ j ∈ Finset.Icc 1 me.dimension,
            x i k' * (e j k' * e j k) := Finset.sum_comm
      _ = ∑ k' ∈ Finset.Icc 1 me.dimension, x i k' * (if k' = k then 1 else 0) := by
          apply Finset.sum_congr rfl
          intro k' hk'
          rw [← Finset.mul_sum,
            hcols k' k (Finset.mem_Icc.mp hk').1 (Finset.mem_Icc.mp hk').2 h3 h4]
      _ = x i k := by
          simp only [mul_ite, mul_one, mul_zero]
          rw [Finset.sum_ite_eq' (Finset.Icc 1 me.dimension) k (fun k' => x i k')]
          simp [Finset.mem_Icc, h3, h4]
  exact ⟨hval, hval.trans (hx i k h1 h2 h3 h4).symm⟩

/-- C14, witness: the model with the eigenvectors (1, 0), (0, 1) and the data row (1, 2):
the scores are reconstructed to (1, 2). -/
theorem PCA_reconstruct_projectRows_roundtrip_witness :
    ∃ scores him : TableOfReal ℚ,
      PCA_TableOfReal_to_TableOfReal_projectRows examplePCA0 exampleTable2 2 = .ok scores ∧
      PCA_Configuration_to_TableOfReal_reconstruct exampleMismatch examplePCA0 scores =
        .returned him ∧
      him.numberOfRows = 1 ∧ him.numberOfColumns = 2 ∧
      him.data.cells 1 1 = some 1 ∧ him.data.cells 1 2 = some 2 := by
  obtain ⟨scores, him, h1, h2, h3, h4, h5⟩ :=
    PCA_reconstruct_projectRows_roundtrip exampleMismatch examplePCA0 exampleTable2
      (fun j k => if j = k then 1 else 0) (fun _ k => (k : ℚ)) examplePCA0_invariant rfl rfl
      (fun j k _ _ _ _ => by simp only [examplePCA0]; split_ifs <;> rfl)
      (fun j j' hj1 hj2 hj1' hj2' => by
        have hd : examplePCA0.dimension = 2 := rfl
        rw [hd] at hj2 hj2' ⊢
        rw [exampleMAT_sum]
        interval_cases j <;> interval_cases j' <;> norm_num)
      (fun _ _ _ _ _ _ => rfl)
  refine ⟨scores, him, h1, h2, h3, h4, ?_, ?_⟩
  · have := (h5 1 1 (by decide) (by decide) (by decide) (by decide)).1
    rw [this]
    norm_num
  · have := (h5 1 2 (by decide) (by decide) (by decide) (by decide)).1
    rw [this]
    norm_num

end ReconstructionTheorems

/-! ## The fraction of variance `PCA_TableOfReal_getFractionVariance` -/

section FractionTheorems

variable {K : Type}

/-- C15: `PCA_TableOfReal_getFractionVariance` never raises an error; it returns
`undefined` whenever `from < 1`, `from > to` or `to > thy numberOfColumns` (the bound is the
number of columns of the table: a range within it is passed on whatever the number of
components of the model is), and also whenever one of its three steps throws. -/
theorem PCA_TableOfReal_getFractionVariance_never_throws {S : Type}
    (TableOfReal_to_SSCP : TableOfReal K → Int → Int → Int → Int → Throws S)
    (Eigen_SSCP_project : Eigen K → S → Throws S)
    (SSCP_getFractionVariation : S → Int → Int → Throws (Dbl K))
    (me : PCA K) (thee : TableOfReal K) (from_ to_ : Int) :
    (∀ messages : List String,
        PCA_TableOfReal_getFractionVariance TableOfReal_to_SSCP Eigen_SSCP_project
          SSCP_getFractionVariation me thee from_ to_ ≠ .error messages) ∧
      (from_ < 1 ∨ from_ > to_ ∨ to_ > thee.numberOfColumns →
        PCA_TableOfReal_getFractionVariance TableOfReal_to_SSCP Eigen_SSCP_project
          SSCP_getFractionVariation me thee from_ to_ = .ok undefined) ∧
      ((∃ messages, TableOfReal_to_SSCP thee 0 0 0 0 = .error messages) →
        PCA_TableOfReal_getFractionVariance TableOfReal_to_SSCP Eigen_SSCP_project
          SSCP_getFractionVariation me thee from_ to_ = .ok undefined) ∧
      (∀ s, TableOfReal_to_SSCP thee 0 0 0 0 = .ok s →
        (∃ messages, Eigen_SSCP_project me.toEigen s = .error messages) →
        PCA_TableOfReal_getFractionVariance TableOfReal_to_SSCP Eigen_SSCP_project
          SSCP_getFractionVariation me thee from_ to_ = .ok undefined) ∧
      (∀ s sp, TableOfReal_to_SSCP thee 0 0 0 0 = .ok s →
        Eigen_SSCP_project me.toEigen s = .ok sp →
        (∃ messages, SSCP_getFractionVariation sp from_ to_ = .error messages) →
        PCA_TableOfReal_getFractionVariance TableOfReal_to_SSCP Eigen_SSCP_project
          SSCP_getFractionVariation me thee from_ to_ = .ok undefined) ∧
      (∀ s sp fraction, 1 ≤ from_ → from_ ≤ to_ → to_ ≤ thee.numberOfColumns →
        TableOfReal_to_SSCP thee 0 0 0 0 = .ok s →
        Eigen_SSCP_project me.toEigen s = .ok sp →
        SSCP_getFractionVariation sp from_ to_ = .ok fraction →
        PCA_TableOfReal_getFractionVariance TableOfReal_to_SSCP Eigen_SSCP_project
          SSCP_getFractionVariation me thee from_ to_ = .ok fraction) := by
  refine ⟨?_, ?_, ?_, ?_, ?_, ?_⟩
  · intro messages
    unfold PCA_TableOfReal_getFractionVariance
    split_ifs
    · simp
    · cases TableOfReal_to_SSCP thee 0 0 0 0 with
      | error e => simp
      | ok s =>
        cases h2 : Eigen_SSCP_project me.toEigen s with
        | error e => simp [h2]
        | ok sp =>
          cases h3 : SSCP_getFractionVariation sp from_ to_ with
          | error e => simp [h2, h3]
          | ok fraction => simp [h2, h3]
  · intro h
    simp only [PCA_TableOfReal_getFractionVariance, if_pos h]
  · rintro ⟨messages, h1⟩
    unfold PCA_TableOfReal_getFractionVariance
    split_ifs
    · rfl
    · simp only [h1]
  · rintro s h1 ⟨messages, h2⟩
    unfold PCA_TableOfReal_getFractionVariance
    split_ifs
    · rfl
    · simp only [h1, h2]
  · rintro s sp h1 h2 ⟨messages, h3⟩
    unfold PCA_TableOfReal_getFractionVariance
    split_ifs
    · rfl
    · simp only [h1, h2, h3]
  · intro s sp fraction hf1 hf2 hf3 h1 h2 h3
    have hr : ¬ (from_ < 1 ∨ from_ > to_ ∨ to_ > thee.numberOfColumns) := by omega
    simp only [PCA_TableOfReal_getFractionVariance, if_neg hr, h1, h2, h3]

/-- C15, witness: on the table with 3 columns, the range `0 .. 1` gives `undefined`, a
first step that throws gives `undefined`, and the range `2 .. 3` is passed on although the
model has a single component. -/
theorem PCA_TableOfReal_getFractionVariance_never_throws_witness :
    PCA_TableOfReal_getFractionVariance exampleToSSCP exampleProject exampleFraction
        examplePCA1 exampleTable3 0 1 = .ok undefined ∧
      PCA_TableOfReal_getFractionVariance exampleToSSCPThrows exampleProject exampleFraction
        examplePCA1 exampleTable3 1 1 = .ok undefined ∧
      PCA_TableOfReal_getFractionVariance exampleToSSCP exampleProject exampleFraction
        examplePCA1 exampleTable3 2 3 = .ok (some (1 / 2)) :=
  ⟨(PCA_TableOfReal_getFractionVariance_never_throws exampleToSSCP exampleProject
      exampleFraction examplePCA1 exampleTable3 0 1).2.1 (Or.inl (by decide)),
    (PCA_TableOfReal_getFractionVariance_never_throws exampleToSSCPThrows exampleProject
      exampleFraction examplePCA1 exampleTable3 1 1).2.2.1 ⟨_, rfl⟩,
    (PCA_TableOfReal_getFractionVariance_never_throws exampleToSSCP exampleProject
      exampleFraction examplePCA1 exampleTable3 2 3).2.2.2.2.2 _ _ _ (by decide) (by decide)
      (by decide) rfl rfl rfl⟩

end FractionTheorems

/-! ## Assignments to the cells of a matrix -/

section AssignLemmas

variable {α : Type}

theorem foldl_MAT_assign_shape (ws : List (Int × Int × α)) :
    ∀ m : MAT α, (ws.foldl MAT_assign m).nrow = m.nrow ∧ (ws.foldl MAT_assign m).ncol = m.ncol := by
  induction ws with
  | nil => intro m; exact ⟨rfl, rfl⟩
  | cons w t ih =>
    intro m
    rw [List.foldl_cons]
    exact ih (MAT_assign m w)

theorem foldl_MAT_assign_not_mem (r c : Int) (ws : List (Int × Int × α)) :
    ∀ m : MAT α, (r, c) ∉ ws.map (fun w => (w.1, w.2.1)) →
      (ws.foldl MAT_assign m).cells r c = m.cells r c := by
  induction ws with
  | nil => intro m _; rfl
  | cons w t ih =>
    intro m h
    rw [List.map_cons, List.mem_cons, not_or] at h
    rw [List.foldl_cons, ih (MAT_assign m w) h.2]
    have hne : ¬ (r = w.1 ∧ c = w.2.1) := fun hh => h.1 (Prod.ext hh.1 hh.2)
    simp only [MAT_assign, if_neg hne]

theorem foldl_MAT_assign_mem (r c : Int) (v : α) (ws : List (Int × Int × α)) :
    ∀ m : MAT α, (ws.map (fun w => (w.1, w.2.1))).Nodup → (r, c, v) ∈ ws →
      (ws.foldl MAT_assign m).cells r c = v := by
  induction ws with
  | nil => intro m _ h; cases h
  | cons w t ih =>
    intro m hnd h
    rw [List.map_cons, List.nodup_cons] at hnd
    rw [List.foldl_cons]
    rcases List.mem_cons.mp h with heq | hmem
    · subst heq
      rw [foldl_MAT_assign_not_mem r c t _ hnd.1]
      simp [MAT_assign]
    · exact ih _ hnd.2 hmem

end AssignLemmas

section LoadingLemmas

variable {K : Type} [LinearOrderedField K]

theorem factorLoadings_keys (me : CCA K) (thee : Correlation K) :
    (CCA_Correlation_factorLoadings_assignments me thee).map (fun w => (w.1, w.2.1)) =
      (intRange 1 thee.numberOfRows).flatMap (fun i =>
        (intRange 1 me.numberOfCoefficients).map (fun j => (j, i)) ++
          (intRange 1 me.numberOfCoefficients).map (fun j => (me.numberOfCoefficients + j, i))) := by
  unfold CCA_Correlation_factorLoadings_assignments
  simp only [List.map_flatMap, List.map_append, List.map_map]
  rfl

theorem factorLoadings_keys_nodup (me : CCA K) (thee : Correlation K) :
    ((CCA_Correlation_factorLoadings_assignments me thee).map (fun w => (w.1, w.2.1))).Nodup := by
  rw [factorLoadings_keys]
  rw [List.nodup_flatMap]
  constructor
  · intro i _
    apply List.Nodup.append
    · refine List.Nodup.map ?_ (nodup_intRange _ _)
      intro a b h
      exact (Prod.mk.inj h).1
    · refine List.Nodup.map ?_ (nodup_intRange _ _)
      intro a b h
      have := (Prod.mk.inj h).1
      omega
    · intro p hp1 hp2
      obtain ⟨a, ha, rfl⟩ := List.mem_map.mp hp1
      obtain ⟨b, hb, hab⟩ := List.mem_map.mp hp2
      have h1 := (Prod.mk.inj hab).1
      have := (mem_intRange.mp ha).2
      have := (mem_intRange.mp hb).1
      omega
  · apply List.Nodup.pairwise_of_forall_ne (nodup_intRange _ _)
    intro a _ b _ hab p hp1 hp2
    have ha : p.2 = a := by
      rcases List.mem_append.mp hp1 with h | h
      · obtain ⟨j, _, rfl⟩ := List.mem_map.mp h; rfl
      · obtain ⟨j, _, rfl⟩ := List.mem_map.mp h; rfl
    have hb : p.2 = b := by
      rcases List.mem_append.mp hp2 with h | h
      · obtain ⟨j, _, rfl⟩ := List.mem_map.mp h; rfl
      · obtain ⟨j, _, rfl⟩ := List.mem_map.mp h; rfl
    exact hab (ha.symm.trans hb)

theorem factorLoadings_keys_mem (me : CCA K) (thee : Correlation K) (r c : Int)
    (hr1 : 1 ≤ r) (hr2 : r ≤ 2 * me.numberOfCoefficients) (hc1 : 1 ≤ c)
    (hc2 : c ≤ thee.numberOfRows) :
    (r, c) ∈ (CCA_Correlation_factorLoadings_assignments me thee).map (fun w => (w.1, w.2.1)) := by
  rw [factorLoadings_keys, List.mem_flatMap]
  refine ⟨c, mem_intRange.mpr ⟨hc1, hc2⟩, ?_⟩
  rw [List.mem_append]
  by_cases h : r ≤ me.numberOfCoefficients
  · left
    exact List.mem_map.mpr ⟨r, mem_intRange.mpr ⟨hr1, h⟩, rfl⟩
  · right
    refine List.mem_map.mpr ⟨r - me.numberOfCoefficients, mem_intRange.mpr ⟨by omega, by omega⟩, ?_⟩
    congr 1
    omega

end LoadingLemmas

/-! ## The factor loadings `CCA_Correlation_factorLoadings` -/

section LoadingTheorems

variable {K : Type} [LinearOrderedField K]

/-- The table that `CCA_Correlation_factorLoadings` returns when the dimensions fit. -/
theorem factorLoadings_ok (me : CCA K) (thee : Correlation K)
    (hmatch : me.y.dimension + me.x.dimension = thee.numberOfColumns) :
    CCA_Correlation_factorLoadings me thee =
      .ok
        { TableOfReal_setSequentialRowLabels
            (TableOfReal_setSequentialRowLabels
              { (TableOfReal_create (2 * me.numberOfCoefficients) thee.numberOfColumns :
                  TableOfReal K) with columnLabels := thee.columnLabels }
              1 me.numberOfCoefficients "dv" 1 1)
            (me.numberOfCoefficients + 1) (2 * me.numberOfCoefficients) "iv" 1 1 with
          data :=
            (CCA_Correlation_factorLoadings_assignments me thee).foldl MAT_assign
              (TableOfReal_create (2 * me.numberOfCoefficients) thee.numberOfColumns :
                TableOfReal K).data } := by
  have h : ¬ ¬ me.y.dimension + me.x.dimension = thee.numberOfColumns := not_not.mpr hmatch
  simp only [CCA_Correlation_factorLoadings, if_neg h]
  rfl

/-- C16: `CCA_Correlation_factorLoadings` fails with an error, and returns no table, if and
only if `y.dimension + x.dimension` differs from the number of columns of the correlation
matrix. -/
theorem CCA_Correlation_factorLoadings_fails_iff (me : CCA K) (thee : Correlation K) :
    ((∃ messages : List String, CCA_Correlation_factorLoadings me thee = .error messages) ↔
        me.y.dimension + me.x.dimension ≠ thee.numberOfColumns) ∧
      (me.y.dimension + me.x.dimension ≠ thee.numberOfColumns →
        CCA_Correlation_factorLoadings me thee =
          .error ["The number of columns in the Correlation must equal the sum of the dimensions in the CCA object",
            "TableOfReal not created from CCA & Correlation."]) ∧
      (me.y.dimension + me.x.dimension = thee.numberOfColumns →
        ∃ him : TableOfReal K, CCA_Correlation_factorLoadings me thee = .ok him) := by
  have herr : me.y.dimension + me.x.dimension ≠ thee.numberOfColumns →
      CCA_Correlation_factorLoadings me thee =
        .error ["The number of columns in the Correlation must equal the sum of the dimensions in the CCA object",
          "TableOfReal not created from CCA & Correlation."] := by
    intro h
    simp only [CCA_Correlation_factorLoadings, h, not_false_eq_true, if_true]
  refine ⟨⟨?_, fun h => ⟨_, herr h⟩⟩, herr, fun h => ⟨_, factorLoadings_ok me thee h⟩⟩
  rintro ⟨messages, hm⟩ heq
  rw [factorLoadings_ok me thee heq] at hm
  cases hm

/-- C17: for a square correlation matrix of size `ny + nx` with cells `ρ`, and eigenvectors
`ey`, `ex`, the table that `CCA_Correlation_factorLoadings` returns has `2 K` rows and
`ny + nx` columns (`K = numberOfCoefficients`); for `j` in `1 .. K` and `i` in
`1 .. ny + nx`, cell `(j, i)` is the sum over `k` in `1 .. ny` of `ρ [i] [k] * ey [j] [k]`
and cell `(K + j, i)` is the sum over `k` in `1 .. nx` of `ρ [i] [ny + k] * ex [j] [k]`;
and the loops assign to every cell of the table exactly once. -/
theorem CCA_Correlation_factorLoadings_cells (me : CCA K) (thee : Correlation K)
    (ρ ey ex : Int → Int → K) (hny : 0 ≤ me.y.dimension) (hnx : 0 ≤ me.x.dimension)
    (hmatch : me.y.dimension + me.x.dimension = thee.numberOfColumns)
    (hsquare : thee.numberOfRows = thee.numberOfColumns)
    (hρ : ∀ i k, 1 ≤ i → i ≤ me.y.dimension + me.x.dimension → 1 ≤ k →
      k ≤ me.y.dimension + me.x.dimension → thee.data.cells i k = some (ρ i k))
    (hey : ∀ j k, 1 ≤ j → j ≤ me.numberOfCoefficients → 1 ≤ k → k ≤ me.y.dimension →
      me.y.eigenvectors.cells j k = some (ey j k))
    (hex : ∀ j k, 1 ≤ j → j ≤ me.numberOfCoefficients → 1 ≤ k → k ≤ me.x.dimension →
      me.x.eigenvectors.cells j k = some (ex j k)) :
    ∃ him : TableOfReal K,
      CCA_Correlation_factorLoadings me thee = .ok him ∧
      him.numberOfRows = 2 * me.numberOfCoefficients ∧
      him.numberOfColumns = me.y.dimension + me.x.dimension ∧
      him.data.nrow = 2 * me.numberOfCoefficients ∧
      him.data.ncol = me.y.dimension + me.x.dimension ∧
      (∀ j i, 1 ≤ j → j ≤ me.numberOfCoefficients → 1 ≤ i →
        i ≤ me.y.dimension + me.x.dimension →
        him.data.cells j i = some (∑ k ∈ Finset.Icc 1 me.y.dimension, ρ i k * ey j k) ∧
        him.data.cells (me.numberOfCoefficients + j) i =
          some (∑ k ∈ Finset.Icc 1 me.x.dimension, ρ i (me.y.dimension + k) * ex j k)) ∧
      (∀ r c, 1 ≤ r → r ≤ 2 * me.numberOfCoefficients → 1 ≤ c →
        c ≤ me.y.dimension + me.x.dimension →
        ((CCA_Correlation_factorLoadings_assignments me thee).map
          (fun w => (w.1, w.2.1))).countP (fun p => decide (p = (r, c))) = 1) := by
  have hrows : thee.numberOfRows = me.y.dimension + me.x.dimension := by
    rw [hsquare, hmatch]
  have hshape := foldl_MAT_assign_shape (CCA_Correlation_factorLoadings_assignments me thee)
    (TableOfReal_create (2 * me.numberOfCoefficients) thee.numberOfColumns :
      TableOfReal K).data
  refine ⟨_, factorLoadings_ok me thee hmatch, rfl, hmatch.symm, hshape.1,
    hshape.2.trans hmatch.symm, ?_, ?_⟩
  · intro j i hj1 hj2 hi1 hi2
    have hi : i ∈ intRange 1 thee.numberOfRows := mem_intRange.mpr ⟨hi1, by rw [hrows]; exact hi2⟩
    have hj : j ∈ intRange 1 me.numberOfCoefficients := mem_intRange.mpr ⟨hj1, hj2⟩
    constructor
    · have hmem : (j, i, dsum 1 me.y.dimension
          (fun k => dmul (thee.data.cells i k) (me.y.eigenvectors.cells j k))) ∈
          CCA_Correlation_factorLoadings_assignments me thee := by
        unfold CCA_Correlation_factorLoadings_assignments
        rw [List.mem_flatMap]
        exact ⟨i, hi, List.mem_append.mpr (Or.inl (List.mem_map.mpr ⟨j, hj, rfl⟩))⟩
      refine (foldl_MAT_assign_mem j i _ _ _ (factorLoadings_keys_nodup me thee) hmem).trans ?_
      apply dsum_some
      intro k hk1 hk2
      rw [hρ i k hi1 hi2 hk1 (by omega), hey j k hj1 hj2 hk1 hk2, dmul_some]
    · have hmem : (me.numberOfCoefficients + j, i, dsum 1 me.x.dimension
          (fun k => dmul (thee.data.cells i (me.y.dimension + k))
            (me.x.eigenvectors.cells j k))) ∈
          CCA_Correlation_factorLoadings_assignments me thee := by
        unfold CCA_Correlation_factorLoadings_assignments
        rw [List.mem_flatMap]
        exact ⟨i, hi, List.mem_append.mpr (Or.inr (List.mem_map.mpr ⟨j, hj, rfl⟩))⟩
      refine (foldl_MAT_assign_mem _ i _ _ _ (factorLoadings_keys_nodup me thee) hmem).trans ?_
      apply dsum_some
      intro k hk1 hk2
      rw [hρ i (me.y.dimension + k) hi1 hi2 (by omega) (by omega), hex j k hj1 hj2 hk1 hk2,
        dmul_some]
  · intro r c hr1 hr2 hc1 hc2
    exact List.count_eq_one_of_mem (factorLoadings_keys_nodup me thee)
      (factorLoadings_keys_mem me thee r c hr1 hr2 hc1 (by rw [hrows]; exact hc2))

end LoadingTheorems

section LoadingWitnesses

theorem example_sum3 (g : Int → ℚ) :
    ∑ i ∈ Finset.Icc (1 : Int) 3, g i = g 1 + g 2 + g 3 := by
  have h : Finset.Icc (1 : Int) 3 = {1, 2, 3} := by decide
  rw [h, Finset.sum_insert (by decide), Finset.sum_pair (by decide)]
  ring

/-- C16, witness: the model with `ny + nx = 5` fails on a table with 3 columns and returns
a table on the correlation matrix with 5 columns. -/
theorem CCA_Correlation_factorLoadings_fails_iff_witness :
    CCA_Correlation_factorLoadings exampleCCA exampleTable3 =
        .error ["The number of columns in the Correlation must equal the sum of the dimensions in the CCA object",
          "TableOfReal not created from CCA & Correlation."] ∧
      ∃ him : TableOfReal ℚ,
        CCA_Correlation_factorLoadings exampleCCA exampleCorrelation = .ok him :=
  ⟨(CCA_Correlation_factorLoadings_fails_iff exampleCCA exampleTable3).2.1 (by decide),
    (CCA_Correlation_factorLoadings_fails_iff exampleCCA exampleCorrelation).2.2 rfl⟩

/-- C17, witness: on the example model and correlation matrix the table has 4 rows and 5
columns, cell (2, 3) is `-1 * 1 + 1 * -1 + 1 * 0 = -2` and cell (2 + 1, 4) is
`1 * 1 + 0 * 0 = 1`. -/
theorem CCA_Correlation_factorLoadings_cells_witness :
    ∃ him : TableOfReal ℚ,
      CCA_Correlation_factorLoadings exampleCCA exampleCorrelation = .ok him ∧
      him.numberOfRows = 4 ∧ him.numberOfColumns = 5 ∧
      him.data.cells 2 3 = some (-2) ∧ him.data.cells 3 4 = some 1 := by
  obtain ⟨him, h1, h2, h3, _, _, h6, _⟩ :=
    CCA_Correlation_factorLoadings_cells exampleCCA exampleCorrelation exampleCorrelationCells
      (fun j k => if j = 1 then (if k = 1 then 1 else 0)
        else (if k = 1 then 1 else if k = 2 then -1 else 0))
      (fun j k => if j = k then 1 else 0) (by decide) (by decide) rfl rfl
      (fun _ _ _ _ _ _ => rfl)
      (fun j k _ _ _ _ => by simp only [exampleCCA]; split_ifs <;> rfl)
      (fun j k _ _ _ _ => by simp only [exampleCCA]; split_ifs <;> rfl)
  have hy : exampleCCA.y.dimension = 3 := rfl
  have hx : exampleCCA.x.dimension = 2 := rfl
  have hk : exampleCCA.numberOfCoefficients = 2 := rfl
  refine ⟨him, h1, h2, h3, ?_, ?_⟩
  · rw [(h6 2 3 (by decide) (by decide) (by decide) (by decide)).1, hy, example_sum3]
    norm_num [exampleCorrelationCells]
  · have := (h6 1 4 (by decide) (by decide) (by decide) (by decide)).2
    rw [hk, hy, hx, exampleMAT_sum] at this
    rw [show (3 : Int) = 2 + 1 from rfl, this]
    norm_num [exampleCorrelationCells]

end LoadingWitnesses

/-! ## The check `_CCA_Correlation_check` and the two functions that call it -/

section CheckLemmas

variable {K : Type}

theorem check_ok (me : CCA K) (thee : Correlation K) (from_ to_ : Int)
    (h1 : me.y.dimension + me.x.dimension = thee.numberOfColumns) (h2 : from_ ≤ to_)
    (h3 : 1 ≤ from_) (h4 : to_ ≤ me.numberOfCoefficients) :
    _CCA_Correlation_check me thee from_ to_ = .ok () := by
  have a : ¬ ¬ me.y.dimension + me.x.dimension = thee.numberOfColumns := not_not.mpr h1
  have b : ¬ ¬ to_ ≥ from_ := not_not.mpr h2
  have c : ¬ ¬ (from_ > 0 ∧ to_ ≤ me.numberOfCoefficients) := not_not.mpr ⟨by omega, h4⟩
  simp only [_CCA_Correlation_check, if_neg a, if_neg b, if_neg c]

theorem check_error (me : CCA K) (thee : Correlation K) (from_ to_ : Int)
    (h : me.y.dimension + me.x.dimension ≠ thee.numberOfColumns ∨ to_ < from_ ∨ from_ < 1 ∨
      me.numberOfCoefficients < to_) :
    ∃ messages : List String, _CCA_Correlation_check me thee from_ to_ = .error messages := by
  by_cases a : ¬ me.y.dimension + me.x.dimension = thee.numberOfColumns
  · exact ⟨_, (by simp only [_CCA_Correlation_check, if_pos a] : _ = Except.error
      ["The number of columns in the Correlation object should equal the sum of the dimensions in the CCA object"])⟩
  · by_cases b : ¬ to_ ≥ from_
    · exact ⟨_, (by simp only [_CCA_Correlation_check, if_neg a, if_pos b] : _ = Except.error
        ["The second value in the \"Canonical variate range\" should be equal or larger than the first."])⟩
    · by_cases c : ¬ (from_ > 0 ∧ to_ ≤ me.numberOfCoefficients)
      · exact ⟨_, (by simp only [_CCA_Correlation_check, if_neg a, if_neg b, if_pos c] :
          _ = Except.error ["The \"Canonical variate range\" should be within the interval [1, " ++
            toString me.numberOfCoefficients ++ "]."])⟩
      · exfalso
        have a' := not_not.mp a
        have b' := not_not.mp b
        have c' := not_not.mp c
        omega

end CheckLemmas

section CheckTheorems

variable {K : Type} [LinearOrderedField K]

theorem getVarianceFraction_ok (me : CCA K) (thee : Correlation K) (x_or_y from_ to_ : Int)
    (h : _CCA_Correlation_check me thee from_ to_ = .ok ()) :
    CCA_Correlation_getVarianceFraction me thee x_or_y from_ to_ =
      .ok (Flt.sum from_ to_ (fun icv =>
        CCA_Correlation_getVarianceFraction_term thee
          (if x_or_y = 1 then me.y.dimension else me.x.dimension)
          (if x_or_y = 1 then me.y.eigenvectors else me.x.eigenvectors)
          (if x_or_y = 1 then 0 else me.y.dimension) icv)) := by
  simp only [CCA_Correlation_getVarianceFraction, h]

theorem getRedundancy_sl_loop_ok (me : CCA K) (thee : Correlation K) (x_or_y : Int) :
    ∀ (l : List Int) (redundancy : Flt K),
      (∀ icv ∈ l, _CCA_Correlation_check me thee icv icv = .ok ()) →
      ∃ v : Flt K, CCA_Correlation_getRedundancy_sl_loop me thee x_or_y l redundancy = .ok v := by
  intro l
  induction l with
  | nil => intro r _; exact ⟨r, rfl⟩
  | cons icv rest ih =>
    intro r h
    have hc := h icv (List.mem_cons_self icv rest)
    rw [CCA_Correlation_getRedundancy_sl_loop, getVarianceFraction_ok me thee x_or_y icv icv hc]
    simp only
    generalize (Flt.sum icv icv _ : Flt K) = varianceFraction
    by_cases hu : Flt.isundef varianceFraction = true
    · rw [if_pos hu]
      exact ⟨_, rfl⟩
    · rw [if_neg hu]
      exact ih _ (fun k hk => h k (List.mem_cons_of_mem icv hk))

/-- C18: `CCA_Correlation_getVarianceFraction` and `CCA_Correlation_getRedundancy_sl` raise
an error, and return no number, if and only if `y.dimension + x.dimension` differs from the
number of columns of the correlation matrix, or `to < from`, or `from < 1`, or
`to > numberOfCoefficients`; a range with `from = to` inside `[1, numberOfCoefficients]` is
accepted. -/
theorem CCA_Correlation_check_raises_iff (me : CCA K) (thee : Correlation K)
    (x_or_y from_ to_ : Int) :
    ((∃ messages : List String,
          CCA_Correlation_getVarianceFraction me thee x_or_y from_ to_ = .error messages) ↔
        (me.y.dimension + me.x.dimension ≠ thee.numberOfColumns ∨ to_ < from_ ∨ from_ < 1 ∨
          me.numberOfCoefficients < to_)) ∧
      ((∃ messages : List String,
          CCA_Correlation_getRedundancy_sl me thee x_or_y from_ to_ = .error messages) ↔
        (me.y.dimension + me.x.dimension ≠ thee.numberOfColumns ∨ to_ < from_ ∨ from_ < 1 ∨
          me.numberOfCoefficients < to_)) ∧
      (me.y.dimension + me.x.dimension = thee.numberOfColumns → from_ = to_ → 1 ≤ from_ →
        to_ ≤ me.numberOfCoefficients →
        (∃ v : Flt K, CCA_Correlation_getVarianceFraction me thee x_or_y from_ to_ = .ok v) ∧
        (∃ v : Flt K, CCA_Correlation_getRedundancy_sl me thee x_or_y from_ to_ = .ok v)) := by
  have hvf : ∀ f t : Int, me.y.dimension + me.x.dimension = thee.numberOfColumns → f ≤ t →
      1 ≤ f → t ≤ me.numberOfCoefficients →
      ∃ v : Flt K, CCA_Correlation_getVarianceFraction me thee x_or_y f t = .ok v :=
    fun f t h1 h2 h3 h4 =>
      ⟨_, getVarianceFraction_ok me thee x_or_y f t (check_ok me thee f t h1 h2 h3 h4)⟩
  have hrd : ∀ f t : Int, me.y.dimension + me.x.dimension = thee.numberOfColumns → f ≤ t →
      1 ≤ f → t ≤ me.numberOfCoefficients →
      ∃ v : Flt K, CCA_Correlation_getRedundancy_sl me thee x_or_y f t = .ok v := by
    intro f t h1 h2 h3 h4
    simp only [CCA_Correlation_getRedundancy_sl, check_ok me thee f t h1 h2 h3 h4]
    apply getRedundancy_sl_loop_ok
    intro icv hicv
    have := mem_intRange.mp hicv
    exact check_ok me thee icv icv h1 le_rfl (by omega) (by omega)
  refine ⟨⟨?_, ?_⟩, ⟨?_, ?_⟩, ?_⟩
  · rintro ⟨messages, hm⟩
    by_contra hcon
    obtain ⟨v, hv⟩ := hvf from_ to_ (by omega) (by omega) (by omega) (by omega)
    rw [hv] at hm
    cases hm
  · intro h
    obtain ⟨messages, hm⟩ := check_error me thee from_ to_ h
    exact ⟨messages, by simp only [CCA_Correlation_getVarianceFraction, hm]⟩
  · rintro ⟨messages, hm⟩
    by_contra hcon
    obtain ⟨v, hv⟩ := hrd from_ to_ (by omega) (by omega) (by omega) (by omega)
    rw [hv] at hm
    cases hm
  · intro h
    obtain ⟨messages, hm⟩ := check_error me thee from_ to_ h
    exact ⟨messages, by simp only [CCA_Correlation_getRedundancy_sl, hm]⟩
  · intro h1 h2 h3 h4
    exact ⟨hvf from_ to_ h1 (le_of_eq h2) h3 h4, hrd from_ to_ h1 (le_of_eq h2) h3 h4⟩

/-- C18, witness: on the example model (5 dimensions in all, 2 coefficients) the range
`2 .. 1` raises an error in both functions and the range `1 .. 1` is accepted by both. -/
theorem CCA_Correlation_check_raises_iff_witness :
    (∃ messages : List String,
        CCA_Correlation_getVarianceFraction exampleCCA exampleCorrelation 1 2 1 =
          .error messages) ∧
      (∃ messages : List String,
        CCA_Correlation_getRedundancy_sl exampleCCA exampleCorrelation 1 2 1 =
          .error messages) ∧
      (∃ v : Flt ℚ,
        CCA_Correlation_getVarianceFraction exampleCCA exampleCorrelation 1 1 1 = .ok v) ∧
      (∃ v : Flt ℚ,
        CCA_Correlation_getRedundancy_sl exampleCCA exampleCorrelation 1 1 1 = .ok v) :=
  ⟨(CCA_Correlation_check_raises_iff exampleCCA exampleCorrelation 1 2 1).1.mpr
      (Or.inr (Or.inl (by decide))),
    (CCA_Correlation_check_raises_iff exampleCCA exampleCorrelation 1 2 1).2.1.mpr
      (Or.inr (Or.inl (by decide))),
    ((CCA_Correlation_check_raises_iff exampleCCA exampleCorrelation 1 1 1).2.2 rfl rfl
      (by decide) (by decide)).1,
    ((CCA_Correlation_check_raises_iff exampleCCA exampleCorrelation 1 1 1).2.2 rfl rfl
      (by decide) (by decide)).2⟩

end CheckTheorems

/-! ## The variance fraction `CCA_Correlation_getVarianceFraction` -/

section VarianceLemmas

variable {K : Type} [LinearOrderedField K]

theorem Flt.add_finite (x y : K) : Flt.add (.finite x) (.finite y) = .finite (x + y) := rfl

theorem Flt.foldl_add_finite (f : Int → Flt K) (g : Int → K) :
    ∀ (l : List Int) (acc : K), (∀ k ∈ l, f k = .finite (g k)) →
      l.foldl (fun r k => Flt.add r (f k)) (.finite acc) = .finite (acc + (l.map g).sum) := by
  intro l
  induction l with
  | nil => intro acc _; simp
  | cons a t ih =>
    intro acc h
    have ha := h a (List.mem_cons_self a t)
    simp only [List.foldl_cons, ha, Flt.add_finite, List.map_cons, List.sum_cons]
    rw [ih (acc + g a) (fun k hk => h k (List.mem_cons_of_mem a hk)), add_assoc]

/-- An accumulation over finite terms is the finite sum of the terms. -/
theorem Flt.sum_finite (lo hi : Int) (f : Int → Flt K) (g : Int → K)
    (h : ∀ k, lo ≤ k → k ≤ hi → f k = .finite (g k)) :
    Flt.sum lo hi f = .finite (∑ k ∈ Finset.Icc lo hi, g k) := by
  unfold Flt.sum
  rw [Flt.foldl_add_finite f g _ 0
    (fun k hk => h k (mem_intRange.mp hk).1 (mem_intRange.mp hk).2), zero_add, sum_map_intRange]

theorem Flt.add_isundef_left (a b : Flt K) (h : a.isundef = true) :
    (Flt.add a b).isundef = true := by
  cases a <;> cases b <;> simp_all [Flt.add, Flt.isundef]

theorem Flt.add_isundef_right (a b : Flt K) (h : b.isundef = true) :
    (Flt.add a b).isundef = true := by
  cases a <;> cases b <;> simp_all [Flt.add, Flt.isundef]

theorem Flt.div_isundef (a : Flt K) (y : K) (h : a.isundef = true) :
    (Flt.div a (.finite y)).isundef = true := by
  cases a
  · simp [Flt.isundef] at h
  · simp only [Flt.div]; split_ifs <;> rfl
  · simp only [Flt.div]; split_ifs <;> rfl
  · rfl

theorem Flt.div_zero_isundef (x : K) :
    (Flt.div (.finite x) (.finite 0)).isundef = true := by
  simp only [Flt.div, if_true]
  split_ifs <;> rfl

theorem Flt.foldl_add_isundef (f : Int → Flt K) :
    ∀ (l : List Int) (acc : Flt K), acc.isundef = true →
      (l.foldl (fun r k => Flt.add r (f k)) acc).isundef = true := by
  intro l
  induction l with
  | nil => intro acc h; exact h
  | cons a t ih =>
    intro acc h
    rw [List.foldl_cons]
    exact ih _ (Flt.add_isundef_left acc (f a) h)

theorem Flt.foldl_add_mem_isundef (f : Int → Flt K) :
    ∀ (l : List Int) (acc : Flt K), (∃ k ∈ l, (f k).isundef = true) →
      (l.foldl (fun r k => Flt.add r (f k)) acc).isundef = true := by
  intro l
  induction l with
  | nil => intro acc h; obtain ⟨k, hk, _⟩ := h; cases hk
  | cons a t ih =>
    intro acc h
    obtain ⟨k, hk, hf⟩ := h
    rw [List.foldl_cons]
    rcases List.mem_cons.mp hk with rfl | hk'
    · exact Flt.foldl_add_isundef f t _ (Flt.add_isundef_right acc (f k) hf)
    · exact ih _ ⟨k, hk', hf⟩

/-- An accumulation with a term that is a NaN or an infinity is a NaN or an infinity. -/
theorem Flt.sum_isundef (lo hi : Int) (f : Int → Flt K)
    (h : ∃ k, lo ≤ k ∧ k ≤ hi ∧ (f k).isundef = true) : (Flt.sum lo hi f).isundef = true := by
  obtain ⟨k, h1, h2, hf⟩ := h
  exact Flt.foldl_add_mem_isundef f _ _ ⟨k, mem_intRange.mpr ⟨h1, h2⟩, hf⟩

/-- The contribution of one canonical variate, for a block `ρ` of the correlation matrix
and an eigenvector `e` with defined cells: the two accumulated sums are finite, and the
contribution is their quotient divided by `n`. -/
theorem getVarianceFraction_term_eq (thee : Correlation K) (n : Int) (evec : MAT (Dbl K))
    (ioffset icv : Int) (ρ : Int → Int → K) (e : Int → K)
    (hρ : ∀ i j, 1 ≤ i → i ≤ n → 1 ≤ j → j ≤ n →
      thee.data.cells (ioffset + i) (ioffset + j) = some (ρ i j))
    (he : ∀ j, 1 ≤ j → j ≤ n → evec.cells icv j = some (e j)) :
    CCA_Correlation_getVarianceFraction_term thee n evec ioffset icv =
      Flt.div
        (Flt.div
          (.finite (∑ i ∈ Finset.Icc 1 n, (∑ j ∈ Finset.Icc 1 n, ρ i j * e j) ^ 2))
          (.finite (∑ i ∈ Finset.Icc 1 n, e i * ∑ j ∈ Finset.Icc 1 n, ρ i j * e j)))
        (.finite (n : K)) := by
  have hsi : ∀ i, 1 ≤ i → i ≤ n →
      Flt.sum 1 n (fun j =>
        Flt.mul (Flt.ofDbl (thee.data.cells (ioffset + i) (ioffset + j)))
          (Flt.ofDbl (evec.cells icv j))) =
        .finite (∑ j ∈ Finset.Icc 1 n, ρ i j * e j) := by
    intro i h1 h2
    apply Flt.sum_finite
    intro j h3 h4
    rw [hρ i j h1 h2 h3 h4, he j h3 h4]
    rfl
  have hvar : Flt.sum 1 n (fun i =>
      Flt.mul
        (Flt.sum 1 n (fun j =>
          Flt.mul (Flt.ofDbl (thee.data.cells (ioffset + i) (ioffset + j)))
            (Flt.ofDbl (evec.cells icv j))))
        (Flt.sum 1 n (fun j =>
          Flt.mul (Flt.ofDbl (thee.data.cells (ioffset + i) (ioffset + j)))
            (Flt.ofDbl (evec.cells icv j))))) =
      .finite (∑ i ∈ Finset.Icc 1 n, (∑ j ∈ Finset.Icc 1 n, ρ i j * e j) ^ 2) := by
    apply Flt.sum_finite
    intro i h1 h2
    rw [hsi i h1 h2, sq]
    rfl
  have hscal : Flt.sum 1 n (fun i =>
      Flt.mul (Flt.ofDbl (evec.cells icv i))
        (Flt.sum 1 n (fun j =>
          Flt.mul (Flt.ofDbl (thee.data.cells (ioffset + i) (ioffset + j)))
            (Flt.ofDbl (evec.cells icv j))))) =
      .finite (∑ i ∈ Finset.Icc 1 n, e i * ∑ j ∈ Finset.Icc 1 n, ρ i j * e j) := by
    apply Flt.sum_finite
    intro i h1 h2
    rw [hsi i h1 h2, he i h1 h2]
    rfl
  simp only [CCA_Correlation_getVarianceFraction_term, hvar, hscal, Flt.ofInt]

theorem getVarianceFraction_term_finite (thee : Correlation K) (n : Int) (evec : MAT (Dbl K))
    (ioffset icv : Int) (ρ : Int → Int → K) (e : Int → K)
    (hρ : ∀ i j, 1 ≤ i → i ≤ n → 1 ≤ j → j ≤ n →
      thee.data.cells (ioffset + i) (ioffset + j) = some (ρ i j))
    (he : ∀ j, 1 ≤ j → j ≤ n → evec.cells icv j = some (e j))
    (hscal : ∑ i ∈ Finset.Icc 1 n, e i * ∑ j ∈ Finset.Icc 1 n, ρ i j * e j ≠ 0) :
    CCA_Correlation_getVarianceFraction_term thee n evec ioffset icv =
      .finite ((∑ i ∈ Finset.Icc 1 n, (∑ j ∈ Finset.Icc 1 n, ρ i j * e j) ^ 2) /
        (∑ i ∈ Finset.Icc 1 n, e i * ∑ j ∈ Finset.Icc 1 n, ρ i j * e j) / (n : K)) := by
  have hn : (n : K) ≠ 0 := by
    intro h0
    have hn0 : n = 0 := by exact_mod_cast h0
    apply hscal
    rw [hn0]
    simp
  rw [getVarianceFraction_term_eq thee n evec ioffset icv ρ e hρ he]
  simp only [Flt.div, hscal, hn, if_false]

theorem getVarianceFraction_term_isundef (thee : Correlation K) (n : Int) (evec : MAT (Dbl K))
    (ioffset icv : Int) (ρ : Int → Int → K) (e : Int → K)
    (hρ : ∀ i j, 1 ≤ i → i ≤ n → 1 ≤ j → j ≤ n →
      thee.data.cells (ioffset + i) (ioffset + j) = some (ρ i j))
    (he : ∀ j, 1 ≤ j → j ≤ n → evec.cells icv j = some (e j))
    (hscal : ∑ i ∈ Finset.Icc 1 n, e i * ∑ j ∈ Finset.Icc 1 n, ρ i j * e j = 0) :
    (CCA_Correlation_getVarianceFraction_term thee n evec ioffset icv).isundef = true := by
  rw [getVarianceFraction_term_eq thee n evec ioffset icv ρ e hρ he, hscal]
  exact Flt.div_isundef _ _ (Flt.div_zero_isundef _)

end VarianceLemmas

section VarianceTheorems

variable {K : Type} [LinearOrderedField K]

/-- C19: on a valid range `from .. to`, with `n`, the eigenvectors and the offset those of
the dependent set `y` (offset 0) when the selector is 1 and those of the independent set
`x` (offset `y.dimension`) otherwise, with `ρ` the `n × n` diagonal block of the
correlation matrix at that offset and `e icv` the eigenvector of the canonical variate
`icv`, and with every scaling `e' ρ e` non-zero, `CCA_Correlation_getVarianceFraction`
returns the sum over `icv` in `from .. to` of `((ρ e)' (ρ e) / (e' ρ e)) / n`. -/
theorem CCA_Correlation_getVarianceFraction_formula (me : CCA K) (thee : Correlation K)
    (x_or_y from_ to_ : Int) (ρ e : Int → Int → K)
    (hmatch : me.y.dimension + me.x.dimension = thee.numberOfColumns)
    (hrange : from_ ≤ to_) (hfrom : 1 ≤ from_) (hto : to_ ≤ me.numberOfCoefficients)
    (hρ : ∀ i j, 1 ≤ i → i ≤ (if x_or_y = 1 then me.y.dimension else me.x.dimension) → 1 ≤ j →
      j ≤ (if x_or_y = 1 then me.y.dimension else me.x.dimension) →
      thee.data.cells ((if x_or_y = 1 then 0 else me.y.dimension) + i)
        ((if x_or_y = 1 then 0 else me.y.dimension) + j) = some (ρ i j))
    (he : ∀ icv j, from_ ≤ icv → icv ≤ to_ → 1 ≤ j →
      j ≤ (if x_or_y = 1 then me.y.dimension else me.x.dimension) →
      (if x_or_y = 1 then me.y.eigenvectors else me.x.eigenvectors).cells icv j =
        some (e icv j))
    (hscaling : ∀ icv, from_ ≤ icv → icv ≤ to_ →
      ∑ i ∈ Finset.Icc 1 (if x_or_y = 1 then me.y.dimension else me.x.dimension),
        e icv i * ∑ j ∈ Finset.Icc 1 (if x_or_y = 1 then me.y.dimension else me.x.dimension),
          ρ i j * e icv j ≠ 0) :
    CCA_Correlation_getVarianceFraction me thee x_or_y from_ to_ =
      .ok (.finite (∑ icv ∈ Finset.Icc from_ to_,
        (∑ i ∈ Finset.Icc 1 (if x_or_y = 1 then me.y.dimension else me.x.dimension),
            (∑ j ∈ Finset.Icc 1 (if x_or_y = 1 then me.y.dimension else me.x.dimension),
              ρ i j * e icv j) ^ 2) /
          (∑ i ∈ Finset.Icc 1 (if x_or_y = 1 then me.y.dimension else me.x.dimension),
            e icv i * ∑ j ∈ Finset.Icc 1 (if x_or_y = 1 then me.y.dimension else me.x.dimension),
              ρ i j * e icv j) /
          ((if x_or_y = 1 then me.y.dimension else me.x.dimension : Int) : K))) := by
  rw [getVarianceFraction_ok me thee x_or_y from_ to_
    (check_ok me thee from_ to_ hmatch hrange hfrom hto)]
  congr 1
  apply Flt.sum_finite
  intro icv h1 h2
  exact getVarianceFraction_term_finite thee _ _ _ icv ρ (e icv) hρ
    (fun j hj1 hj2 => he icv j h1 h2 hj1 hj2) (hscaling icv h1 h2)

/-- The variance fraction when one scaling is zero: a number is returned, and it is a NaN
or an infinity. -/
theorem getVarianceFraction_zero_scaling (me : CCA K) (thee : Correlation K)
    (x_or_y from_ to_ icv : Int) (ρ : Int → Int → K) (e : Int → K)
    (hmatch : me.y.dimension + me.x.dimension = thee.numberOfColumns)
    (hfrom : 1 ≤ from_) (hto : to_ ≤ me.numberOfCoefficients)
    (hicv1 : from_ ≤ icv) (hicv2 : icv ≤ to_)
    (hρ : ∀ i j, 1 ≤ i → i ≤ (if x_or_y = 1 then me.y.dimension else me.x.dimension) → 1 ≤ j →
      j ≤ (if x_or_y = 1 then me.y.dimension else me.x.dimension) →
      thee.data.cells ((if x_or_y = 1 then 0 else me.y.dimension) + i)
        ((if x_or_y = 1 then 0 else me.y.dimension) + j) = some (ρ i j))
    (he : ∀ j, 1 ≤ j → j ≤ (if x_or_y = 1 then me.y.dimension else me.x.dimension) →
      (if x_or_y = 1 then me.y.eigenvectors else me.x.eigenvectors).cells icv j = some (e j))
    (hscaling :
      ∑ i ∈ Finset.Icc 1 (if x_or_y = 1 then me.y.dimension else me.x.dimension),
        e i * ∑ j ∈ Finset.Icc 1 (if x_or_y = 1 then me.y.dimension else me.x.dimension),
          ρ i j * e j = 0) :
    ∃ v : Flt K,
      CCA_Correlation_getVarianceFraction me thee x_or_y from_ to_ = .ok v ∧
      v.isundef = true := by
  refine ⟨_, getVarianceFraction_ok me thee x_or_y from_ to_
    (check_ok me thee from_ to_ hmatch (le_trans hicv1 hicv2) hfrom hto), ?_⟩
  apply Flt.sum_isundef
  exact ⟨icv, hicv1, hicv2,
    getVarianceFraction_term_isundef thee _ _ _ icv ρ e hρ he hscaling⟩

/-- C20, as the code has it: when the scaling `e' ρ e` of a canonical variate of a valid
range is zero, `CCA_Correlation_getVarianceFraction` raises no error and returns a number
that is not finite, for which `isundef` holds: the NaN of `0 / 0` when `(ρ e)' (ρ e)` is
zero too, and otherwise an infinity obtained by the division by zero. -/
theorem CCA_Correlation_getVarianceFraction_zero_scaling (me : CCA K) (thee : Correlation K)
    (x_or_y from_ to_ icv : Int) (ρ : Int → Int → K) (e : Int → K)
    (hmatch : me.y.dimension + me.x.dimension = thee.numberOfColumns)
    (hfrom : 1 ≤ from_) (hto : to_ ≤ me.numberOfCoefficients)
    (hicv1 : from_ ≤ icv) (hicv2 : icv ≤ to_)
    (hρ : ∀ i j, 1 ≤ i → i ≤ (if x_or_y = 1 then me.y.dimension else me.x.dimension) → 1 ≤ j →
      j ≤ (if x_or_y = 1 then me.y.dimension else me.x.dimension) →
      thee.data.cells ((if x_or_y = 1 then 0 else me.y.dimension) + i)
        ((if x_or_y = 1 then 0 else me.y.dimension) + j) = some (ρ i j))
    (he : ∀ j, 1 ≤ j → j ≤ (if x_or_y = 1 then me.y.dimension else me.x.dimension) →
      (if x_or_y = 1 then me.y.eigenvectors else me.x.eigenvectors).cells icv j = some (e j))
    (hscaling :
      ∑ i ∈ Finset.Icc 1 (if x_or_y = 1 then me.y.dimension else me.x.dimension),
        e i * ∑ j ∈ Finset.Icc 1 (if x_or_y = 1 then me.y.dimension else me.x.dimension),
          ρ i j * e j = 0) :
    ∃ v : Flt K,
      CCA_Correlation_getVarianceFraction me thee x_or_y from_ to_ = .ok v ∧
      v.isundef = true ∧
      CCA_Correlation_getVarianceFraction_term thee
          (if x_or_y = 1 then me.y.dimension else me.x.dimension)
          (if x_or_y = 1 then me.y.eigenvectors else me.x.eigenvectors)
          (if x_or_y = 1 then 0 else me.y.dimension) icv =
        Flt.div
          (Flt.div
            (.finite (∑ i ∈ Finset.Icc 1 (if x_or_y = 1 then me.y.dimension else me.x.dimension),
              (∑ j ∈ Finset.Icc 1 (if x_or_y = 1 then me.y.dimension else me.x.dimension),
                ρ i j * e j) ^ 2))
            (.finite 0))
          (.finite ((if x_or_y = 1 then me.y.dimension else me.x.dimension : Int) : K)) := by
  obtain ⟨v, h1, h2⟩ := getVarianceFraction_zero_scaling me thee x_or_y from_ to_ icv ρ e
    hmatch hfrom hto hicv1 hicv2 hρ he hscaling
  refine ⟨v, h1, h2, ?_⟩
  rw [getVarianceFraction_term_eq thee _ _ _ icv ρ e hρ he, hscaling]

end VarianceTheorems

section VarianceWitnesses

theorem exampleCCA_y_cells (j : Int) (_h1 : 1 ≤ j) (_h2 : j ≤ 3) :
    exampleCCA.y.eigenvectors.cells 2 j =
      some (if j = 1 then 1 else if j = 2 then -1 else 0) := by
  simp only [exampleCCA]
  split_ifs <;> first | rfl | omega

theorem exampleCCA_scaling :
    ∑ i ∈ Finset.Icc (1 : Int) 3,
      (if i = 1 then (1 : ℚ) else if i = 2 then -1 else 0) *
        ∑ j ∈ Finset.Icc (1 : Int) 3,
          exampleCorrelationCells i j * (if j = 1 then 1 else if j = 2 then -1 else 0) = 0 := by
  simp only [example_sum3]
  norm_num [exampleCorrelationCells]

theorem exampleCCA_variance :
    ∑ i ∈ Finset.Icc (1 : Int) 3,
      (∑ j ∈ Finset.Icc (1 : Int) 3,
        exampleCorrelationCells i j * (if j = 1 then (1 : ℚ) else if j = 2 then -1 else 0)) ^ 2
      = 4 := by
  simp only [example_sum3]
  norm_num [exampleCorrelationCells]

/-- C19, witness: the independent set of the example, range `1 .. 2`: each variate
contributes `(1 / 1) / 2` and the variance fraction is 1. -/
theorem CCA_Correlation_getVarianceFraction_formula_witness :
    CCA_Correlation_getVarianceFraction exampleCCA exampleCorrelation 2 1 2 =
      .ok (.finite 1) := by
  have h := CCA_Correlation_getVarianceFraction_formula exampleCCA exampleCorrelation 2 1 2
    (fun i j => if i = j then 1 else 0) (fun icv j => if icv = j then 1 else 0)
    rfl (by decide) (by decide) (by decide)
    (fun i j h1 h2 h3 h4 => by
      have hx : exampleCCA.x.dimension = 2 := rfl
      have hy : exampleCCA.y.dimension = 3 := rfl
      simp only [show ¬ ((2 : Int) = 1) by decide, if_false, hx, hy] at h2 h4 ⊢
      simp only [exampleCorrelation, exampleCorrelationCells]
      interval_cases i <;> interval_cases j <;> norm_num)
    (fun icv j h1 h2 h3 h4 => by
      simp only [show ¬ ((2 : Int) = 1) by decide, if_false, exampleCCA]
      split_ifs <;> rfl)
    (fun icv h1 h2 => by
      have hx : exampleCCA.x.dimension = 2 := rfl
      simp only [show ¬ ((2 : Int) = 1) by decide, if_false, hx, exampleMAT_sum]
      interval_cases icv <;> norm_num)
  rw [h]
  have hx : exampleCCA.x.dimension = 2 := rfl
  simp only [show ¬ ((2 : Int) = 1) by decide, if_false, hx, exampleMAT_sum]
  norm_num

/-- C20, witness: the dependent set of the example, range `1 .. 2`: the scaling of the
second variate is zero, a number is returned and `isundef` holds of it. -/
theorem CCA_Correlation_getVarianceFraction_zero_scaling_witness :
    ∃ v : Flt ℚ,
      CCA_Correlation_getVarianceFraction exampleCCA exampleCorrelation 1 1 2 = .ok v ∧
      v.isundef = true := by
  obtain ⟨v, h1, h2, _⟩ :=
    CCA_Correlation_getVarianceFraction_zero_scaling exampleCCA exampleCorrelation 1 1 2 2
      exampleCorrelationCells (fun j => if j = 1 then 1 else if j = 2 then -1 else 0)
      rfl (by decide) (by decide) (by decide) (by decide)
      (fun i j _ _ _ _ => by
        simp only [if_true, zero_add]
        rfl)
      (fun j h1 h2 => exampleCCA_y_cells j h1 h2)
      exampleCCA_scaling
  exact ⟨v, h1, h2⟩

/-- C20, counterexample: for the second canonical variate of the dependent set of the
example, `(ρ e)' (ρ e) = 4` and the scaling `e' ρ e` is 0; the call on the range `2 .. 2`
returns `+inf`, the infinity of the division `4 / 0`, and not the NaN that is Praat's
`undefined`. -/
theorem CCA_Correlation_getVarianceFraction_zero_scaling_counterexample :
    CCA_Correlation_getVarianceFraction exampleCCA exampleCorrelation 1 2 2 = .ok .posInf ∧
      CCA_Correlation_getVarianceFraction exampleCCA exampleCorrelation 1 2 2 ≠ .ok .nan := by
  have hterm := getVarianceFraction_term_eq exampleCorrelation 3 exampleCCA.y.eigenvectors 0 2
    exampleCorrelationCells (fun j => if j = 1 then 1 else if j = 2 then -1 else 0)
    (fun i j _ _ _ _ => by simp only [zero_add]; rfl)
    (fun j h1 h2 => exampleCCA_y_cells j h1 h2)
  rw [exampleCCA_scaling, exampleCCA_variance] at hterm
  have hval : CCA_Correlation_getVarianceFraction exampleCCA exampleCorrelation 1 2 2 =
      .ok .posInf := by
    rw [getVarianceFraction_ok exampleCCA exampleCorrelation 1 2 2
      (check_ok exampleCCA exampleCorrelation 2 2 rfl (by decide) (by decide) (by decide))]
    have hr : intRange 2 2 = [2] := by decide
    have hy : exampleCCA.y.dimension = 3 := rfl
    rw [Flt.sum, hr]
    simp only [List.foldl, if_true, hy, hterm]
    norm_num [Flt.div, Flt.add]
  refine ⟨hval, ?_⟩
  rw [hval]
  intro h
  cases h

end VarianceWitnesses

/-! ## The redundancy `CCA_Correlation_getRedundancy_sl` and the additivity of the variance fraction -/

section RedundancyLemmas

variable {K : Type} [LinearOrderedField K]

theorem intRange_single (a : Int) : intRange a a = [a] := by
  rw [intRange_cons le_rfl, intRange_nil (by omega)]

theorem intRange_append {lo m hi : Int} (h1 : lo ≤ m + 1) (h2 : m ≤ hi) :
    intRange lo hi = intRange lo m ++ intRange (m + 1) hi := by
  obtain ⟨n, hn⟩ : ∃ n : Nat, n = (m + 1 - lo).toNat := ⟨_, rfl⟩
  induction n generalizing lo with
  | zero =>
    have : lo = m + 1 := by omega
    subst this
    rw [intRange_nil (show m < m + 1 by omega), List.nil_append]
  | succ k ih =>
    have hle : lo ≤ m := by omega
    rw [intRange_cons (le_trans hle h2), intRange_cons hle, ih (by omega) (by omega),
      List.cons_append]

theorem Flt.add_zero_left (a : Flt K) : Flt.add (.finite 0) a = a := by
  cases a <;> simp [Flt.add]

theorem Flt.add_associative (a b c : Flt K) :
    Flt.add (Flt.add a b) c = Flt.add a (Flt.add b c) := by
  cases a <;> cases b <;> cases c <;> simp [Flt.add, add_assoc]

theorem Flt.foldl_add (f : Int → Flt K) :
    ∀ (l : List Int) (acc : Flt K),
      l.foldl (fun r k => Flt.add r (f k)) acc =
        Flt.add acc (l.foldl (fun r k => Flt.add r (f k)) (.finite 0)) := by
  intro l
  induction l with
  | nil => intro acc; cases acc <;> simp [Flt.add]
  | cons a t ih =>
    intro acc
    rw [List.foldl_cons, List.foldl_cons, ih (Flt.add acc (f a)), ih (Flt.add (.finite 0) (f a)),
      Flt.add_zero_left, Flt.add_associative]

/-- An accumulation over one index is its term. -/
theorem Flt.sum_single (a : Int) (f : Int → Flt K) : Flt.sum a a f = f a := by
  rw [Flt.sum, intRange_single, List.foldl_cons, List.foldl_nil, Flt.add_zero_left]

/-- An accumulation over `lo .. hi` is that over `lo .. m` plus that over `m + 1 .. hi`. -/
theorem Flt.sum_split (lo m hi : Int) (f : Int → Flt K) (h1 : lo ≤ m + 1) (h2 : m ≤ hi) :
    Flt.sum lo hi f = Flt.add (Flt.sum lo m f) (Flt.sum (m + 1) hi f) := by
  rw [Flt.sum, intRange_append h1 h2, List.foldl_append, Flt.foldl_add]
  rfl

/-- The variance fraction of the single canonical variate `icv` is its contribution. -/
theorem getVarianceFraction_single (me : CCA K) (thee : Correlation K) (x_or_y icv : Int)
    (hmatch : me.y.dimension + me.x.dimension = thee.numberOfColumns)
    (h1 : 1 ≤ icv) (h2 : icv ≤ me.numberOfCoefficients) :
    CCA_Correlation_getVarianceFraction me thee x_or_y icv icv =
      .ok (CCA_Correlation_getVarianceFraction_term thee
        (if x_or_y = 1 then me.y.dimension else me.x.dimension)
        (if x_or_y = 1 then me.y.eigenvectors else me.x.eigenvectors)
        (if x_or_y = 1 then 0 else me.y.dimension) icv) := by
  rw [getVarianceFraction_ok me thee x_or_y icv icv (check_ok me thee icv icv hmatch le_rfl h1 h2),
    Flt.sum_single]

/-- The loop of the redundancy while every single-variate variance fraction is defined. -/
theorem getRedundancy_sl_loop_defined (me : CCA K) (thee : Correlation K) (x_or_y : Int)
    (vf : Int → Flt K) :
    ∀ (l : List Int) (redundancy : Flt K),
      (∀ icv ∈ l, CCA_Correlation_getVarianceFraction me thee x_or_y icv icv = .ok (vf icv)) →
      (∀ icv ∈ l, (vf icv).isundef = false) →
      CCA_Correlation_getRedundancy_sl_loop me thee x_or_y l redundancy =
        .ok (l.foldl (fun r icv =>
          Flt.add r (Flt.mul (vf icv) (Flt.ofDbl (me.y.eigenvalues.cells icv)))) redundancy) := by
  intro l
  induction l with
  | nil => intro r _ _; rfl
  | cons icv rest ih =>
    intro r hvf hdef
    have h1 := hvf icv (List.mem_cons_self icv rest)
    have h2 := hdef icv (List.mem_cons_self icv rest)
    rw [CCA_Correlation_getRedundancy_sl_loop, h1]
    simp only [h2, Bool.false_eq_true, if_false, List.foldl_cons]
    exact ih _ (fun k hk => hvf k (List.mem_cons_of_mem icv hk))
      (fun k hk => hdef k (List.mem_cons_of_mem icv hk))

/-- The loop of the redundancy when a single-variate variance fraction is undefined. -/
theorem getRedundancy_sl_loop_undefined (me : CCA K) (thee : Correlation K) (x_or_y : Int)
    (vf : Int → Flt K) :
    ∀ (l : List Int) (redundancy : Flt K),
      (∀ icv ∈ l, CCA_Correlation_getVarianceFraction me thee x_or_y icv icv = .ok (vf icv)) →
      (∃ icv ∈ l, (vf icv).isundef = true) →
      CCA_Correlation_getRedundancy_sl_loop me thee x_or_y l redundancy = .ok .nan := by
  intro l
  induction l with
  | nil => intro r _ h; obtain ⟨k, hk, _⟩ := h; cases hk
  | cons icv rest ih =>
    intro r hvf hundef
    have h1 := hvf icv (List.mem_cons_self icv rest)
    rw [CCA_Correlation_getRedundancy_sl_loop, h1]
    by_cases hu : (vf icv).isundef = true
    · simp only [hu, if_true]
    · simp only [hu, Bool.false_eq_true, if_false]
      obtain ⟨k, hk, hfk⟩ := hundef
      rcases List.mem_cons.mp hk with rfl | hk'
      · exact absurd hfk hu
      · exact ih _ (fun k hk => hvf k (List.mem_cons_of_mem icv hk)) ⟨k, hk', hfk⟩

end RedundancyLemmas

section RedundancyTheorems

variable {K : Type} [LinearOrderedField K]

/-- C21: on a valid range `from .. to`, with `varianceFraction icv` the number that
`CCA_Correlation_getVarianceFraction` returns for the single canonical variate `icv` of the
selected set: when `isundef` holds of none of them, `CCA_Correlation_getRedundancy_sl`
returns the accumulated sum over `icv` in `from .. to` of
`varianceFraction icv * y.eigenvalue [icv]`, the eigenvalue being that of the dependent set
`y` whichever set is selected (for finite fractions `v icv` and defined eigenvalues
`lam icv`, the number `Σ v icv * lam icv`); when `isundef` holds of one of them, it returns
the NaN that is `undefined`. -/
theorem CCA_Correlation_getRedundancy_sl_formula (me : CCA K) (thee : Correlation K)
    (x_or_y from_ to_ : Int)
    (hmatch : me.y.dimension + me.x.dimension = thee.numberOfColumns)
    (hrange : from_ ≤ to_) (hfrom : 1 ≤ from_) (hto : to_ ≤ me.numberOfCoefficients) :
    ∃ varianceFraction : Int → Flt K,
      (∀ icv, from_ ≤ icv → icv ≤ to_ →
        CCA_Correlation_getVarianceFraction me thee x_or_y icv icv =
          .ok (varianceFraction icv)) ∧
      ((∀ icv, from_ ≤ icv → icv ≤ to_ → (varianceFraction icv).isundef = false) →
        CCA_Correlation_getRedundancy_sl me thee x_or_y from_ to_ =
          .ok (Flt.sum from_ to_ (fun icv =>
            Flt.mul (varianceFraction icv) (Flt.ofDbl (me.y.eigenvalues.cells icv))))) ∧
      (∀ v lam : Int → K,
        (∀ icv, from_ ≤ icv → icv ≤ to_ → varianceFraction icv = .finite (v icv)) →
        (∀ icv, from_ ≤ icv → icv ≤ to_ → me.y.eigenvalues.cells icv = some (lam icv)) →
        CCA_Correlation_getRedundancy_sl me thee x_or_y from_ to_ =
          .ok (.finite (∑ icv ∈ Finset.Icc from_ to_, v icv * lam icv))) ∧
      ((∃ icv, from_ ≤ icv ∧ icv ≤ to_ ∧ (varianceFraction icv).isundef = true) →
        CCA_Correlation_getRedundancy_sl me thee x_or_y from_ to_ = .ok .nan) := by
  have hvf : ∀ icv ∈ intRange from_ to_,
      CCA_Correlation_getVarianceFraction me thee x_or_y icv icv =
        .ok (CCA_Correlation_getVarianceFraction_term thee
          (if x_or_y = 1 then me.y.dimension else me.x.dimension)
          (if x_or_y = 1 then me.y.eigenvectors else me.x.eigenvectors)
          (if x_or_y = 1 then 0 else me.y.dimension) icv) := by
    intro icv hicv
    have := mem_intRange.mp hicv
    exact getVarianceFraction_single me thee x_or_y icv hmatch (by omega) (by omega)
  have hdefined : (∀ icv, from_ ≤ icv → icv ≤ to_ →
        (CCA_Correlation_getVarianceFraction_term thee
          (if x_or_y = 1 then me.y.dimension else me.x.dimension)
          (if x_or_y = 1 then me.y.eigenvectors else me.x.eigenvectors)
          (if x_or_y = 1 then 0 else me.y.dimension) icv).isundef = false) →
      CCA_Correlation_getRedundancy_sl me thee x_or_y from_ to_ =
        .ok (Flt.sum from_ to_ (fun icv =>
          Flt.mul (CCA_Correlation_getVarianceFraction_term thee
              (if x_or_y = 1 then me.y.dimension else me.x.dimension)
              (if x_or_y = 1 then me.y.eigenvectors else me.x.eigenvectors)
              (if x_or_y = 1 then 0 else me.y.dimension) icv)
            (Flt.ofDbl (me.y.eigenvalues.cells icv)))) := by
    intro hdef
    simp only [CCA_Correlation_getRedundancy_sl, check_ok me thee from_ to_ hmatch hrange hfrom hto]
    exact getRedundancy_sl_loop_defined me thee x_or_y _ _ _ hvf
      (fun icv hicv => hdef icv (mem_intRange.mp hicv).1 (mem_intRange.mp hicv).2)
  refine ⟨_, fun icv h1 h2 => hvf icv (mem_intRange.mpr ⟨h1, h2⟩), hdefined, ?_, ?_⟩
  · intro v lam hv hlam
    rw [hdefined (fun icv h1 h2 => by rw [hv icv h1 h2]; rfl)]
    congr 1
    apply Flt.sum_finite
    intro icv h1 h2
    rw [hv icv h1 h2, hlam icv h1 h2]
    rfl
  · rintro ⟨icv, h1, h2, hu⟩
    simp only [CCA_Correlation_getRedundancy_sl, check_ok me thee from_ to_ hmatch hrange hfrom hto]
    exact getRedundancy_sl_loop_undefined me thee x_or_y _ _ _ hvf
      ⟨icv, mem_intRange.mpr ⟨h1, h2⟩, hu⟩

/-- C25: for `1 <= from <= m < to <= numberOfCoefficients`, the three calls of
`CCA_Correlation_getVarianceFraction` on `from .. to`, `from .. m` and `m + 1 .. to` return
numbers, the first is the sum of the other two, and it is the accumulated sum over `icv` in
`from .. to` of the numbers that the calls on the single variates `icv .. icv` return, which
are those that `CCA_Correlation_getRedundancy_sl` uses. -/
theorem CCA_Correlation_getVarianceFraction_additive (me : CCA K) (thee : Correlation K)
    (x_or_y from_ m to_ : Int)
    (hmatch : me.y.dimension + me.x.dimension = thee.numberOfColumns)
    (hfrom : 1 ≤ from_) (hm1 : from_ ≤ m) (hm2 : m < to_)
    (hto : to_ ≤ me.numberOfCoefficients) :
    ∃ (whole left right : Flt K) (single : Int → Flt K),
      CCA_Correlation_getVarianceFraction me thee x_or_y from_ to_ = .ok whole ∧
      CCA_Correlation_getVarianceFraction me thee x_or_y from_ m = .ok left ∧
      CCA_Correlation_getVarianceFraction me thee x_or_y (m + 1) to_ = .ok right ∧
      whole = Flt.add left right ∧
      (∀ icv, from_ ≤ icv → icv ≤ to_ →
        CCA_Correlation_getVarianceFraction me thee x_or_y icv icv = .ok (single icv)) ∧
      whole = Flt.sum from_ to_ single :=
  ⟨_, _, _, _,
    getVarianceFraction_ok me thee x_or_y from_ to_
      (check_ok me thee from_ to_ hmatch (by omega) hfrom hto),
    getVarianceFraction_ok me thee x_or_y from_ m
      (check_ok me thee from_ m hmatch hm1 hfrom (by omega)),
    getVarianceFraction_ok me thee x_or_y (m + 1) to_
      (check_ok me thee (m + 1) to_ hmatch (by omega) (by omega) hto),
    Flt.sum_split from_ m to_ _ (by omega) (by omega),
    fun icv h1 h2 => getVarianceFraction_single me thee x_or_y icv hmatch (by omega) (by omega),
    rfl⟩

end RedundancyTheorems

section RedundancyWitnesses

/-- The variance fraction of a single canonical variate of the independent set of the
example is `(1 / 1) / 2`. -/
theorem exampleCCA_x_single (icv : Int) (h1 : 1 ≤ icv) (h2 : icv ≤ 2) :
    CCA_Correlation_getVarianceFraction exampleCCA exampleCorrelation 2 icv icv =
      .ok (.finite (1 / 2)) := by
  rw [getVarianceFraction_single exampleCCA exampleCorrelation 2 icv rfl h1 h2]
  have hx : exampleCCA.x.dimension = 2 := rfl
  have hy : exampleCCA.y.dimension = 3 := rfl
  simp only [show ¬ ((2 : Int) = 1) by decide, if_false, hx, hy]
  rw [getVarianceFraction_term_finite exampleCorrelation 2 exampleCCA.x.eigenvectors 3 icv
    (fun i j => if i = j then 1 else 0) (fun j => if icv = j then 1 else 0)
    (fun i j h1 h2 h3 h4 => by
      simp only [exampleCorrelation, exampleCorrelationCells]
      interval_cases i <;> interval_cases j <;> norm_num)
    (fun j _ _ => by
      simp only [exampleCCA]
      split_ifs <;> rfl)
    (by
      simp only [exampleMAT_sum]
      interval_cases icv <;> norm_num)]
  simp only [exampleMAT_sum]
  interval_cases icv <;> norm_num

/-- C21, witness: on the example, range `1 .. 2`: for the independent set both variance
fractions are `1 / 2` and the redundancy is `1/2 * 1/2 + 1/2 * 1/4 = 3/8`, with the
eigenvalues of the dependent set; for the dependent set the variance fraction of the second
variate is undefined and the redundancy is the NaN that is `undefined`. -/
theorem CCA_Correlation_getRedundancy_sl_formula_witness :
    CCA_Correlation_getRedundancy_sl exampleCCA exampleCorrelation 2 1 2 =
        .ok (.finite (3 / 8)) ∧
      CCA_Correlation_getRedundancy_sl exampleCCA exampleCorrelation 1 1 2 = .ok .nan := by
  constructor
  · obtain ⟨vf, hvf, _, hfinite, _⟩ :=
      CCA_Correlation_getRedundancy_sl_formula exampleCCA exampleCorrelation 2 1 2
        rfl (by decide) (by decide) (by decide)
    rw [hfinite (fun _ => 1 / 2) (fun icv => if icv = 1 then 1 / 2 else 1 / 4)
      (fun icv h1 h2 => Except.ok.inj ((hvf icv h1 h2).symm.trans (exampleCCA_x_single icv h1 h2)))
      (fun icv _ _ => by
        simp only [exampleCCA]
        split_ifs <;> rfl)]
    simp only [exampleMAT_sum]
    norm_num
  · obtain ⟨vf, hvf, _, _, hundefined⟩ :=
      CCA_Correlation_getRedundancy_sl_formula exampleCCA exampleCorrelation 1 1 2
        rfl (by decide) (by decide) (by decide)
    apply hundefined
    obtain ⟨v, hv, hu⟩ := getVarianceFraction_zero_scaling exampleCCA exampleCorrelation 1 2 2 2
      exampleCorrelationCells (fun j => if j = 1 then 1 else if j = 2 then -1 else 0)
      rfl (by decide) (by decide) (by decide) (by decide)
      (fun i j _ _ _ _ => by
        simp only [if_true, zero_add]
        rfl)
      (fun j h1 h2 => exampleCCA_y_cells j h1 h2)
      exampleCCA_scaling
    refine ⟨2, by decide, by decide, ?_⟩
    rw [Except.ok.inj ((hvf 2 (by decide) (by decide)).symm.trans hv)]
    exact hu

/-- C25, witness: the independent set of the example with `from = 1`, `m = 1`, `to = 2`:
the variance fraction of `1 .. 2` is the sum of those of `1 .. 1` and `2 .. 2`, which are
both `1 / 2`. -/
theorem CCA_Correlation_getVarianceFraction_additive_witness :
    ∃ whole left right : Flt ℚ,
      CCA_Correlation_getVarianceFraction exampleCCA exampleCorrelation 2 1 2 = .ok whole ∧
      CCA_Correlation_getVarianceFraction exampleCCA exampleCorrelation 2 1 1 = .ok left ∧
      CCA_Correlation_getVarianceFraction exampleCCA exampleCorrelation 2 2 2 = .ok right ∧
      whole = Flt.add left right ∧ left = .finite (1 / 2) ∧ right = .finite (1 / 2) := by
  obtain ⟨whole, left, right, single, h1, h2, h3, h4, _, _⟩ :=
    CCA_Correlation_getVarianceFraction_additive exampleCCA exampleCorrelation 2 1 1 2
      rfl (by decide) (by decide) (by decide) (by decide)
  exact ⟨whole, left, right, h1, h2, h3, h4,
    Except.ok.inj (h2.symm.trans (exampleCCA_x_single 1 (by decide) (by decide))),
    Except.ok.inj (h3.symm.trans (exampleCCA_x_single 2 (by decide) (by decide)))⟩

end RedundancyWitnesses

/-! ## Bounds on the variance fraction and the redundancy of one canonical variate -/

section BoundLemmas

variable {K : Type} [LinearOrderedField K]

/-- The inequality of Cauchy and Schwarz for a symmetric positive semi-definite block `ρ`
with unit diagonal, applied to a unit vector and `e`: the square of a cell of `ρ e` is at
most `e' ρ e`. -/
theorem psd_cell_sq_le (n : Int) (ρ : Int → Int → K) (e : Int → K)
    (hsym : ∀ i j, 1 ≤ i → i ≤ n → 1 ≤ j → j ≤ n → ρ i j = ρ j i)
    (hdiag : ∀ i, 1 ≤ i → i ≤ n → ρ i i = 1)
    (hpsd : ∀ u : Int → K, 0 ≤ ∑ i ∈ Finset.Icc 1 n, u i * ∑ j ∈ Finset.Icc 1 n, ρ i j * u j)
    (i0 : Int) (h1 : 1 ≤ i0) (h2 : i0 ≤ n) :
    (∑ j ∈ Finset.Icc 1 n, ρ i0 j * e j) ^ 2 ≤
      ∑ i ∈ Finset.Icc 1 n, e i * ∑ j ∈ Finset.Icc 1 n, ρ i j * e j := by
  have hmem : i0 ∈ Finset.Icc 1 n := Finset.mem_Icc.mpr ⟨h1, h2⟩
  obtain ⟨w, hw⟩ : ∃ w : Int → K, ∀ i, ∑ j ∈ Finset.Icc 1 n, ρ i j * e j = w i :=
    ⟨_, fun _ => rfl⟩
  have hinner : ∀ (t : K) (i : Int),
      ∑ j ∈ Finset.Icc 1 n, ρ i j * ((if j = i0 then 1 else 0) + t * e j) =
        ρ i i0 + t * w i := by
    intro t i
    rw [← hw i, Finset.mul_sum]
    simp only [mul_add, Finset.sum_add_distrib, mul_ite, mul_one, mul_zero, Finset.sum_ite_eq',
      hmem, if_true]
    congr 1
    apply Finset.sum_congr rfl
    intro j _
    ring
  have hcol : ∑ i ∈ Finset.Icc 1 n, e i * ρ i i0 = w i0 := by
    rw [← hw i0]
    apply Finset.sum_congr rfl
    intro i hi
    rw [hsym i i0 (Finset.mem_Icc.mp hi).1 (Finset.mem_Icc.mp hi).2 h1 h2, mul_comm]
  have hterm : ∀ (t : K) (i : Int),
      ((if i = i0 then (1 : K) else 0) + t * e i) * (ρ i i0 + t * w i) =
        (if i = i0 then ρ i i0 + t * w i else 0) + (t * (e i * ρ i i0) + t * t * (e i * w i)) := by
    intro t i
    split_ifs <;> ring
  have key : ∀ t : K,
      0 ≤ (∑ i ∈ Finset.Icc 1 n, e i * w i) * (t * t) + 2 * w i0 * t + 1 := by
    intro t
    have h := hpsd (fun j => (if j = i0 then 1 else 0) + t * e j)
    simp only [hinner, hterm, Finset.sum_add_distrib, ← Finset.mul_sum, Finset.sum_ite_eq', hmem,
      if_true, hcol, hdiag i0 h1 h2] at h
    linarith
  have hd : discrim (∑ i ∈ Finset.Icc 1 n, e i * w i) (2 * w i0) 1 ≤ 0 := discrim_le_zero key
  simp only [discrim] at hd
  simp only [hw]
  nlinarith

/-- For a symmetric positive semi-definite block with unit diagonal, `(ρ e)' (ρ e)` is at
most `n` times `e' ρ e`. -/
theorem psd_variance_le (n : Int) (ρ : Int → Int → K) (e : Int → K) (hn : 0 ≤ n)
    (hsym : ∀ i j, 1 ≤ i → i ≤ n → 1 ≤ j → j ≤ n → ρ i j = ρ j i)
    (hdiag : ∀ i, 1 ≤ i → i ≤ n → ρ i i = 1)
    (hpsd : ∀ u : Int → K, 0 ≤ ∑ i ∈ Finset.Icc 1 n, u i * ∑ j ∈ Finset.Icc 1 n, ρ i j * u j) :
    ∑ i ∈ Finset.Icc 1 n, (∑ j ∈ Finset.Icc 1 n, ρ i j * e j) ^ 2 ≤
      (n : K) * ∑ i ∈ Finset.Icc 1 n, e i * ∑ j ∈ Finset.Icc 1 n, ρ i j * e j := by
  have h := Finset.sum_le_sum (fun i hi =>
    psd_cell_sq_le n ρ e hsym hdiag hpsd i (Finset.mem_Icc.mp hi).1 (Finset.mem_Icc.mp hi).2)
  rw [Finset.sum_const, Int.card_Icc, nsmul_eq_mul] at h
  have hc : (((n + 1 - 1).toNat : Nat) : K) = (n : K) := by
    have : (((n + 1 - 1).toNat : Nat) : Int) = n := by omega
    exact_mod_cast congrArg (fun z : Int => (z : K)) this
  rw [hc] at h
  exact h

/-- The contribution of one canonical variate with non-zero scaling, for a symmetric
positive semi-definite block with unit diagonal, is a finite number in `[0, 1]`. -/
theorem getVarianceFraction_term_bounds (thee : Correlation K) (n : Int) (evec : MAT (Dbl K))
    (ioffset icv : Int) (ρ : Int → Int → K) (e : Int → K)
    (hρ : ∀ i j, 1 ≤ i → i ≤ n → 1 ≤ j → j ≤ n →
      thee.data.cells (ioffset + i) (ioffset + j) = some (ρ i j))
    (he : ∀ j, 1 ≤ j → j ≤ n → evec.cells icv j = some (e j))
    (hsym : ∀ i j, 1 ≤ i → i ≤ n → 1 ≤ j → j ≤ n → ρ i j = ρ j i)
    (hdiag : ∀ i, 1 ≤ i → i ≤ n → ρ i i = 1)
    (hpsd : ∀ u : Int → K, 0 ≤ ∑ i ∈ Finset.Icc 1 n, u i * ∑ j ∈ Finset.Icc 1 n, ρ i j * u j)
    (hscal : ∑ i ∈ Finset.Icc 1 n, e i * ∑ j ∈ Finset.Icc 1 n, ρ i j * e j ≠ 0) :
    ∃ v : K, CCA_Correlation_getVarianceFraction_term thee n evec ioffset icv = .finite v ∧
      0 ≤ v ∧ v ≤ 1 := by
  refine ⟨_, getVarianceFraction_term_finite thee n evec ioffset icv ρ e hρ he hscal, ?_, ?_⟩
  all_goals
    have hn : 0 < n := by
      by_contra hcon
      apply hscal
      rw [Finset.Icc_eq_empty (by omega)]
      simp
    have hnK : (0 : K) < (n : K) := by exact_mod_cast hn
    have hC : 0 < ∑ i ∈ Finset.Icc 1 n, e i * ∑ j ∈ Finset.Icc 1 n, ρ i j * e j :=
      lt_of_le_of_ne (hpsd e) (Ne.symm hscal)
    have hV : 0 ≤ ∑ i ∈ Finset.Icc 1 n, (∑ j ∈ Finset.Icc 1 n, ρ i j * e j) ^ 2 :=
      Finset.sum_nonneg (fun i _ => sq_nonneg _)
  · exact div_nonneg (div_nonneg hV hC.le) hnK.le
  · rw [div_div, div_le_one (mul_pos hC hnK), mul_comm]
    exact psd_variance_le n ρ e hn.le hsym hdiag hpsd

end BoundLemmas

section BoundTheorems

variable {K : Type} [LinearOrderedField K]

/-- C22: for a single canonical variate `icv` of a valid model, with `ρ` the diagonal block
of the correlation matrix for the selected set, symmetric positive semi-definite with unit
diagonal, `e` the eigenvector of the variate with non-zero scaling `e' ρ e`, and the
canonical eigenvalue `y.eigenvalue [icv]` in `[0, 1]`: both functions return finite numbers
and `0 <= getRedundancy_sl (icv, icv) <= getVarianceFraction (icv, icv) <= 1`. -/
theorem CCA_Correlation_getRedundancy_sl_bounds (me : CCA K) (thee : Correlation K)
    (x_or_y icv : Int) (ρ : Int → Int → K) (e : Int → K) (lam : K)
    (hmatch : me.y.dimension + me.x.dimension = thee.numberOfColumns)
    (hicv1 : 1 ≤ icv) (hicv2 : icv ≤ me.numberOfCoefficients)
    (hρ : ∀ i j, 1 ≤ i → i ≤ (if x_or_y = 1 then me.y.dimension else me.x.dimension) → 1 ≤ j →
      j ≤ (if x_or_y = 1 then me.y.dimension else me.x.dimension) →
      thee.data.cells ((if x_or_y = 1 then 0 else me.y.dimension) + i)
        ((if x_or_y = 1 then 0 else me.y.dimension) + j) = some (ρ i j))
    (he : ∀ j, 1 ≤ j → j ≤ (if x_or_y = 1 then me.y.dimension else me.x.dimension) →
      (if x_or_y = 1 then me.y.eigenvectors else me.x.eigenvectors).cells icv j = some (e j))
    (hsym : ∀ i j, 1 ≤ i → i ≤ (if x_or_y = 1 then me.y.dimension else me.x.dimension) →
      1 ≤ j → j ≤ (if x_or_y = 1 then me.y.dimension else me.x.dimension) → ρ i j = ρ j i)
    (hdiag : ∀ i, 1 ≤ i → i ≤ (if x_or_y = 1 then me.y.dimension else me.x.dimension) →
      ρ i i = 1)
    (hpsd : ∀ u : Int → K,
      0 ≤ ∑ i ∈ Finset.Icc 1 (if x_or_y = 1 then me.y.dimension else me.x.dimension),
        u i * ∑ j ∈ Finset.Icc 1 (if x_or_y = 1 then me.y.dimension else me.x.dimension),
          ρ i j * u j)
    (hscaling :
      ∑ i ∈ Finset.Icc 1 (if x_or_y = 1 then me.y.dimension else me.x.dimension),
        e i * ∑ j ∈ Finset.Icc 1 (if x_or_y = 1 then me.y.dimension else me.x.dimension),
          ρ i j * e j ≠ 0)
    (hlam : me.y.eigenvalues.cells icv = some lam) (hlam0 : 0 ≤ lam) (hlam1 : lam ≤ 1) :
    ∃ varianceFraction redundancy : K,
      CCA_Correlation_getVarianceFraction me thee x_or_y icv icv =
        .ok (.finite varianceFraction) ∧
      CCA_Correlation_getRedundancy_sl me thee x_or_y icv icv = .ok (.finite redundancy) ∧
      0 ≤ redundancy ∧ redundancy ≤ varianceFraction ∧ varianceFraction ≤ 1 := by
  obtain ⟨v, hterm, hv0, hv1⟩ := getVarianceFraction_term_bounds thee _ _ _ icv ρ e hρ he
    hsym hdiag hpsd hscaling
  have hvf : CCA_Correlation_getVarianceFraction me thee x_or_y icv icv = .ok (.finite v) := by
    rw [getVarianceFraction_single me thee x_or_y icv hmatch hicv1 hicv2, hterm]
  have hred : CCA_Correlation_getRedundancy_sl me thee x_or_y icv icv =
      .ok (.finite (v * lam)) := by
    simp only [CCA_Correlation_getRedundancy_sl,
      check_ok me thee icv icv hmatch le_rfl hicv1 hicv2, intRange_single]
    rw [getRedundancy_sl_loop_defined me thee x_or_y (fun _ => (Flt.finite v : Flt K)) [icv]
      (.finite 0)
      (fun k hk => by rw [List.mem_singleton.mp hk]; exact hvf) (fun _ _ => rfl)]
    rw [List.foldl_cons, List.foldl_nil, Flt.add_zero_left, hlam]
    rfl
  exact ⟨v, v * lam, hvf, hred, mul_nonneg hv0 hlam0, mul_le_of_le_one_right hv0 hlam1, hv1⟩

end BoundTheorems

section BoundWitnesses

/-- C22, witness: the first canonical variate of the independent set of the example, whose
block is the unit matrix: the variance fraction is `1 / 2` and the redundancy `1 / 4`. -/
theorem CCA_Correlation_getRedundancy_sl_bounds_witness :
    ∃ varianceFraction redundancy : ℚ,
      CCA_Correlation_getVarianceFraction exampleCCA exampleCorrelation 2 1 1 =
        .ok (.finite varianceFraction) ∧
      CCA_Correlation_getRedundancy_sl exampleCCA exampleCorrelation 2 1 1 =
        .ok (.finite redundancy) ∧
      0 ≤ redundancy ∧ redundancy ≤ varianceFraction ∧ varianceFraction ≤ 1 := by
  have hx : exampleCCA.x.dimension = 2 := rfl
  have hy : exampleCCA.y.dimension = 3 := rfl
  exact CCA_Correlation_getRedundancy_sl_bounds exampleCCA exampleCorrelation 2 1
    (fun i j => if i = j then 1 else 0) (fun j => if 1 = j then 1 else 0) (1 / 2)
    rfl (by decide) (by decide)
    (fun i j h1 h2 h3 h4 => by
      simp only [show ¬ ((2 : Int) = 1) by decide, if_false, hx, hy] at h2 h4 ⊢
      simp only [exampleCorrelation, exampleCorrelationCells]
      interval_cases i <;> interval_cases j <;> norm_num)
    (fun j _ _ => by
      simp only [show ¬ ((2 : Int) = 1) by decide, if_false, exampleCCA]
      split_ifs <;> rfl)
    (fun i j _ _ _ _ => by
      by_cases h : i = j
      · rw [h]
      · simp only [if_neg h, if_neg (Ne.symm h)])
    (fun i _ _ => if_pos rfl)
    (fun u => by
      simp only [show ¬ ((2 : Int) = 1) by decide, if_false, hx, exampleMAT_sum]
      norm_num
      nlinarith [mul_self_nonneg (u 1), mul_self_nonneg (u 2)])
    (by
      simp only [show ¬ ((2 : Int) = 1) by decide, if_false, hx, exampleMAT_sum]
      norm_num)
    rfl (by norm_num) (by norm_num)

end BoundWitnesses

/-! ## The eigenvalues included by `PCA_getEqualityOfEigenvalues` -/

section RunLemmas

variable {K : Type} [LinearOrderedField K]

/-- The three results on a range whose first eigenvalue is positive, in terms of the list
of the included eigenvalues. -/
theorem getEqualityOfEigenvalues_outputs (log : K → K)
    (NUMchiSquareQ : Dbl K → Dbl K → Dbl K) (me : PCA K) (ev : Int → K)
    (from_ to_ conservative : Int) (out : EqualityCells K)
    (h1 : 0 < from_) (h2 : from_ < to_) (h3 : to_ ≤ me.numberOfEigenvalues)
    (hev : ∀ i, from_ ≤ i → i ≤ to_ → me.eigenvalues.cells i = some (ev i))
    (hpos : 0 < ev from_) :
    let r : K := ((includedEigenvalues ev from_ to_).length : K)
    let sum : K := (includedEigenvalues ev from_ to_).sum
    let sumOfLogs : K := ((includedEigenvalues ev from_ to_).map log).sum
    let n : K := ((me.numberOfObservations : K) - 1) -
      (if conservative ≠ 0 then (from_ : K) + (r * (2 * r + 1) + 2) / (6 * r) else 0)
    let degreesOfFreedom : K := r * (r + 1) / 2 - 1
    let chiSquare : K := n * (r * log (sum / r) - sumOfLogs)
    PCA_getEqualityOfEigenvalues log NUMchiSquareQ me from_ to_ conservative out =
      ⟨store out.p_prob (NUMchiSquareQ (some chiSquare) (some degreesOfFreedom)),
        store out.p_chisq (some chiSquare), store out.p_df (some degreesOfFreedom)⟩ := by
  intro r sum sumOfLogs n degreesOfFreedom chiSquare
  have hrange : PCA_getEqualityOfEigenvalues_range me from_ to_ = (from_, to_) := by
    have : ¬ (from_ = 0 ∧ to_ = 0) := by omega
    simp [PCA_getEqualityOfEigenvalues_range, this]
  have hguard : from_ < to_ ∧ from_ > 0 ∧ to_ ≤ me.numberOfEigenvalues := ⟨h2, h1, h3⟩
  have hloop := loop_spec log me.eigenvalues ev to_ (to_ + 1 - from_).toNat from_ 0 0 rfl hev
  have hne := includedEigenvalues_ne_nil ev from_ to_ h2.le hpos
  have hsum : 0 < sum := List.sum_pos _ (includedEigenvalues_pos ev from_ to_) hne
  have hlen : 0 < (includedEigenvalues ev from_ to_).length := List.length_pos.mpr hne
  have hr : 0 < r := by
    show (0 : K) < ((includedEigenvalues ev from_ to_).length : K)
    exact_mod_cast hlen
  have hr0 : r ≠ 0 := ne_of_gt hr
  have hdiv : 0 < sum / r := div_pos hsum hr
  have h6 : (6 : K) * r ≠ 0 := by positivity
  have hs0 : ¬ (includedEigenvalues ev from_ to_).sum = 0 := ne_of_gt hsum
  have hrK : ((((includedEigenvalues ev from_ to_).length : Int) : Int) : K) = r := by
    simp [r]
  have e1 : ddiv (some (includedEigenvalues ev from_ to_).sum)
      (ofInt ((includedEigenvalues ev from_ to_).length : Int)) = some (sum / r) := by
    simp only [ddiv, ofInt, hrK, hr0, if_false]
  have e2 : Dlog log (some (sum / r)) = some (log (sum / r)) := by
    simp only [Dlog, hdiv, if_true]
  have e3 : (ofInt (Int.tdiv (((includedEigenvalues ev from_ to_).length : Int) *
      (((includedEigenvalues ev from_ to_).length : Int) + 1)) 2 - 1) : Dbl K) =
      some degreesOfFreedom := by
    simp only [ofInt, Int.cast_sub, Int.cast_one,
      cast_tdiv_two ((includedEigenvalues ev from_ to_).length : Int) (by positivity), hrK,
      degreesOfFreedom]
  have e4 : (if conservative ≠ 0 then
        dsub (ofInt (me.numberOfObservations - 1))
          (dadd (ofInt from_)
            (ddiv (ofInt (((includedEigenvalues ev from_ to_).length : Int) *
              (2 * ((includedEigenvalues ev from_ to_).length : Int) + 1) + 2))
              (dmul (some 6) (ofInt ((includedEigenvalues ev from_ to_).length : Int)))))
      else ofInt (me.numberOfObservations - 1) : Dbl K) = some n := by
    by_cases hc : conservative ≠ 0
    · simp only [if_pos hc, ofInt, dmul, ddiv, hrK, h6, if_false, dadd, dsub, n]
      push_cast
      simp only [hrK]
    · simp only [if_neg hc, ofInt, n]
      push_cast
      simp
  simp only [PCA_getEqualityOfEigenvalues, hrange, if_pos hguard, hloop, zero_add, deq, hs0,
    decide_False, Bool.false_eq_true, if_false, add_sub_cancel_left, e1, e2, e3, e4]
  simp only [ofInt, hrK, dmul, dsub]

end RunLemmas

section RunTheorems

variable {K : Type} [LinearOrderedField K]

end RunTheorems

section RunWitnesses

end RunWitnesses

/-! ## The sign of the statistic of `PCA_getEqualityOfEigenvalues` -/

section ChiSquareLemmas

theorem sum_map_affine (c d : ℝ) (l : List ℝ) :
    (l.map (fun x => x / c + d)).sum = l.sum / c + (l.length : ℝ) * d := by
  induction l with
  | nil => simp
  | cons a t ih =>
    simp only [List.map_cons, List.sum_cons, List.length_cons, ih]
    push_cast
    ring

/-- The inequality of the arithmetic and the geometric mean, in logarithms: for positive
numbers, the sum of the logarithms is at most `r` times the logarithm of the mean. -/
theorem sum_log_le (l : List ℝ) (hpos : ∀ x ∈ l, 0 < x) (hne : l ≠ []) :
    (l.map Real.log).sum ≤ (l.length : ℝ) * Real.log (l.sum / (l.length : ℝ)) := by
  have hlen : (0 : ℝ) < (l.length : ℝ) := by exact_mod_cast List.length_pos.mpr hne
  have hsum : 0 < l.sum := List.sum_pos _ hpos hne
  have ha : 0 < l.sum / (l.length : ℝ) := div_pos hsum hlen
  have hterm : ∀ x ∈ l, Real.log x ≤
      x / (l.sum / (l.length : ℝ)) + (Real.log (l.sum / (l.length : ℝ)) - 1) := by
    intro x hx
    have hx0 := hpos x hx
    have h1 := Real.log_le_sub_one_of_pos (div_pos hx0 ha)
    rw [Real.log_div (ne_of_gt hx0) (ne_of_gt ha)] at h1
    linarith
  have h := List.sum_le_sum hterm
  rw [sum_map_affine] at h
  have e : l.sum / (l.sum / (l.length : ℝ)) = (l.length : ℝ) := by
    field_simp
  rw [e] at h
  linarith

theorem sum_log_eq_of_equal {K : Type} [LinearOrderedField K] (log : K → K) (l : List K) (c : K)
    (h : ∀ x ∈ l, x = c) (hne : l ≠ []) :
    (l.length : K) * log (l.sum / (l.length : K)) - (l.map log).sum = 0 := by
  have hlen : (l.length : K) ≠ 0 := by
    have : 0 < l.length := List.length_pos.mpr hne
    exact_mod_cast this.ne'
  have hl : l = List.replicate l.length c := List.eq_replicate_of_mem h
  have hsum : l.sum = (l.length : K) * c := by
    conv_lhs => rw [hl]
    simp
  have hlog : (l.map log).sum = (l.length : K) * log c := by
    conv_lhs => rw [hl]
    simp
  rw [hsum, hlog, mul_div_cancel_left₀ c hlen, sub_self]

end ChiSquareLemmas


section ChiSquareTheorems

/-- C24: over the reals with the natural logarithm, on a range with
`0 < from < to <= numberOfEigenvalues` whose eigenvalues are defined and whose first
eigenvalue is positive, for a model with `numberOfObservations >= 1` and without the
conservative correction: `sumOfLogs <= r * ln (sum / r)` for the `r >= 1` included
eigenvalues (the inequality of the arithmetic and the geometric mean), the delivered
`chisq = (numberOfObservations - 1) * (r * ln (sum / r) - sumOfLogs)` is not negative, and
it is zero when all included eigenvalues are equal. -/
theorem PCA_getEqualityOfEigenvalues_chiSquare_nonneg
    (NUMchiSquareQ : Dbl ℝ → Dbl ℝ → Dbl ℝ) (me : PCA ℝ) (ev : Int → ℝ)
    (from_ to_ : Int) (out : EqualityCells ℝ)
    (h1 : 0 < from_) (h2 : from_ < to_) (h3 : to_ ≤ me.numberOfEigenvalues)
    (hev : ∀ i, from_ ≤ i → i ≤ to_ → me.eigenvalues.cells i = some (ev i))
    (hpos : 0 < ev from_) (hobs : 1 ≤ me.numberOfObservations) :
    let r : ℝ := ((includedEigenvalues ev from_ to_).length : ℝ)
    let sum : ℝ := (includedEigenvalues ev from_ to_).sum
    let sumOfLogs : ℝ := ((includedEigenvalues ev from_ to_).map Real.log).sum
    let degreesOfFreedom : ℝ := r * (r + 1) / 2 - 1
    let chiSquare : ℝ := ((me.numberOfObservations : ℝ) - 1) * (r * Real.log (sum / r) - sumOfLogs)
    PCA_getEqualityOfEigenvalues Real.log NUMchiSquareQ me from_ to_ 0 out =
        ⟨store out.p_prob (NUMchiSquareQ (some chiSquare) (some degreesOfFreedom)),
          store out.p_chisq (some chiSquare), store out.p_df (some degreesOfFreedom)⟩ ∧
      1 ≤ r ∧ sumOfLogs ≤ r * Real.log (sum / r) ∧ 0 ≤ chiSquare ∧
      (∀ c : ℝ, (∀ x ∈ includedEigenvalues ev from_ to_, x = c) → chiSquare = 0) := by
  intro r sum sumOfLogs degreesOfFreedom chiSquare
  have hne := includedEigenvalues_ne_nil ev from_ to_ h2.le hpos
  have hle : sumOfLogs ≤ r * Real.log (sum / r) :=
    sum_log_le (includedEigenvalues ev from_ to_) (includedEigenvalues_pos ev from_ to_) hne
  have hn : (0 : ℝ) ≤ (me.numberOfObservations : ℝ) - 1 := by
    have : ((1 : Int) : ℝ) ≤ (me.numberOfObservations : ℝ) := by exact_mod_cast hobs
    simpa using this
  refine ⟨?_, ?_, hle, mul_nonneg hn (sub_nonneg.mpr hle), ?_⟩
  · have h := getEqualityOfEigenvalues_outputs Real.log NUMchiSquareQ me ev from_ to_ 0 out
      h1 h2 h3 hev hpos
    simp only [ne_eq, not_true_eq_false, if_false, sub_zero] at h
    exact h
  · have : 1 ≤ (includedEigenvalues ev from_ to_).length :=
      Nat.succ_le_of_lt (List.length_pos.mpr hne)
    show (1 : ℝ) ≤ ((includedEigenvalues ev from_ to_).length : ℝ)
    exact_mod_cast this
  · intro c hc
    show ((me.numberOfObservations : ℝ) - 1) * (r * Real.log (sum / r) - sumOfLogs) = 0
    rw [sum_log_eq_of_equal Real.log (includedEigenvalues ev from_ to_) c hc hne, mul_zero]

end ChiSquareTheorems

section ChiSquareWitnesses

/-- C24, witness: eigenvalues 4, 2, 1 over the reals, ten observations, range 1 .. 3,
without the conservative correction: the call stores a `chisq` that is not negative. -/
theorem PCA_getEqualityOfEigenvalues_chiSquare_nonneg_witness :
    ∃ chiSquare : ℝ,
      (PCA_getEqualityOfEigenvalues Real.log (fun _ _ => undefined) examplePCAreal 1 3 0
        ⟨some (some 7), some (some 8), some (some 9)⟩).p_chisq = some (some chiSquare) ∧
      0 ≤ chiSquare := by
  obtain ⟨h, _, _, hnonneg, _⟩ :=
    PCA_getEqualityOfEigenvalues_chiSquare_nonneg (fun _ _ => undefined) examplePCAreal
      (fun i => if i = 1 then 4 else if i = 2 then 2 else 1) 1 3
      ⟨some (some 7), some (some 8), some (some 9)⟩
      (by decide) (by decide) (by simp [examplePCAreal])
      (by intro i _ _; simp only [examplePCAreal]; split_ifs <;> rfl)
      (by norm_num) (by simp [examplePCAreal])
  exact ⟨_, by rw [h]; rfl, hnonneg⟩

end ChiSquareWitnesses

end Praat
